import Mathlib

/-!
# zyl_json_parser: value model, recursive-descent parser and generator

A shallow embedding of `Json.hpp`, `struct_JsonParser.cpp` and `JsonGenerator.cpp`.

* A text (`std::string`, `std::string_view`) is a `List Char`; one `Char` stands for one
  byte of the buffer, and the order on keys is the lexicographic order of `std::string`.
* The parser state is the buffer `json_str` and the cursor `pos`.  A production takes the
  cursor and returns an `Outcome`: the engaged optional together with the new cursor, the
  empty optional together with the new cursor, an exception that leaves the parser, or a
  read of `json_str[i]` with `i` outside the buffer.
* `std::map<std::string, Node>` is an association list kept in strictly ascending key
  order by `Object.assign`, the embedding of `obj[key] = value`.
* `double` values are not interpreted: `std::stod` and `std::to_string(double)` are
  parameters of the parser and of the generator.
-/

namespace json

/-- A byte string: `std::string` and `std::string_view`. -/
abbrev Text := List Char

/-- The payload of `Float = double`, kept as an uninterpreted 64-bit pattern. -/
structure Double where
  bits : Nat
deriving DecidableEq

/-- The variant `Value` of `Json.hpp`; `Node` is the one-field struct around it, so the two
are identified.  `Array = std::vector<Node>`, `Object = std::map<std::string, Node>`. -/
inductive Value where
  | Null
  | Bool (b : Bool)
  | Int (n : Int)
  | Float (x : Double)
  | String (s : Text)
  | Array (a : List Value)
  | Object (o : List (Text × Value))

/-- The struct `Node`: a cell holding exactly one `Value`. -/
abbrev Node := Value

/-- The default constructor `Node() : value(Null{})`. -/
instance Value.inhabited : Inhabited Value := ⟨Value.Null⟩

/-- The container `Object = std::map<std::string, Node>`, entries in ascending key order. -/
abbrev Object := List (Text × Node)

/-- The character `"` (byte 34). -/
def dquote : Char := '"'

/-- The assignment `obj[key] = val` of `std::map`: replace the value at an existing key, or
insert the pair at its place in the key order. -/
def Object.assign : Object → Text → Node → Object
  | [], key, val => [(key, val)]
  | (k, v) :: rest, key, val =>
    if key < k then (key, val) :: (k, v) :: rest
    else if key = k then (key, val) :: rest
    else (k, v) :: Object.assign rest key val

/-- What a parser production does: it returns an engaged optional (`value`) or the empty
optional (`nullopt`), in both cases leaving the cursor at `pos`; or an exception leaves the
parser (`bad_optional_access` from `optional::value()`, `out_of_range` from
`string_view::substr`); or it reads `json_str[i]` with `i >= json_str.size()`
(`out_of_bounds`, undefined behaviour).  `out_of_fuel` belongs to the model only: the
recursion bound of `parse_value` was reached. -/
inductive Outcome (α : Type) where
  | value (v : α) (pos : Nat)
  | nullopt (pos : Nat)
  | bad_optional_access
  | out_of_range
  | out_of_bounds
  | out_of_fuel

/-- The classifier `std::isspace` in the "C" locale: space, `\t`, `\n`, `\v`, `\f`, `\r`
(bytes 32 and 9 to 13); every other byte, also one above 127, is not white space. -/
def isspace (c : Char) : Bool :=
  c.toNat = 32 || (9 ≤ c.toNat && c.toNat ≤ 13)

/-- The classifier `std::isdigit`: `0` to `9`. -/
def isdigit (c : Char) : Bool :=
  48 ≤ c.toNat && c.toNat ≤ 57

/-- The loop `while (i < size && p(json_str[i])) ++i`, run on the unread part of the
buffer (`json_str` from `i` on); it returns the final `i`. -/
def scan_while (p : Char → Bool) : Text → Nat → Nat
  | [], i => i
  | c :: rest, i => if p c then scan_while p rest (i + 1) else i

/-- The call `json_str.substr(pos, n)` of `std::string_view`: it throws `std::out_of_range`
(`none`) when `pos > size`, and otherwise returns at most `n` bytes from `pos` on. -/
def substr (json_str : Text) (pos n : Nat) : Option Text :=
  if pos > json_str.length then none else some ((json_str.drop pos).take n)

/-- The member `JsonParser::parse_whitespace`. -/
def parse_whitespace (json_str : Text) (pos : Nat) : Nat :=
  scan_while isspace (json_str.drop pos) pos

/-- The member `JsonParser::parse_null`. -/
def parse_null (json_str : Text) (pos : Nat) : Outcome Node :=
  match substr json_str pos 4 with
  | none => .out_of_range
  | some w => if w = "null".toList then .value .Null (pos + 4) else .nullopt pos

/-- The member `JsonParser::parse_true`. -/
def parse_true (json_str : Text) (pos : Nat) : Outcome Node :=
  match substr json_str pos 4 with
  | none => .out_of_range
  | some w => if w = "true".toList then .value (.Bool true) (pos + 4) else .nullopt pos

/-- The member `JsonParser::parse_false`. -/
def parse_false (json_str : Text) (pos : Nat) : Outcome Node :=
  match substr json_str pos 5 with
  | none => .out_of_range
  | some w => if w = "false".toList then .value (.Bool false) (pos + 5) else .nullopt pos

/-- The largest `int`, the result type of `std::stoi` (32 bits). -/
def INT_MAX : Int := 2147483647

/-- The smallest `int`. -/
def INT_MIN : Int := -2147483648

/-- The value of a run of decimal digits. -/
def digits_value (ds : Text) : Nat :=
  ds.foldl (fun acc c => 10 * acc + (c.toNat - 48)) 0

/-- The call `std::stoi(str)` in base 10: skip leading white space, read an optional sign
and the longest run of digits; `none` stands for the exception (`std::invalid_argument`
when there is no digit, `std::out_of_range` when the value is not an `int`). -/
def stoi (str : Text) : Option Int :=
  let str := str.dropWhile isspace
  let signed : Bool × Text :=
    match str with
    | c :: rest => if c = '-' then (true, rest) else if c = '+' then (false, rest) else (false, str)
    | [] => (false, str)
  let ds := signed.2.takeWhile isdigit
  if ds = [] then none
  else
    let v : Int := if signed.1 then -(digits_value ds : Int) else (digits_value ds : Int)
    if INT_MIN ≤ v ∧ v ≤ INT_MAX then some v else none

/-- The lambda `is_Float` of `parse_number`: the lexeme contains `.` or `e`. -/
def is_Float (number : Text) : Bool :=
  number.contains '.' || number.contains 'e'

/-- The test of the number scan: a decimal digit, `e` or `.`. -/
def is_number_char (c : Char) : Bool :=
  isdigit c || c = 'e' || c = '.'

/-- The member `JsonParser::parse_number`; `stod` is `std::stod`, `none` its exception. -/
def parse_number (stod : Text → Option Double) (json_str : Text) (pos : Nat) : Outcome Node :=
  let endpos := scan_while is_number_char (json_str.drop pos) pos
  match substr json_str pos (endpos - pos) with
  | none => .out_of_range
  | some number =>
    if is_Float number then
      match stod number with
      | some ret => .value (.Float ret) endpos
      | none => .nullopt endpos
    else
      match stoi number with
      | some ret => .value (.Int ret) endpos
      | none => .nullopt endpos

/-- The loop `while (pos < size && json_str[endpos] != dquote) endpos++` of `parse_string`
once `pos < size` holds, run on the buffer from `endpos` on: `none` when `json_str[endpos]`
is read with `endpos` outside the buffer. -/
def find_quote : Text → Nat → Option Nat
  | [], _ => none
  | c :: rest, endpos => if c ≠ dquote then find_quote rest (endpos + 1) else some endpos

/-- The member `JsonParser::parse_string`. -/
def parse_string (json_str : Text) (pos : Nat) : Outcome Node :=
  let pos := pos + 1
  let scan : Option Nat :=
    if pos < json_str.length then find_quote (json_str.drop pos) pos else some pos
  match scan with
  | none => .out_of_bounds
  | some endpos =>
    match substr json_str pos (endpos - pos) with
    | none => .out_of_range
    | some str => .value (.String str) (endpos + 1)

/-- The test `pos < size && json_str[pos] == c`. -/
def at_is (json_str : Text) (pos : Nat) (c : Char) : Bool :=
  match json_str[pos]? with
  | some d => d = c
  | none => false

/-- The test `pos < size && json_str[pos] != c`. -/
def at_is_not (json_str : Text) (pos : Nat) (c : Char) : Bool :=
  match json_str[pos]? with
  | some d => d ≠ c
  | none => false

/-- The steps after an element or a member: `parse_whitespace(); if (pos < size &&
json_str[pos] == sep) pos++; parse_whitespace();`, returning the cursor. -/
def skip_separator (json_str : Text) (pos : Nat) (sep : Char) : Nat :=
  let pos := parse_whitespace json_str pos
  let pos := if at_is json_str pos sep then pos + 1 else pos
  parse_whitespace json_str pos

mutual
/-- The member `JsonParser::parse_value`; the first argument after the buffer bounds the
depth of the recursion. -/
def parse_value (stod : Text → Option Double) (json_str : Text) : Nat → Nat → Outcome Node
  | 0, _ => .out_of_fuel
  | fuel + 1, pos =>
    let pos := parse_whitespace json_str pos
    match json_str[pos]? with
    | none => .out_of_bounds
    | some c =>
      if c = 'n' then parse_null json_str pos
      else if c = 't' then parse_true json_str pos
      else if c = 'f' then parse_false json_str pos
      else if c = dquote then parse_string json_str pos
      else if c = '[' then parse_array_loop stod json_str fuel (pos + 1) []
      else if c = '{' then parse_object_loop stod json_str fuel (pos + 1) []
      else parse_number stod json_str pos
/-- The loop of `JsonParser::parse_array` with its exit (`pos++; return arr;`), entered
with the cursor `pos` and the elements `arr` read so far. -/
def parse_array_loop (stod : Text → Option Double) (json_str : Text) :
    Nat → Nat → List Node → Outcome Node
  | 0, _, _ => .out_of_fuel
  | fuel + 1, pos, arr =>
    if at_is_not json_str pos ']' then
      match parse_value stod json_str fuel pos with
      | .value value pos =>
        parse_array_loop stod json_str fuel (skip_separator json_str pos ',') (arr ++ [value])
      | .nullopt _ => .bad_optional_access
      | .bad_optional_access => .bad_optional_access
      | .out_of_range => .out_of_range
      | .out_of_bounds => .out_of_bounds
      | .out_of_fuel => .out_of_fuel
    else .value (.Array arr) (pos + 1)
/-- The loop of `JsonParser::parse_object` with its exit (`pos++; return obj;`), entered
with the cursor `pos` and the map `obj` built so far. -/
def parse_object_loop (stod : Text → Option Double) (json_str : Text) :
    Nat → Nat → Object → Outcome Node
  | 0, _, _ => .out_of_fuel
  | fuel + 1, pos, obj =>
    if at_is_not json_str pos ('}') then
      match parse_value stod json_str fuel pos with
      | .value key pos =>
        let pos := parse_whitespace json_str pos
        match key with
        | .String k =>
          let pos := if at_is json_str pos ':' then pos + 1 else pos
          let pos := parse_whitespace json_str pos
          match parse_value stod json_str fuel pos with
          | .value val pos =>
            parse_object_loop stod json_str fuel (skip_separator json_str pos ',')
              (Object.assign obj k val)
          | .nullopt _ => .bad_optional_access
          | .bad_optional_access => .bad_optional_access
          | .out_of_range => .out_of_range
          | .out_of_bounds => .out_of_bounds
          | .out_of_fuel => .out_of_fuel
        | _ => .nullopt pos
      | .nullopt _ => .bad_optional_access
      | .bad_optional_access => .bad_optional_access
      | .out_of_range => .out_of_range
      | .out_of_bounds => .out_of_bounds
      | .out_of_fuel => .out_of_fuel
    else .value (.Object obj) (pos + 1)
end

/-- The member `JsonParser::parse_array`: `pos++`, then the loop. -/
def parse_array (stod : Text → Option Double) (json_str : Text) (fuel pos : Nat) :
    Outcome Node :=
  parse_array_loop stod json_str fuel (pos + 1) []

/-- The member `JsonParser::parse_object`: `pos++`, then the loop. -/
def parse_object (stod : Text → Option Double) (json_str : Text) (fuel pos : Nat) :
    Outcome Node :=
  parse_object_loop stod json_str fuel (pos + 1) []

/-- The member `JsonParser::parse`, run from the cursor `pos`.  The recursion bound
`2 * size + 1` is never reached (`parser_fuel`). -/
def parse (stod : Text → Option Double) (json_str : Text) (pos : Nat) : Outcome Node :=
  let pos := parse_whitespace json_str pos
  match parse_value stod json_str (2 * json_str.length + 1) pos with
  | .value value pos => .value value pos
  | .nullopt pos => .nullopt pos
  | .bad_optional_access => .bad_optional_access
  | .out_of_range => .out_of_range
  | .out_of_bounds => .out_of_bounds
  | .out_of_fuel => .out_of_fuel

/-- The function `parser`: a fresh `JsonParser` on `json_str` with `pos = 0`, then `parse`. -/
def parser (stod : Text → Option Double) (json_str : Text) : Outcome Node :=
  parse stod json_str 0

/-- The call `std::to_string` on an `Int`: the decimal digits, after `-` when negative. -/
def to_string (n : Int) : Text :=
  if n < 0 then '-' :: Nat.toDigits 10 n.natAbs else Nat.toDigits 10 n.natAbs

/-- The member `JsonGenerator::generate_string`. -/
def generate_string (str : Text) : Text :=
  [dquote] ++ str ++ [dquote]

/-- The call `json_str.pop_back()`. -/
def pop_back (json_str : Text) : Text :=
  json_str.dropLast

mutual
/-- The member `JsonGenerator::generate`, with the bodies of `generate_array` and
`generate_object` in place; `dtoa` is `std::to_string` on a `double`. -/
def generate (dtoa : Double → Text) : Node → Text
  | .Null => "null".toList
  | .Bool arg => if arg then "true".toList else "false".toList
  | .Int arg => to_string arg
  | .Float arg => dtoa arg
  | .String arg => generate_string arg
  | .Array array =>
    let json_str := '[' :: generate_array_loop dtoa array
    let json_str := if !array.isEmpty then pop_back json_str else json_str
    json_str ++ [']']
  | .Object object =>
    let json_str := '{' :: generate_object_loop dtoa object
    let json_str := if !object.isEmpty then pop_back json_str else json_str
    json_str
/-- What the `for` loop of `generate_array` appends to `json_str`. -/
def generate_array_loop (dtoa : Double → Text) : List Node → Text
  | [] => []
  | node :: rest => generate dtoa node ++ [','] ++ generate_array_loop dtoa rest
/-- What the `for` loop of `generate_object` appends to `json_str`. -/
def generate_object_loop (dtoa : Double → Text) : List (Text × Node) → Text
  | [] => []
  | (key, node) :: rest =>
    generate_string key ++ [':'] ++ generate dtoa node ++ [','] ++
      generate_object_loop dtoa rest
end

/-- The member `JsonGenerator::generate_array`. -/
def generate_array (dtoa : Double → Text) (array : List Node) : Text :=
  generate dtoa (.Array array)

/-- The member `JsonGenerator::generate_object`. -/
def generate_object (dtoa : Double → Text) (object : Object) : Text :=
  generate dtoa (.Object object)

/-- The std::map invariant on one container: the keys are strictly ascending. -/
def keys_ascending (o : Object) : Prop :=
  List.Pairwise (fun a b : Text × Node => a.1 < b.1) o

instance keys_ascending_decidable (o : Object) : Decidable (keys_ascending o) :=
  inferInstanceAs (Decidable (List.Pairwise (fun a b : Text × Node => a.1 < b.1) o))

mutual
/-- The std::map invariant on a whole tree: in every `Object` of the tree the keys are
strictly ascending (so no key occurs twice). -/
def ordered : Node → Bool
  | .Array a => ordered_elements a
  | .Object o => decide (keys_ascending o) && ordered_members o
  | _ => true
/-- Every element satisfies `ordered`. -/
def ordered_elements : List Node → Bool
  | [] => true
  | v :: rest => ordered v && ordered_elements rest
/-- Every member value satisfies `ordered`. -/
def ordered_members : List (Text × Node) → Bool
  | [] => true
  | (_, v) :: rest => ordered v && ordered_members rest
end

mutual
/-- The standard compact JSON text of a tree, in the words of the spec: `null`, `true`,
`false`, the decimal digits of an Int, a String between two `"` with its bytes unchanged,
`[` e1 `,` ... `,` en `]`, and `{` "k1" `:` v1 `,` ... `}` with the members in the order
in which the tree lists them; every closing bracket is present and there is no white
space.  A Float is rendered by the host conversion `dtoa`. -/
def compact_text (dtoa : Double → Text) : Node → Text
  | .Null => "null".toList
  | .Bool b => if b then "true".toList else "false".toList
  | .Int n => to_string n
  | .Float x => dtoa x
  | .String s => [dquote] ++ s ++ [dquote]
  | .Array a => ['['] ++ compact_elements dtoa a ++ [']']
  | .Object o => ['{'] ++ compact_members dtoa o ++ ['}']
/-- The comma-joined compact texts of the elements. -/
def compact_elements (dtoa : Double → Text) : List Node → Text
  | [] => []
  | v :: [] => compact_text dtoa v
  | v :: w :: rest => compact_text dtoa v ++ [','] ++ compact_elements dtoa (w :: rest)
/-- The comma-joined items `"key":value` of the members. -/
def compact_members (dtoa : Double → Text) : List (Text × Node) → Text
  | [] => []
  | (k, v) :: [] => [dquote] ++ k ++ [dquote] ++ [':'] ++ compact_text dtoa v
  | (k, v) :: m :: rest =>
    [dquote] ++ k ++ [dquote] ++ [':'] ++ compact_text dtoa v ++ [','] ++
      compact_members dtoa (m :: rest)
end

mutual
/-- The trees whose compact text the parser is claimed to read back: `Null`, `Bool`,
`Int n` with `0 <= n <= INT_MAX`, `String` without `"`, `Array` and `Object` of such trees
with keys without `"`; no `Float` anywhere. -/
def plain : Node → Bool
  | .Null => true
  | .Bool _ => true
  | .Int n => decide (0 ≤ n) && decide (n ≤ INT_MAX)
  | .Float _ => false
  | .String s => !s.contains dquote
  | .Array a => plain_elements a
  | .Object o => plain_members o
/-- Every element satisfies `plain`. -/
def plain_elements : List Node → Bool
  | [] => true
  | v :: rest => plain v && plain_elements rest
/-- Every key is free of `"` and every member value satisfies `plain`. -/
def plain_members : List (Text × Node) → Bool
  | [] => true
  | (k, v) :: rest => !k.contains dquote && plain v && plain_members rest
end

mutual
/-- The tree the parser stores for a tree whose Objects list their members in textual
order: every Object is rebuilt by assigning its members, first to last, into an empty
map (`obj[key] = val`), so a repeated key keeps its last value and the keys come out
ascending. -/
def stored : Node → Node
  | .Array a => .Array (stored_elements a)
  | .Object o => .Object (stored_members o [])
  | .Null => .Null
  | .Bool b => .Bool b
  | .Int n => .Int n
  | .Float x => .Float x
  | .String s => .String s
/-- The stored trees of the elements, in order. -/
def stored_elements : List Node → List Node
  | [] => []
  | v :: rest => stored v :: stored_elements rest
/-- The map after assigning the members, first to last, into `obj`. -/
def stored_members : List (Text × Node) → Object → Object
  | [], obj => obj
  | (k, v) :: rest, obj => stored_members rest (Object.assign obj k (stored v))
end

/-- The value an Object holds at a key (`find`), if any. -/
def Object.find (o : Object) (key : Text) : Option Node :=
  (o.find? (fun m => m.1 = key)).map Prod.snd

/-- What may follow a value in the buffer: the end of the buffer, or a byte that the number
scan does not take (not a digit, `e` or `.`). -/
def number_stop (suf : Text) : Prop :=
  ∀ c ∈ suf.head?, is_number_char c = false

/-- The exceptions the accessors of `Node` throw: `std::runtime_error("not an object")`,
`std::runtime_error("not an array")`, and the `std::out_of_range` of `vector::at`. -/
inductive AccessError where
  | not_an_object
  | not_an_array
  | out_of_range

/-- The call `(*object)[key]` of `std::map`: the map after the call and the Node the
returned reference designates; an absent key is first inserted with the default `Node()`,
which holds Null. -/
def Object.index (object : Object) (key : Text) : Object × Node :=
  match Object.find object key with
  | some node => (object, node)
  | none => (Object.assign object key .Null, .Null)

/-- The member `Node::operator[](const std::string &key)`: the node after the call, and
the Node the returned reference designates or the exception thrown. -/
def index_object (node : Node) (key : Text) : Node × Except AccessError Node :=
  match node with
  | .Object object => (.Object (Object.index object key).1, .ok (Object.index object key).2)
  | _ => (node, .error .not_an_object)

/-- The member `Node::operator[](size_t index)`, which returns a copy of
`array->at(index)`: the node after the call, and the copy or the exception thrown. -/
def index_array (node : Node) (index : Nat) : Node × Except AccessError Node :=
  match node with
  | .Array array =>
    match array[index]? with
    | some element => (node, .ok element)
    | none => (node, .error .out_of_range)
  | _ => (node, .error .not_an_array)

/-- The member `Node::push`: the node after the call. -/
def push (node rhs : Node) : Node :=
  match node with
  | .Array array => .Array (array ++ [rhs])
  | _ => node

/-- The statement `x[key] = rhs` of the demo: `operator[]`, then the assignment through
the returned reference, which designates the entry at `key`. -/
def index_object_assign (node : Node) (key : Text) (rhs : Node) :
    Node × Except AccessError Unit :=
  match node with
  | .Object object => (.Object (Object.assign (Object.index object key).1 key rhs), .ok ())
  | _ => (node, .error .not_an_object)

/-- The statement `x[key].push(rhs)` of the demo: `operator[]`, then `push` on the Node the
returned reference designates, the entry at `key`. -/
def index_object_push (node : Node) (key : Text) (rhs : Node) :
    Node × Except AccessError Unit :=
  match node with
  | .Object object =>
    (.Object (Object.assign (Object.index object key).1 key
      (push (Object.index object key).2 rhs)), .ok ())
  | _ => (node, .error .not_an_object)

mutual
/-- The trees without an Object at any depth. -/
def object_free : Node → Bool
  | .Array a => object_free_elements a
  | .Object _ => false
  | _ => true
/-- Every element satisfies `object_free`. -/
def object_free_elements : List Node → Bool
  | [] => true
  | v :: rest => object_free v && object_free_elements rest
end

/-- The cursor a production leaves when it returns (with a value or with the empty
optional); an exception or a read outside the buffer leaves none. -/
def Outcome.cursor {α : Type} : Outcome α → Option Nat
  | .value _ pos => some pos
  | .nullopt pos => some pos
  | _ => none

/-- The same outcome with the cursor moved `k` bytes to the right: what a production does
on a buffer that has `k` more bytes in front. -/
def Outcome.shift {α : Type} (k : Nat) : Outcome α → Outcome α
  | .value v pos => .value v (k + pos)
  | .nullopt pos => .nullopt (k + pos)
  | .bad_optional_access => .bad_optional_access
  | .out_of_range => .out_of_range
  | .out_of_bounds => .out_of_bounds
  | .out_of_fuel => .out_of_fuel

/-- The parser reads the text `t` as the Node `n`, to the end of `t`: wherever `t` stands
in a buffer, followed by the end of the buffer or by a byte that the number scan does not
take, `parse_value` started on the first byte of `t`, with any recursion bound that
suffices for the buffer, returns `n` and leaves the cursor just past the last byte of
`t`. -/
def reads (stod : Text → Option Double) (t : Text) (n : Node) : Prop :=
  ∀ (s : Text) (pos fuel : Nat) (suf : Text), s.drop pos = t ++ suf → number_stop suf →
    2 * (s.length - pos) + 1 ≤ fuel →
    parse_value stod s fuel pos = .value n (pos + t.length)

/-- The Node that `parser` returns for the text `t` alone; Null when it returns none. -/
def parsed (stod : Text → Option Double) (t : Text) : Node :=
  match parser stod t with
  | .value n _ => n
  | _ => .Null

/-- A sample `std::stod` for the examples: it converts the lexeme `1.5`, to the double
with the bits `0x3FF8000000000000`, and throws on every other lexeme. -/
def stod_sample : Text → Option Double :=
  fun t => if t = "1.5".toList then some ⟨4609434218613702656⟩ else none

/-- Texts joined by commas: `t0,t1,...`. -/
def comma_join : List Text → Text
  | [] => []
  | t :: [] => t
  | t :: u :: rest => t ++ [','] ++ comma_join (u :: rest)

/-- The array text `[` e0 `,` ... `,` e(n-1) `]` of the element texts `es`. -/
def array_text (es : List Text) : Text :=
  ['['] ++ comma_join es ++ [']']

/-- One member of an object text: white space, the key between two `"`, white space, `:`,
white space, the value text, white space.  The key is the bytes between the two `"`. -/
structure Member where
  before_key : Text
  key : Text
  after_key : Text
  before_value : Text
  value : Text
  after_value : Text

/-- The text of a member. -/
def Member.text (m : Member) : Text :=
  m.before_key ++ [dquote] ++ m.key ++ [dquote] ++ m.after_key ++ [':'] ++
    m.before_value ++ m.value ++ m.after_value

/-- The four gaps of the member hold white space only, its key holds no `"`, and `parser`
on its value text alone returns a Node with the cursor at the end of the value text. -/
def Member.well_formed (stod : Text → Option Double) (m : Member) : Prop :=
  (∀ c ∈ m.before_key, isspace c = true) ∧ (∀ c ∈ m.after_key, isspace c = true) ∧
  (∀ c ∈ m.before_value, isspace c = true) ∧ (∀ c ∈ m.after_value, isspace c = true) ∧
  dquote ∉ m.key ∧ ∃ n, parser stod m.value = .value n m.value.length

/-- The object text `{` m1 `,` ... `,` mn `}` of the members, in textual order. -/
def object_text (members : List Member) : Text :=
  ['{'] ++ comma_join (members.map Member.text) ++ ['}']

/-- The map after the assignments `obj[key] = node` for the pairs, first to last. -/
def Object.assign_all : List (Text × Node) → Object → Object
  | [], obj => obj
  | (k, v) :: rest, obj => Object.assign_all rest (Object.assign obj k v)


/-! ## The buffer and the cursor -/

theorem getElem?_of_drop {s : Text} {pos : Nat} {c : Char} {rest : Text}
    (h : s.drop pos = c :: rest) : s[pos]? = some c := by
  rw [← List.head?_drop, h]; rfl

theorem lt_length_of_drop {s : Text} {pos : Nat} {c : Char} {rest : Text}
    (h : s.drop pos = c :: rest) : pos < s.length := by
  by_contra hlt
  rw [List.drop_of_length_le (Nat.le_of_not_lt hlt)] at h
  cases h

theorem drop_add_of_drop {s : Text} {pos : Nat} (x : Text) {suf : Text}
    (h : s.drop pos = x ++ suf) : s.drop (pos + x.length) = suf := by
  rw [← List.drop_drop, h, List.drop_left]

theorem drop_succ_of_drop {s : Text} {pos : Nat} {c : Char} {rest : Text}
    (h : s.drop pos = c :: rest) : s.drop (pos + 1) = rest :=
  drop_add_of_drop [c] h

theorem scan_while_append (p : Char → Bool) (x suf : Text) (i : Nat)
    (hx : ∀ c ∈ x, p c = true) (hs : ∀ c ∈ suf.head?, p c = false) :
    scan_while p (x ++ suf) i = i + x.length := by
  induction x generalizing i with
  | nil =>
    cases suf with
    | nil => simp [scan_while]
    | cons c rest => simp [scan_while, hs c (by simp)]
  | cons c x ih =>
    have hc : p c = true := hx c (by simp)
    have hx2 : ∀ d ∈ x, p d = true := fun d hd => hx d (by simp [hd])
    simp [scan_while, hc, ih (i + 1) hx2]
    omega

theorem scan_while_ge (p : Char → Bool) (x : Text) (i : Nat) : i ≤ scan_while p x i := by
  induction x generalizing i with
  | nil => simp [scan_while]
  | cons c x ih =>
    simp only [scan_while]
    split
    · exact Nat.le_trans (Nat.le_succ i) (ih (i + 1))
    · exact Nat.le_refl i

theorem parse_whitespace_stay {s : Text} {pos : Nat} {suf : Text} (h : s.drop pos = suf)
    (hs : ∀ c ∈ suf.head?, isspace c = false) : parse_whitespace s pos = pos := by
  have := scan_while_append isspace [] suf pos (by simp) hs
  simpa [parse_whitespace, h] using this

theorem parse_whitespace_skip {s : Text} {pos : Nat} (w : Text) {suf : Text}
    (h : s.drop pos = w ++ suf) (hw : ∀ c ∈ w, isspace c = true)
    (hs : ∀ c ∈ suf.head?, isspace c = false) :
    parse_whitespace s pos = pos + w.length := by
  simpa [parse_whitespace, h] using scan_while_append isspace w suf pos hw hs

theorem substr_of_drop {s : Text} {pos : Nat} (x : Text) {suf : Text}
    (h : s.drop pos = x ++ suf) (hpos : pos ≤ s.length) : substr s pos x.length = some x := by
  simp [substr, Nat.not_lt.mpr hpos, h]

theorem at_is_of_drop {s : Text} {pos : Nat} {c : Char} {rest : Text} (d : Char)
    (h : s.drop pos = c :: rest) : at_is s pos d = decide (c = d) := by
  simp [at_is, getElem?_of_drop h]

theorem at_is_not_of_drop {s : Text} {pos : Nat} {c : Char} {rest : Text} (d : Char)
    (h : s.drop pos = c :: rest) : at_is_not s pos d = decide (c ≠ d) := by
  simp [at_is_not, getElem?_of_drop h]

theorem at_is_of_drop_nil {s : Text} {pos : Nat} (d : Char)
    (h : s.drop pos = []) : at_is s pos d = false := by
  have : s[pos]? = none := by rw [← List.head?_drop, h]; rfl
  simp [at_is, this]

theorem at_is_not_of_drop_nil {s : Text} {pos : Nat} (d : Char)
    (h : s.drop pos = []) : at_is_not s pos d = false := by
  have : s[pos]? = none := by rw [← List.head?_drop, h]; rfl
  simp [at_is_not, this]

/-! ## The leaf productions on their own text -/

theorem parse_null_of_drop {s : Text} {pos : Nat} {suf : Text}
    (h : s.drop pos = "null".toList ++ suf) : parse_null s pos = .value .Null (pos + 4) := by
  have hlt : pos < s.length := lt_length_of_drop h
  have := substr_of_drop "null".toList h (Nat.le_of_lt hlt)
  simp only [parse_null]
  rw [show ("null".toList).length = 4 from rfl] at this
  rw [this]; simp

theorem parse_true_of_drop {s : Text} {pos : Nat} {suf : Text}
    (h : s.drop pos = "true".toList ++ suf) :
    parse_true s pos = .value (.Bool true) (pos + 4) := by
  have hlt : pos < s.length := lt_length_of_drop h
  have := substr_of_drop "true".toList h (Nat.le_of_lt hlt)
  simp only [parse_true]
  rw [show ("true".toList).length = 4 from rfl] at this
  rw [this]; simp

theorem parse_false_of_drop {s : Text} {pos : Nat} {suf : Text}
    (h : s.drop pos = "false".toList ++ suf) :
    parse_false s pos = .value (.Bool false) (pos + 5) := by
  have hlt : pos < s.length := lt_length_of_drop h
  have := substr_of_drop "false".toList h (Nat.le_of_lt hlt)
  simp only [parse_false]
  rw [show ("false".toList).length = 5 from rfl] at this
  rw [this]; simp

theorem find_quote_append (body suf : Text) (i : Nat) (hb : dquote ∉ body) :
    find_quote (body ++ dquote :: suf) i = some (i + body.length) := by
  induction body generalizing i with
  | nil => simp [find_quote]
  | cons c body ih =>
    have hc : c ≠ dquote := fun e => hb (by simp [e])
    have hb2 : dquote ∉ body := fun e => hb (by simp [e])
    simp [find_quote, hc, ih (i + 1) hb2]
    omega

theorem parse_string_of_drop {s : Text} {pos : Nat} (body : Text) {suf : Text}
    (h : s.drop pos = dquote :: (body ++ dquote :: suf)) (hb : dquote ∉ body) :
    parse_string s pos = .value (.String body) (pos + body.length + 2) := by
  have h1 : s.drop (pos + 1) = body ++ dquote :: suf := drop_succ_of_drop h
  have hlt : pos + 1 < s.length := by
    cases body with
    | nil => exact lt_length_of_drop h1
    | cons c body => exact lt_length_of_drop h1
  have hsub := substr_of_drop body h1 (Nat.le_of_lt hlt)
  simp only [parse_string, hlt, if_true, h1, find_quote_append body suf (pos + 1) hb]
  rw [show pos + 1 + body.length - (pos + 1) = body.length by omega, hsub]
  simp; omega


/-! ## Decimal numerals -/

theorem digitChar_isdigit (k : Nat) (hk : k < 10) :
    isdigit (Nat.digitChar k) = true ∧ (Nat.digitChar k).toNat - 48 = k := by
  interval_cases k <;> exact ⟨by decide, by decide⟩

theorem digits_value_append (x : Text) (d : Char) :
    digits_value (x ++ [d]) = 10 * digits_value x + (d.toNat - 48) := by
  simp [digits_value, List.foldl_append]

theorem toDigitsCore_spec (fuel : Nat) : ∀ (n : Nat) (ds : Text), n < fuel →
    ∃ x : Text, Nat.toDigitsCore 10 fuel n ds = x ++ ds ∧ x ≠ [] ∧
      (∀ c ∈ x, isdigit c = true) ∧ digits_value x = n := by
  induction fuel with
  | zero => intro n ds h; omega
  | succ fuel ih =>
    intro n ds hn
    have hd := digitChar_isdigit (n % 10) (Nat.mod_lt n (by decide))
    by_cases h0 : n / 10 = 0
    · refine ⟨[Nat.digitChar (n % 10)], ?_, by simp, ?_, ?_⟩
      · simp [Nat.toDigitsCore, h0]
      · intro c hc
        simp only [List.mem_singleton] at hc
        rw [hc]; exact hd.1
      · have : digits_value [Nat.digitChar (n % 10)] = (Nat.digitChar (n % 10)).toNat - 48 := by
          simp [digits_value]
        rw [this, hd.2]
        omega
    · have hlt : n / 10 < fuel := by omega
      obtain ⟨x, hx, _, hdig, hval⟩ := ih (n / 10) (Nat.digitChar (n % 10) :: ds) hlt
      refine ⟨x ++ [Nat.digitChar (n % 10)], ?_, by simp, ?_, ?_⟩
      · simp [Nat.toDigitsCore, h0, hx]
      · intro c hc
        rcases List.mem_append.mp hc with hc | hc
        · exact hdig c hc
        · simp only [List.mem_singleton] at hc
          rw [hc]; exact hd.1
      · rw [digits_value_append, hval, hd.2]
        omega

theorem toDigits_spec (n : Nat) :
    Nat.toDigits 10 n ≠ [] ∧ (∀ c ∈ Nat.toDigits 10 n, isdigit c = true) ∧
      digits_value (Nat.toDigits 10 n) = n := by
  obtain ⟨x, hx, hne, hdig, hval⟩ := toDigitsCore_spec (n + 1) n [] (Nat.lt_succ_self n)
  have : Nat.toDigits 10 n = x := by simp [Nat.toDigits, hx]
  rw [this]
  exact ⟨hne, hdig, hval⟩

theorem isdigit_not_isspace {c : Char} (h : isdigit c = true) : isspace c = false := by
  simp only [isdigit, isspace, Bool.and_eq_true, decide_eq_true_eq, Bool.or_eq_false_iff,
    decide_eq_false_iff_not, Bool.and_eq_false_iff] at *
  omega

theorem isdigit_number_char {c : Char} (h : isdigit c = true) : is_number_char c = true := by
  simp [is_number_char, h]

theorem isdigit_ne {c d : Char} (h : isdigit c = true) (hd : isdigit d = false) : c ≠ d := by
  intro e; rw [e, hd] at h; cases h

theorem stoi_digits (ds : Text) (hne : ds ≠ []) (hdig : ∀ c ∈ ds, isdigit c = true)
    (hmax : (digits_value ds : Int) ≤ INT_MAX) : stoi ds = some (digits_value ds : Int) := by
  cases ds with
  | nil => exact absurd rfl hne
  | cons c rest =>
    have hc : isdigit c = true := hdig c (by simp)
    have hsp : isspace c = false := isdigit_not_isspace hc
    have hm : c ≠ '-' := isdigit_ne hc (by decide)
    have hp : c ≠ '+' := isdigit_ne hc (by decide)
    have htake : List.takeWhile isdigit (c :: rest) = c :: rest :=
      List.takeWhile_eq_self_iff.mpr hdig
    have hmin : INT_MIN ≤ (digits_value (c :: rest) : Int) := by
      have : (0 : Int) ≤ (digits_value (c :: rest) : Int) := Int.ofNat_nonneg _
      have h2 : INT_MIN ≤ 0 := by decide
      exact le_trans h2 this
    simp only [stoi, List.dropWhile, hsp, hm, hp, if_false, htake]
    simp [hmin, hmax]

theorem not_is_Float_of_digits (ds : Text) (hdig : ∀ c ∈ ds, isdigit c = true) :
    is_Float ds = false := by
  have h1 : '.' ∉ ds := fun h => absurd (hdig _ h) (by decide)
  have h2 : 'e' ∉ ds := fun h => absurd (hdig _ h) (by decide)
  simp [is_Float, h1, h2]

theorem parse_number_of_drop (stod : Text → Option Double) {s : Text} {pos : Nat}
    (ds : Text) {suf : Text} (h : s.drop pos = ds ++ suf) (hne : ds ≠ [])
    (hdig : ∀ c ∈ ds, isdigit c = true) (hsuf : ∀ c ∈ suf.head?, is_number_char c = false)
    (hmax : (digits_value ds : Int) ≤ INT_MAX) :
    parse_number stod s pos = .value (.Int (digits_value ds)) (pos + ds.length) := by
  have hlt : pos < s.length := by
    cases ds with
    | nil => exact absurd rfl hne
    | cons c rest => exact lt_length_of_drop h
  have hscan : scan_while is_number_char (s.drop pos) pos = pos + ds.length := by
    rw [h]
    exact scan_while_append is_number_char ds suf pos
      (fun c hc => isdigit_number_char (hdig c hc)) hsuf
  have hsub := substr_of_drop ds h (Nat.le_of_lt hlt)
  simp only [parse_number, hscan]
  rw [show pos + ds.length - pos = ds.length by omega, hsub]
  simp [not_is_Float_of_digits ds hdig, stoi_digits ds hne hdig hmax]

theorem to_string_of_nonneg (n : Int) (h0 : 0 ≤ n) : to_string n = Nat.toDigits 10 n.natAbs := by
  simp [to_string, Int.not_lt.mpr h0]

theorem parse_number_to_string (stod : Text → Option Double) {s : Text} {pos : Nat}
    (n : Int) {suf : Text} (h : s.drop pos = to_string n ++ suf) (h0 : 0 ≤ n)
    (hmax : n ≤ INT_MAX) (hsuf : ∀ c ∈ suf.head?, is_number_char c = false) :
    parse_number stod s pos = .value (.Int n) (pos + (to_string n).length) := by
  obtain ⟨hne, hdig, hval⟩ := toDigits_spec n.natAbs
  rw [to_string_of_nonneg n h0] at h ⊢
  have hn : ((digits_value (Nat.toDigits 10 n.natAbs) : Nat) : Int) = n := by
    rw [hval]; exact Int.natAbs_of_nonneg h0
  have := parse_number_of_drop stod (Nat.toDigits 10 n.natAbs) h hne hdig hsuf (by rw [hn]; exact hmax)
  rw [hn] at this
  exact this


/-! ## The parser on compact text -/

theorem compact_text_head (dtoa : Double → Text) (v : Node) (h : plain v = true) :
    ∃ c rest, compact_text dtoa v = c :: rest ∧ isspace c = false ∧ c ≠ ']' ∧ c ≠ '}' := by
  cases v with
  | Null => exact ⟨'n', "ull".toList, rfl, by decide, by decide, by decide⟩
  | Bool b =>
    cases b
    · exact ⟨'f', "alse".toList, rfl, by decide, by decide, by decide⟩
    · exact ⟨'t', "rue".toList, rfl, by decide, by decide, by decide⟩
  | Int n =>
    have h0 : 0 ≤ n := by
      simp only [plain, Bool.and_eq_true, decide_eq_true_eq] at h
      exact h.1
    obtain ⟨hne, hdig, _⟩ := toDigits_spec n.natAbs
    have ht : compact_text dtoa (.Int n) = Nat.toDigits 10 n.natAbs := by
      simp [compact_text, to_string_of_nonneg n h0]
    cases hd : Nat.toDigits 10 n.natAbs with
    | nil => exact absurd hd hne
    | cons c rest =>
      have hc : isdigit c = true := hdig c (by simp [hd])
      exact ⟨c, rest, by rw [ht, hd], isdigit_not_isspace hc, isdigit_ne hc (by decide),
        isdigit_ne hc (by decide)⟩
  | Float x => simp [plain] at h
  | String s => exact ⟨dquote, s ++ [dquote], by simp [compact_text], by decide, by decide, by decide⟩
  | Array a =>
    exact ⟨'[', compact_elements dtoa a ++ [']'], by simp [compact_text], by decide, by decide,
      by decide⟩
  | Object o =>
    exact ⟨'{', compact_members dtoa o ++ ['}'], by simp [compact_text], by decide, by decide,
      by decide⟩

theorem skip_separator_at {s : Text} {pos : Nat} {sep : Char} {rest : Text}
    (h : s.drop pos = sep :: rest) (hsep : isspace sep = false)
    (hrest : ∀ c ∈ rest.head?, isspace c = false) : skip_separator s pos sep = pos + 1 := by
  have h1 : parse_whitespace s pos = pos :=
    parse_whitespace_stay h (by intro c hc; simp at hc; rw [← hc]; exact hsep)
  have h2 : parse_whitespace s (pos + 1) = pos + 1 :=
    parse_whitespace_stay (drop_succ_of_drop h) hrest
  simp [skip_separator, h1, at_is_of_drop sep h, h2]

theorem skip_separator_other {s : Text} {pos : Nat} {sep c : Char} {rest : Text}
    (h : s.drop pos = c :: rest) (hc : isspace c = false) (hne : c ≠ sep) :
    skip_separator s pos sep = pos := by
  have h1 : parse_whitespace s pos = pos :=
    parse_whitespace_stay h (by intro d hd; simp at hd; rw [← hd]; exact hc)
  simp [skip_separator, h1, at_is_of_drop sep h, hne]


theorem compact_elements_head (dtoa : Double → Text) (v : Node) (rest : List Node)
    (h : plain v = true) :
    ∃ c r, compact_elements dtoa (v :: rest) = c :: r ∧ isspace c = false ∧ c ≠ ']' := by
  obtain ⟨c, r, hc, hsp, hne, _⟩ := compact_text_head dtoa v h
  cases rest with
  | nil => exact ⟨c, r, by simp [compact_elements, hc], hsp, hne⟩
  | cons w rest =>
    exact ⟨c, r ++ [','] ++ compact_elements dtoa (w :: rest), by simp [compact_elements, hc],
      hsp, hne⟩

theorem compact_members_head (dtoa : Double → Text) (m : Text × Node)
    (rest : List (Text × Node)) :
    ∃ r, compact_members dtoa (m :: rest) = dquote :: r := by
  obtain ⟨k, v⟩ := m
  cases rest with
  | nil => exact ⟨_, by simp [compact_members]; rfl⟩
  | cons w rest => exact ⟨_, by simp [compact_members]; rfl⟩

theorem number_stop_cons {c : Char} (rest : Text) (h : is_number_char c = false) :
    number_stop (c :: rest) := by
  intro d hd
  simp at hd
  rw [← hd]; exact h

theorem number_stop_nil : number_stop [] := by
  intro d hd
  simp at hd

theorem head_not_space {c : Char} (rest : Text) (h : isspace c = false) :
    ∀ d ∈ (c :: rest).head?, isspace d = false := by
  intro d hd
  simp at hd
  rw [← hd]; exact h

theorem length_of_drop {s : Text} {pos : Nat} {x : Text} (h : s.drop pos = x) :
    s.length - pos = x.length := by
  rw [← h, List.length_drop]


theorem parse_value_succ (stod : Text → Option Double) (s : Text) (fuel pos : Nat) (c : Char)
    (hws : parse_whitespace s pos = pos) (hget : s[pos]? = some c) :
    parse_value stod s (fuel + 1) pos =
      if c = 'n' then parse_null s pos
      else if c = 't' then parse_true s pos
      else if c = 'f' then parse_false s pos
      else if c = dquote then parse_string s pos
      else if c = '[' then parse_array_loop stod s fuel (pos + 1) []
      else if c = '{' then parse_object_loop stod s fuel (pos + 1) []
      else parse_number stod s pos := by
  simp only [parse_value, hws, hget]

theorem parse_compact_aux (stod : Text → Option Double) (dtoa : Double → Text) (s : Text) :
    ∀ fuel : Nat,
    (∀ (v : Node) (pos : Nat) (suf : Text), plain v = true →
      s.drop pos = compact_text dtoa v ++ suf → number_stop suf →
      2 * (s.length - pos) + 1 ≤ fuel →
      parse_value stod s fuel pos =
        .value (stored v) (pos + (compact_text dtoa v).length)) ∧
    (∀ (a acc : List Node) (pos : Nat) (suf : Text), plain_elements a = true →
      s.drop pos = compact_elements dtoa a ++ ']' :: suf →
      2 * (s.length - pos) + 2 ≤ fuel →
      parse_array_loop stod s fuel pos acc =
        .value (.Array (acc ++ stored_elements a))
          (pos + (compact_elements dtoa a).length + 1)) ∧
    (∀ (o : List (Text × Node)) (obj : Object) (pos : Nat) (suf : Text),
      plain_members o = true →
      s.drop pos = compact_members dtoa o ++ '}' :: suf →
      2 * (s.length - pos) + 2 ≤ fuel →
      parse_object_loop stod s fuel pos obj =
        .value (.Object (stored_members o obj))
          (pos + (compact_members dtoa o).length + 1)) := by
  intro fuel
  induction fuel with
  | zero => exact ⟨by intros; omega, by intros; omega, by intros; omega⟩
  | succ fuel ih =>
    obtain ⟨ihv, iha, iho⟩ := ih
    refine ⟨?_, ?_, ?_⟩
    · intro v pos suf hp hdrop hsuf hfuel
      obtain ⟨c, rest, hhead, hsp, _, _⟩ := compact_text_head dtoa v hp
      have hdrop2 : s.drop pos = c :: (rest ++ suf) := by rw [hdrop, hhead]; rfl
      have hws : parse_whitespace s pos = pos :=
        parse_whitespace_stay hdrop2 (head_not_space _ hsp)
      have hlt := lt_length_of_drop hdrop2
      cases v with
      | Null =>
        have hd : s.drop pos = 'n' :: ("ull".toList ++ suf) := hdrop
        rw [parse_value_succ stod s fuel pos _ hws (getElem?_of_drop hd), if_pos rfl]
        exact parse_null_of_drop hdrop
      | Bool b =>
        cases b
        · have hd : s.drop pos = 'f' :: ("alse".toList ++ suf) := hdrop
          rw [parse_value_succ stod s fuel pos _ hws (getElem?_of_drop hd), if_neg (by decide),
            if_neg (by decide), if_pos rfl]
          exact parse_false_of_drop hdrop
        · have hd : s.drop pos = 't' :: ("rue".toList ++ suf) := hdrop
          rw [parse_value_succ stod s fuel pos _ hws (getElem?_of_drop hd), if_neg (by decide),
            if_pos rfl]
          exact parse_true_of_drop hdrop
      | Int n =>
        simp only [plain, Bool.and_eq_true, decide_eq_true_eq] at hp
        have hdig : isdigit c = true := by
          obtain ⟨_, hdig, _⟩ := toDigits_spec n.natAbs
          have ht : compact_text dtoa (.Int n) = Nat.toDigits 10 n.natAbs := by
            simp [compact_text, to_string_of_nonneg n hp.1]
          exact hdig c (by rw [← ht, hhead]; simp)
        rw [parse_value_succ stod s fuel pos _ hws (getElem?_of_drop hdrop2)]
        rw [if_neg (isdigit_ne hdig (by decide)), if_neg (isdigit_ne hdig (by decide)),
          if_neg (isdigit_ne hdig (by decide)), if_neg (isdigit_ne hdig (by decide)),
          if_neg (isdigit_ne hdig (by decide)), if_neg (isdigit_ne hdig (by decide))]
        exact parse_number_to_string stod n hdrop hp.1 hp.2 hsuf
      | Float x => simp [plain] at hp
      | String str =>
        have hq : dquote ∉ str := by simpa [plain] using hp
        have hd : s.drop pos = dquote :: (str ++ dquote :: suf) := by
          rw [hdrop]; simp [compact_text]
        rw [parse_value_succ stod s fuel pos _ hws (getElem?_of_drop hd)]
        rw [if_neg (by decide), if_neg (by decide), if_neg (by decide), if_pos rfl]
        rw [parse_string_of_drop str hd hq]
        simp [stored, compact_text]
        omega
      | Array a =>
        have hpa : plain_elements a = true := by simpa [plain] using hp
        have hd : s.drop pos = '[' :: (compact_elements dtoa a ++ ']' :: suf) := by
          rw [hdrop]; simp [compact_text]
        rw [parse_value_succ stod s fuel pos _ hws (getElem?_of_drop hd)]
        rw [if_neg (by decide), if_neg (by decide), if_neg (by decide), if_neg (by decide),
          if_pos rfl]
        rw [iha a [] (pos + 1) suf hpa (drop_succ_of_drop hd) (by omega)]
        simp [stored, compact_text]
        omega
      | Object o =>
        have hpo : plain_members o = true := by simpa [plain] using hp
        have hd : s.drop pos = '{' :: (compact_members dtoa o ++ '}' :: suf) := by
          rw [hdrop]; simp [compact_text]
        rw [parse_value_succ stod s fuel pos _ hws (getElem?_of_drop hd)]
        rw [if_neg (by decide), if_neg (by decide), if_neg (by decide), if_neg (by decide),
          if_neg (by decide), if_pos rfl]
        rw [iho o [] (pos + 1) suf hpo (drop_succ_of_drop hd) (by omega)]
        simp [stored, compact_text]
        omega
    · intro a acc pos suf hp hdrop hfuel
      cases a with
      | nil =>
        have hd : s.drop pos = ']' :: suf := by simpa [compact_elements] using hdrop
        simp [parse_array_loop, at_is_not_of_drop ']' hd, stored_elements, compact_elements]
      | cons x rest =>
        have hpx : plain x = true ∧ plain_elements rest = true := by
          simpa [plain_elements] using hp
        obtain ⟨c, r, hhead, hsp, hne⟩ := compact_elements_head dtoa x rest hpx.1
        have hd0 : s.drop pos = c :: (r ++ ']' :: suf) := by rw [hdrop, hhead]; rfl
        have hlt := lt_length_of_drop hd0
        have hcond : at_is_not s pos ']' = true := by
          rw [at_is_not_of_drop ']' hd0]; simp [hne]
        obtain ⟨c1, r1, hx1, _, _, _⟩ := compact_text_head dtoa x hpx.1
        have hxl : 1 ≤ (compact_text dtoa x).length := by rw [hx1]; simp
        cases rest with
        | nil =>
          have hd : s.drop pos = compact_text dtoa x ++ ']' :: suf := by
            simpa [compact_elements] using hdrop
          have hv := ihv x pos (']' :: suf) hpx.1 hd (number_stop_cons _ (by decide)) (by omega)
          have hd2 := drop_add_of_drop _ hd
          have hsk : skip_separator s (pos + (compact_text dtoa x).length) ',' = _ :=
            skip_separator_other hd2 (by decide) (by decide)
          have hl := iha [] (acc ++ [stored x]) (pos + (compact_text dtoa x).length) suf rfl
            (by simpa [compact_elements] using hd2) (by omega)
          simp only [parse_array_loop, hcond, if_true, hv, hsk, hl]
          simp [stored_elements, compact_elements]
        | cons w rest =>
          have hd : s.drop pos = compact_text dtoa x ++
              ',' :: (compact_elements dtoa (w :: rest) ++ ']' :: suf) := by
            rw [hdrop]; simp [compact_elements]
          have hv := ihv x pos _ hpx.1 hd (number_stop_cons _ (by decide)) (by omega)
          have hd2 := drop_add_of_drop _ hd
          have hpw : plain w = true ∧ plain_elements rest = true := by
            simpa [plain_elements] using hpx.2
          obtain ⟨c2, r2, hhead2, hsp2, _⟩ := compact_elements_head dtoa w rest hpw.1
          have hsk : skip_separator s (pos + (compact_text dtoa x).length) ',' = _ :=
            skip_separator_at hd2 (by decide) (by rw [hhead2]; exact head_not_space _ hsp2)
          have hl := iha (w :: rest) (acc ++ [stored x])
            (pos + (compact_text dtoa x).length + 1) suf hpx.2 (drop_succ_of_drop hd2) (by omega)
          simp only [parse_array_loop, hcond, if_true, hv, hsk, hl]
          simp [stored_elements, compact_elements]
          omega
    · intro o obj pos suf hp hdrop hfuel
      cases o with
      | nil =>
        have hd : s.drop pos = '}' :: suf := by simpa [compact_members] using hdrop
        simp [parse_object_loop, at_is_not_of_drop '}' hd, stored_members, compact_members]
      | cons m rest =>
        obtain ⟨k, x⟩ := m
        have hpm : (dquote ∉ k ∧ plain x = true) ∧ plain_members rest = true := by
          simpa [plain_members] using hp
        obtain ⟨r, hhead⟩ := compact_members_head dtoa (k, x) rest
        have hd0 : s.drop pos = dquote :: (r ++ '}' :: suf) := by rw [hdrop, hhead]; rfl
        have hlt := lt_length_of_drop hd0
        have hcond : at_is_not s pos '}' = true := by
          rw [at_is_not_of_drop '}' hd0]; decide
        obtain ⟨c1, r1, hx1, hsp1, _, _⟩ := compact_text_head dtoa x hpm.1.2
        have hxl : 1 ≤ (compact_text dtoa x).length := by rw [hx1]; simp
        have hpk : plain (.String k) = true := by simp [plain, hpm.1.1]
        have hkt : compact_text dtoa (.String k) = [dquote] ++ k ++ [dquote] := by
          simp [compact_text]
        have hkl : (compact_text dtoa (.String k)).length = k.length + 2 := by
          rw [hkt]; simp
        cases rest with
        | nil =>
          have hd : s.drop pos = compact_text dtoa (.String k) ++
              ':' :: (compact_text dtoa x ++ '}' :: suf) := by
            rw [hdrop]; simp [compact_members, compact_text]
          have hlen := length_of_drop hd
          have hkey := ihv (.String k) pos _ hpk hd (number_stop_cons _ (by decide)) (by omega)
          have hd2 := drop_add_of_drop _ hd
          have hws2 : parse_whitespace s (pos + (compact_text dtoa (.String k)).length) = _ :=
            parse_whitespace_stay hd2 (head_not_space _ (by decide))
          have hcolon := at_is_of_drop ':' hd2
          have hd3 := drop_succ_of_drop hd2
          have hws3 : parse_whitespace s (pos + (compact_text dtoa (.String k)).length + 1) = _ :=
            parse_whitespace_stay hd3 (by rw [hx1]; exact head_not_space _ hsp1)
          have hval := ihv x _ _ hpm.1.2 hd3 (number_stop_cons _ (by decide)) (by omega)
          have hd4 := drop_add_of_drop _ hd3
          have hsk : skip_separator s
              (pos + (compact_text dtoa (.String k)).length + 1 + (compact_text dtoa x).length)
              ',' = _ :=
            skip_separator_other hd4 (by decide) (by decide)
          have hl := iho [] (Object.assign obj k (stored x)) _ suf rfl
            (by simpa [compact_members] using hd4) (by omega)
          simp only [parse_object_loop, hcond, if_true, hkey, stored, hws2, hcolon, hws3, hval,
            hsk, hl, decide_True]
          simp [stored_members, compact_members, hkl]
          omega
        | cons m2 rest =>
          have hd : s.drop pos = compact_text dtoa (.String k) ++
              ':' :: (compact_text dtoa x ++
                ',' :: (compact_members dtoa (m2 :: rest) ++ '}' :: suf)) := by
            rw [hdrop]; simp [compact_members, compact_text]
          have hlen := length_of_drop hd
          have hkey := ihv (.String k) pos _ hpk hd (number_stop_cons _ (by decide)) (by omega)
          have hd2 := drop_add_of_drop _ hd
          have hws2 : parse_whitespace s (pos + (compact_text dtoa (.String k)).length) = _ :=
            parse_whitespace_stay hd2 (head_not_space _ (by decide))
          have hcolon := at_is_of_drop ':' hd2
          have hd3 := drop_succ_of_drop hd2
          have hws3 : parse_whitespace s (pos + (compact_text dtoa (.String k)).length + 1) = _ :=
            parse_whitespace_stay hd3 (by rw [hx1]; exact head_not_space _ hsp1)
          have hval := ihv x _ _ hpm.1.2 hd3 (number_stop_cons _ (by decide)) (by omega)
          have hd4 := drop_add_of_drop _ hd3
          obtain ⟨r2, hhead2⟩ := compact_members_head dtoa m2 rest
          have hsk : skip_separator s
              (pos + (compact_text dtoa (.String k)).length + 1 + (compact_text dtoa x).length)
              ',' = _ :=
            skip_separator_at hd4 (by decide) (by rw [hhead2]; exact head_not_space _ (by decide))
          have hl := iho (m2 :: rest) (Object.assign obj k (stored x)) _ suf hpm.2
            (drop_succ_of_drop hd4) (by omega)
          simp only [parse_object_loop, hcond, if_true, hkey, stored, hws2, hcolon, hws3, hval,
            hsk, hl, decide_True]
          simp [stored_members, compact_members, hkl]
          omega


theorem parser_compact_text (stod : Text → Option Double) (dtoa : Double → Text) (v : Node)
    (hp : plain v = true) :
    parser stod (compact_text dtoa v) = .value (stored v) (compact_text dtoa v).length := by
  obtain ⟨c, rest, hhead, hsp, _, _⟩ := compact_text_head dtoa v hp
  have hd : (compact_text dtoa v).drop 0 = compact_text dtoa v ++ [] := by simp
  have hd0 : (compact_text dtoa v).drop 0 = c :: rest := by simp [hhead]
  have hws : parse_whitespace (compact_text dtoa v) 0 = 0 :=
    parse_whitespace_stay hd0 (head_not_space _ hsp)
  have := (parse_compact_aux stod dtoa (compact_text dtoa v)
    (2 * (compact_text dtoa v).length + 1)).1 v 0 [] hp hd number_stop_nil (by omega)
  simp only [parser, parse, hws, this]
  simp

/-! ## The map invariant -/

theorem assign_append (obj : Object) (k : Text) (v : Node) (h : ∀ m ∈ obj, m.1 < k) :
    Object.assign obj k v = obj ++ [(k, v)] := by
  induction obj with
  | nil => rfl
  | cons m rest ih =>
    obtain ⟨k0, v0⟩ := m
    have h0 : k0 < k := h (k0, v0) (by simp)
    have h1 : ¬ k < k0 := lt_asymm h0
    have h2 : k ≠ k0 := fun e => absurd (e ▸ h0) (lt_irrefl _)
    have ih2 := ih (fun m hm => h m (by simp [hm]))
    simp [Object.assign, h1, h2, ih2]

mutual
theorem stored_of_ordered : ∀ v : Node, ordered v = true → stored v = v
  | .Null, _ => rfl
  | .Bool _, _ => rfl
  | .Int _, _ => rfl
  | .Float _, _ => rfl
  | .String _, _ => rfl
  | .Array a, h => by
    have := stored_elements_of_ordered a (by simpa [ordered] using h)
    simp [stored, this]
  | .Object o, h => by
    have h2 : keys_ascending o ∧ ordered_members o = true := by simpa [ordered] using h
    have := stored_members_of_ordered o [] h2.2 (by simpa using h2.1)
    simp [stored, this]
theorem stored_elements_of_ordered : ∀ a : List Node, ordered_elements a = true →
    stored_elements a = a
  | [], _ => rfl
  | v :: rest, h => by
    have h2 : ordered v = true ∧ ordered_elements rest = true := by
      simpa [ordered_elements] using h
    simp [stored_elements, stored_of_ordered v h2.1, stored_elements_of_ordered rest h2.2]
theorem stored_members_of_ordered : ∀ (o : List (Text × Node)) (obj : Object),
    ordered_members o = true → keys_ascending (obj ++ o) → stored_members o obj = obj ++ o
  | [], obj, _, _ => by simp [stored_members]
  | (k, v) :: rest, obj, h, hk => by
    have h2 : ordered v = true ∧ ordered_members rest = true := by
      simpa [ordered_members] using h
    have hlt : ∀ m ∈ obj, m.1 < k := by
      intro m hm
      have := List.pairwise_append.mp hk
      exact this.2.2 m hm (k, v) (by simp)
    have hk2 : keys_ascending ((obj ++ [(k, v)]) ++ rest) := by
      simpa [keys_ascending] using hk
    have := stored_members_of_ordered rest (obj ++ [(k, v)]) h2.2 hk2
    simp [stored_members, stored_of_ordered v h2.1, assign_append obj k v hlt, this]
end


theorem find_cons (k0 : Text) (v0 : Node) (rest : Object) (key : Text) :
    Object.find ((k0, v0) :: rest) key = if k0 = key then some v0 else Object.find rest key := by
  by_cases h : k0 = key
  · simp [Object.find, h]
  · simp [Object.find, List.find?, h]

theorem assign_find (obj : Object) (k : Text) (v : Node) (key : Text) :
    Object.find (Object.assign obj k v) key =
      if key = k then some v else Object.find obj key := by
  induction obj with
  | nil =>
    rw [Object.assign, find_cons]
    by_cases h : k = key
    · rw [if_pos h, if_pos h.symm]
    · rw [if_neg h, if_neg (fun e => h e.symm)]
  | cons m rest ih =>
    obtain ⟨k0, v0⟩ := m
    rw [Object.assign]
    by_cases h1 : k < k0
    · rw [if_pos h1, find_cons]
      by_cases h : k = key
      · rw [if_pos h, if_pos h.symm]
      · rw [if_neg h, if_neg (fun e => h e.symm)]
    · rw [if_neg h1]
      by_cases h2 : k = k0
      · rw [if_pos h2, find_cons, find_cons]
        by_cases h : k = key
        · rw [if_pos h, if_pos h.symm]
        · rw [if_neg h, if_neg (fun e => h e.symm), if_neg (fun e => h (h2.trans e))]
      · rw [if_neg h2, find_cons, find_cons, ih]
        by_cases h : k0 = key
        · rw [if_pos h, if_neg (fun e => h2 (e.symm.trans h.symm)), if_pos h]
        · rw [if_neg h, if_neg h]

theorem assign_keys (obj : Object) (k : Text) (v : Node) (m : Text × Node) :
    m ∈ Object.assign obj k v → m = (k, v) ∨ m ∈ obj := by
  induction obj with
  | nil => intro h; simpa [Object.assign] using h
  | cons m0 rest ih =>
    obtain ⟨k0, v0⟩ := m0
    rw [Object.assign]
    by_cases h1 : k < k0
    · rw [if_pos h1]
      intro h
      rcases List.mem_cons.mp h with h | h
      · exact Or.inl h
      · exact Or.inr h
    · rw [if_neg h1]
      by_cases h2 : k = k0
      · rw [if_pos h2]
        intro h
        rcases List.mem_cons.mp h with h | h
        · exact Or.inl h
        · exact Or.inr (List.mem_cons_of_mem _ h)
      · rw [if_neg h2]
        intro h
        rcases List.mem_cons.mp h with h | h
        · exact Or.inr (by rw [h]; exact List.mem_cons_self _ _)
        · rcases ih h with h | h
          · exact Or.inl h
          · exact Or.inr (List.mem_cons_of_mem _ h)

theorem assign_mem_key (obj : Object) (k : Text) (v : Node) (key : Text) :
    key ∈ (Object.assign obj k v).map Prod.fst ↔ key = k ∨ key ∈ obj.map Prod.fst := by
  induction obj with
  | nil => simp [Object.assign]
  | cons m0 rest ih =>
    obtain ⟨k0, v0⟩ := m0
    simp only [Object.assign]
    by_cases h1 : k < k0
    · simp [h1]
    · by_cases h2 : k = k0
      · subst h2
        simp
      · simp only [h1, h2, if_false, List.map_cons, List.mem_cons, ih]
        tauto

theorem assign_ascending (obj : Object) (k : Text) (v : Node) (h : keys_ascending obj) :
    keys_ascending (Object.assign obj k v) := by
  induction obj with
  | nil => simp [Object.assign, keys_ascending]
  | cons m0 rest ih =>
    obtain ⟨k0, v0⟩ := m0
    have hc := List.pairwise_cons.mp h
    simp only [Object.assign]
    by_cases h1 : k < k0
    · simp only [h1, if_true]
      refine List.pairwise_cons.mpr ⟨?_, h⟩
      intro m hm
      rcases List.mem_cons.mp hm with hm | hm
      · rw [hm]; exact h1
      · exact lt_trans h1 (hc.1 m hm)
    · by_cases h2 : k = k0
      · subst h2
        simp only [h1, if_true, if_false]
        exact List.pairwise_cons.mpr ⟨hc.1, hc.2⟩
      · simp only [h1, h2, if_false]
        have h3 : k0 < k := by
          rcases lt_trichotomy k k0 with h | h | h
          · exact absurd h h1
          · exact absurd h h2
          · exact h
        refine List.pairwise_cons.mpr ⟨?_, ih hc.2⟩
        intro m hm
        rcases assign_keys rest k v m hm with hm | hm
        · rw [hm]; exact h3
        · exact hc.1 m hm

theorem stored_members_ascending (o : List (Text × Node)) (obj : Object)
    (h : keys_ascending obj) : keys_ascending (stored_members o obj) := by
  induction o generalizing obj with
  | nil => simpa [stored_members] using h
  | cons m rest ih =>
    obtain ⟨k, v⟩ := m
    simp only [stored_members]
    exact ih _ (assign_ascending obj k (stored v) h)

theorem stored_members_mem_key (o : List (Text × Node)) (obj : Object) (key : Text) :
    key ∈ (stored_members o obj).map Prod.fst ↔
      key ∈ o.map Prod.fst ∨ key ∈ obj.map Prod.fst := by
  induction o generalizing obj with
  | nil => simp [stored_members]
  | cons m rest ih =>
    obtain ⟨k, v⟩ := m
    simp only [stored_members, ih, assign_mem_key, List.map_cons, List.mem_cons]
    tauto

theorem stored_members_find (o : List (Text × Node)) (obj : Object) (key : Text) :
    Object.find (stored_members o obj) key =
      match o.reverse.find? (fun m => m.1 = key) with
      | some m => some (stored m.2)
      | none => Object.find obj key := by
  induction o generalizing obj with
  | nil => simp [stored_members]
  | cons m rest ih =>
    obtain ⟨k, v⟩ := m
    simp only [stored_members, ih, List.reverse_cons, List.find?_append]
    cases hr : List.find? (fun m => decide (m.1 = key)) rest.reverse with
    | some m1 => simp
    | none =>
      by_cases hk : key = k
      · subst hk
        simp [assign_find]
      · have hk2 : ¬ k = key := fun e => hk e.symm
        simp [assign_find, hk, hk2]

theorem keys_ascending_nodup (o : Object) (h : keys_ascending o) :
    (o.map Prod.fst).Nodup := by
  have : List.Pairwise (fun a b : Text => a < b) (o.map Prod.fst) := by
    rw [List.pairwise_map]; exact h
  exact this.imp (fun hab => ne_of_lt hab)


/-! ## The generator on an Object -/

theorem generate_object_loop_eq (dtoa : Double → Text) (m : Text × Node)
    (rest : List (Text × Node)) :
    generate_object_loop dtoa (m :: rest) =
      List.intercalate [',']
        ((m :: rest).map (fun m => generate_string m.1 ++ ':' :: generate dtoa m.2)) ++ [','] := by
  induction rest generalizing m with
  | nil =>
    obtain ⟨k, v⟩ := m
    simp [generate_object_loop, List.intercalate]
  | cons m2 rest ih =>
    obtain ⟨k, v⟩ := m
    rw [generate_object_loop, ih m2]
    simp [List.intercalate, List.intersperse]

theorem generate_object_eq (dtoa : Double → Text) (o : Object) :
    generate dtoa (.Object o) =
      '{' :: List.intercalate [',']
        (o.map (fun m => generate_string m.1 ++ ':' :: generate dtoa m.2)) := by
  cases o with
  | nil => simp [generate, generate_object_loop, List.intercalate]
  | cons m rest =>
    rw [generate, generate_object_loop_eq]
    simp only [List.isEmpty_cons, Bool.not_false, if_true, pop_back]
    rw [← List.cons_append, List.dropLast_concat]

/-! ## Every tree the parser returns satisfies the map invariant -/

theorem ordered_elements_append (acc : List Node) (v : Node) :
    ordered_elements (acc ++ [v]) = (ordered_elements acc && ordered v) := by
  induction acc with
  | nil => simp [ordered_elements]
  | cons x rest ih => simp [ordered_elements, ih, Bool.and_assoc]

theorem assign_ordered_members (obj : Object) (k : Text) (v : Node)
    (h : ordered_members obj = true) (hv : ordered v = true) :
    ordered_members (Object.assign obj k v) = true := by
  induction obj with
  | nil => simp [Object.assign, ordered_members, hv]
  | cons m rest ih =>
    obtain ⟨k0, v0⟩ := m
    have h2 : ordered v0 = true ∧ ordered_members rest = true := by
      simpa [ordered_members] using h
    rw [Object.assign]
    by_cases h1 : k < k0
    · rw [if_pos h1]; simp [ordered_members, hv, h2.1, h2.2]
    · rw [if_neg h1]
      by_cases h3 : k = k0
      · rw [if_pos h3]; simp [ordered_members, hv, h2.2]
      · rw [if_neg h3]; simp [ordered_members, h2.1, ih h2.2]

theorem parse_null_value {s : Text} {pos p : Nat} {v : Node}
    (h : parse_null s pos = .value v p) : v = .Null ∧ p = pos + 4 := by
  simp only [parse_null] at h
  split at h
  · cases h
  · split at h
    · cases h; exact ⟨rfl, rfl⟩
    · cases h

theorem parse_true_value {s : Text} {pos p : Nat} {v : Node}
    (h : parse_true s pos = .value v p) : v = .Bool true ∧ p = pos + 4 := by
  simp only [parse_true] at h
  split at h
  · cases h
  · split at h
    · cases h; exact ⟨rfl, rfl⟩
    · cases h

theorem parse_false_value {s : Text} {pos p : Nat} {v : Node}
    (h : parse_false s pos = .value v p) : v = .Bool false ∧ p = pos + 5 := by
  simp only [parse_false] at h
  split at h
  · cases h
  · split at h
    · cases h; exact ⟨rfl, rfl⟩
    · cases h

theorem find_quote_ge (x : Text) (i e : Nat) (h : find_quote x i = some e) : i ≤ e := by
  induction x generalizing i with
  | nil => simp [find_quote] at h
  | cons c x ih =>
    simp only [find_quote] at h
    split at h
    · exact Nat.le_of_succ_le (ih (i + 1) h)
    · cases h; exact Nat.le_refl _

theorem parse_string_value {s : Text} {pos p : Nat} {v : Node}
    (h : parse_string s pos = .value v p) : (∃ str, v = .String str) ∧ pos + 2 ≤ p := by
  simp only [parse_string] at h
  split at h
  · cases h
  · rename_i endpos hscan
    split at h
    · cases h
    · cases h
      refine ⟨⟨_, rfl⟩, ?_⟩
      split at hscan
      · have := find_quote_ge _ _ _ hscan
        omega
      · cases hscan; omega

theorem parse_number_value (stod : Text → Option Double) {s : Text} {pos p : Nat} {v : Node}
    (h : parse_number stod s pos = .value v p) :
    ((∃ n, v = .Int n) ∨ (∃ x, v = .Float x)) ∧ pos < p := by
  simp only [parse_number] at h
  split at h
  · cases h
  · rename_i number hsub
    have hnum : number ≠ [] → pos < scan_while is_number_char (s.drop pos) pos := by
      intro hne
      simp only [substr] at hsub
      split at hsub
      · cases hsub
      · cases hsub
        by_contra hle
        have h0 : scan_while is_number_char (List.drop pos s) pos - pos = 0 := by omega
        rw [h0] at hne
        simp at hne
    split at h
    · rename_i hfl
      have hne : number ≠ [] := by
        intro e
        rw [e] at hfl
        simp [is_Float] at hfl
      split at h
      · cases h; exact ⟨Or.inr ⟨_, rfl⟩, hnum hne⟩
      · cases h
    · split at h
      · rename_i ret hst
        have hne : number ≠ [] := by
          intro e
          rw [e] at hst
          simp [stoi] at hst
        cases h; exact ⟨Or.inl ⟨_, rfl⟩, hnum hne⟩
      · cases h

theorem parse_ordered_aux (stod : Text → Option Double) (s : Text) : ∀ fuel : Nat,
    (∀ (pos : Nat) (v : Node) (p : Nat),
      parse_value stod s fuel pos = .value v p → ordered v = true) ∧
    (∀ (pos : Nat) (acc : List Node) (v : Node) (p : Nat), ordered_elements acc = true →
      parse_array_loop stod s fuel pos acc = .value v p → ordered v = true) ∧
    (∀ (pos : Nat) (obj : Object) (v : Node) (p : Nat), keys_ascending obj →
      ordered_members obj = true →
      parse_object_loop stod s fuel pos obj = .value v p → ordered v = true) := by
  intro fuel
  induction fuel with
  | zero =>
    refine ⟨?_, ?_, ?_⟩
    · intro pos v p h; simp [parse_value] at h
    · intro pos acc v p _ h; simp [parse_array_loop] at h
    · intro pos obj v p _ _ h; simp [parse_object_loop] at h
  | succ fuel ih =>
    obtain ⟨ihv, iha, iho⟩ := ih
    refine ⟨?_, ?_, ?_⟩
    · intro pos v p h
      simp only [parse_value] at h
      split at h
      · cases h
      · split_ifs at h
        · rw [(parse_null_value h).1]; rfl
        · rw [(parse_true_value h).1]; rfl
        · rw [(parse_false_value h).1]; rfl
        · obtain ⟨⟨str, hv⟩, _⟩ := parse_string_value h
          rw [hv]; rfl
        · exact iha _ [] _ _ rfl h
        · exact iho _ [] _ _ (by simp [keys_ascending]) rfl h
        · rcases (parse_number_value stod h).1 with ⟨n, hv⟩ | ⟨x, hv⟩
          · rw [hv]; rfl
          · rw [hv]; rfl
    · intro pos acc v p hacc h
      simp only [parse_array_loop] at h
      split at h
      · split at h
        · rename_i value pos2 hval
          have hv := ihv _ _ _ hval
          exact iha _ _ _ _ (by rw [ordered_elements_append, hacc, hv]; rfl) h
        all_goals cases h
      · cases h
        simpa [ordered] using hacc
    · intro pos obj v p hasc hobj h
      simp only [parse_object_loop] at h
      split at h
      · split at h
        · rename_i key pos2 hkey
          split at h
          · rename_i k
            split at h
            · rename_i val pos3 hval
              have hv := ihv _ _ _ hval
              exact iho _ _ _ _ (assign_ascending obj k val hasc)
                (assign_ordered_members obj k val hobj hv) h
            all_goals cases h
          · cases h
        all_goals cases h
      · cases h
        simp [ordered, hasc, hobj]

theorem parser_ordered (stod : Text → Option Double) (s : Text) (v : Node) (p : Nat)
    (h : parser stod s = .value v p) : ordered v = true := by
  simp only [parser, parse] at h
  split at h
  · rename_i value pos hval
    cases h
    exact (parse_ordered_aux stod s _).1 _ _ _ hval
  all_goals cases h


/-! ## The recursion bound is never reached, and the cursor moves forward -/

theorem parse_whitespace_ge (s : Text) (pos : Nat) : pos ≤ parse_whitespace s pos :=
  scan_while_ge isspace (s.drop pos) pos

theorem skip_separator_ge (s : Text) (pos : Nat) (sep : Char) :
    pos ≤ skip_separator s pos sep := by
  simp only [skip_separator]
  have h1 := parse_whitespace_ge s pos
  split
  · exact Nat.le_trans (Nat.le_trans h1 (Nat.le_succ _)) (parse_whitespace_ge s _)
  · exact Nat.le_trans h1 (parse_whitespace_ge s _)

theorem lt_length_of_getElem? {s : Text} {pos : Nat} {c : Char} (h : s[pos]? = some c) :
    pos < s.length := by
  by_contra hlt
  rw [List.getElem?_eq_none (Nat.le_of_not_lt hlt)] at h
  cases h

theorem at_is_not_lt {s : Text} {pos : Nat} {c : Char} (h : at_is_not s pos c = true) :
    pos < s.length := by
  simp only [at_is_not] at h
  split at h
  · rename_i d hd
    exact lt_length_of_getElem? hd
  · cases h

theorem parse_null_fuel (s : Text) (pos : Nat) : parse_null s pos ≠ .out_of_fuel := by
  simp only [parse_null]
  split
  · simp
  · split <;> simp

theorem parse_true_fuel (s : Text) (pos : Nat) : parse_true s pos ≠ .out_of_fuel := by
  simp only [parse_true]
  split
  · simp
  · split <;> simp

theorem parse_false_fuel (s : Text) (pos : Nat) : parse_false s pos ≠ .out_of_fuel := by
  simp only [parse_false]
  split
  · simp
  · split <;> simp

theorem parse_string_fuel (s : Text) (pos : Nat) : parse_string s pos ≠ .out_of_fuel := by
  simp only [parse_string]
  split
  · simp
  · split <;> simp

theorem parse_number_fuel (stod : Text → Option Double) (s : Text) (pos : Nat) :
    parse_number stod s pos ≠ .out_of_fuel := by
  simp only [parse_number]
  split
  · simp
  · split
    · split <;> simp
    · split <;> simp

theorem parse_fuel_aux (stod : Text → Option Double) (s : Text) : ∀ fuel : Nat,
    (∀ pos : Nat, 2 * (s.length - pos) + 1 ≤ fuel →
      parse_value stod s fuel pos ≠ .out_of_fuel ∧
      ∀ v p, parse_value stod s fuel pos = .value v p → pos < p) ∧
    (∀ (pos : Nat) (acc : List Node), 2 * (s.length - pos) + 2 ≤ fuel →
      parse_array_loop stod s fuel pos acc ≠ .out_of_fuel ∧
      ∀ v p, parse_array_loop stod s fuel pos acc = .value v p → pos < p) ∧
    (∀ (pos : Nat) (obj : Object), 2 * (s.length - pos) + 2 ≤ fuel →
      parse_object_loop stod s fuel pos obj ≠ .out_of_fuel ∧
      ∀ v p, parse_object_loop stod s fuel pos obj = .value v p → pos < p) := by
  intro fuel
  induction fuel with
  | zero => exact ⟨by intros; omega, by intros; omega, by intros; omega⟩
  | succ fuel ih =>
    obtain ⟨ihv, iha, iho⟩ := ih
    refine ⟨?_, ?_, ?_⟩
    · intro pos hf
      have hge := parse_whitespace_ge s pos
      simp only [parse_value]
      cases hg : s[parse_whitespace s pos]? with
      | none => simp
      | some c =>
        have hlt := lt_length_of_getElem? hg
        simp only []
        split_ifs
        · exact ⟨parse_null_fuel _ _, fun v p h => by have := (parse_null_value h).2; omega⟩
        · exact ⟨parse_true_fuel _ _, fun v p h => by have := (parse_true_value h).2; omega⟩
        · exact ⟨parse_false_fuel _ _, fun v p h => by have := (parse_false_value h).2; omega⟩
        · exact ⟨parse_string_fuel _ _, fun v p h => by have := (parse_string_value h).2; omega⟩
        · have := iha (parse_whitespace s pos + 1) [] (by omega)
          exact ⟨this.1, fun v p h => by have := this.2 v p h; omega⟩
        · have := iho (parse_whitespace s pos + 1) [] (by omega)
          exact ⟨this.1, fun v p h => by have := this.2 v p h; omega⟩
        · exact ⟨parse_number_fuel stod _ _,
            fun v p h => by have := (parse_number_value stod h).2; omega⟩
    · intro pos acc hf
      simp only [parse_array_loop]
      split
      · rename_i hcond
        have hlt := at_is_not_lt hcond
        have hv := ihv pos (by omega)
        split
        · rename_i value pos2 hval
          have hp2 := hv.2 _ _ hval
          have hsk := skip_separator_ge s pos2 ','
          have := iha (skip_separator s pos2 ',') (acc ++ [value]) (by omega)
          exact ⟨this.1, fun v p h => by have := this.2 v p h; omega⟩
        · simp
        · simp
        · simp
        · simp
        · rename_i hval
          exact absurd hval hv.1
      · simp
    · intro pos obj hf
      simp only [parse_object_loop]
      split
      · rename_i hcond
        have hlt := at_is_not_lt hcond
        have hv := ihv pos (by omega)
        split
        · rename_i key pos2 hkey
          have hp2 := hv.2 _ _ hkey
          have hw := parse_whitespace_ge s pos2
          split
          · rename_i k
            have hge3 : pos2 ≤ parse_whitespace s
                (if at_is s (parse_whitespace s pos2) ':' = true then parse_whitespace s pos2 + 1
                  else parse_whitespace s pos2) := by
              split
              · exact Nat.le_trans (Nat.le_trans hw (Nat.le_succ _)) (parse_whitespace_ge s _)
              · exact Nat.le_trans hw (parse_whitespace_ge s _)
            have hv2 := ihv _ (show 2 * (s.length - parse_whitespace s
                (if at_is s (parse_whitespace s pos2) ':' = true then parse_whitespace s pos2 + 1
                  else parse_whitespace s pos2)) + 1 ≤ fuel by omega)
            split
            · rename_i val pos3 hval
              have hp3 := hv2.2 _ _ hval
              have hsk := skip_separator_ge s pos3 ','
              have := iho (skip_separator s pos3 ',') (Object.assign obj k val) (by omega)
              exact ⟨this.1, fun v p h => by have := this.2 v p h; omega⟩
            · simp
            · simp
            · simp
            · simp
            · rename_i hval
              exact absurd hval hv2.1
          · simp
        · simp
        · simp
        · simp
        · simp
        · rename_i hval
          exact absurd hval hv.1
      · simp

theorem parser_fuel (stod : Text → Option Double) (s : Text) :
    parser stod s ≠ .out_of_fuel := by
  have := ((parse_fuel_aux stod s (2 * s.length + 1)).1 (parse_whitespace s 0) (by omega)).1
  simp only [parser, parse]
  split <;> simp_all


theorem parse_fuel_mono (stod : Text → Option Double) (s : Text) : ∀ fuel : Nat,
    (∀ (pos extra : Nat), 2 * (s.length - pos) + 1 ≤ fuel →
      parse_value stod s (fuel + extra) pos = parse_value stod s fuel pos) ∧
    (∀ (pos extra : Nat) (acc : List Node), 2 * (s.length - pos) + 2 ≤ fuel →
      parse_array_loop stod s (fuel + extra) pos acc = parse_array_loop stod s fuel pos acc) ∧
    (∀ (pos extra : Nat) (obj : Object), 2 * (s.length - pos) + 2 ≤ fuel →
      parse_object_loop stod s (fuel + extra) pos obj =
        parse_object_loop stod s fuel pos obj) := by
  intro fuel
  induction fuel with
  | zero => exact ⟨by intros; omega, by intros; omega, by intros; omega⟩
  | succ fuel ih =>
    obtain ⟨ihv, iha, iho⟩ := ih
    obtain ⟨pv, _, _⟩ := parse_fuel_aux stod s fuel
    refine ⟨?_, ?_, ?_⟩
    · intro pos extra hf
      have hge := parse_whitespace_ge s pos
      rw [show fuel + 1 + extra = (fuel + extra) + 1 by omega]
      simp only [parse_value]
      cases hg : s[parse_whitespace s pos]? with
      | none => rfl
      | some c =>
        have hlt := lt_length_of_getElem? hg
        simp only []
        rw [iha (parse_whitespace s pos + 1) extra [] (by omega),
          iho (parse_whitespace s pos + 1) extra [] (by omega)]
    · intro pos extra acc hf
      rw [show fuel + 1 + extra = (fuel + extra) + 1 by omega]
      simp only [parse_array_loop]
      split
      · rename_i hcond
        have hlt := at_is_not_lt hcond
        rw [ihv pos extra (by omega)]
        cases hval : parse_value stod s fuel pos with
        | value value pos2 =>
          have hp2 := (pv pos (by omega)).2 _ _ hval
          have hsk := skip_separator_ge s pos2 ','
          simp only []
          exact iha _ extra _ (by omega)
        | _ => rfl
      · rfl
    · intro pos extra obj hf
      rw [show fuel + 1 + extra = (fuel + extra) + 1 by omega]
      simp only [parse_object_loop]
      split
      · rename_i hcond
        have hlt := at_is_not_lt hcond
        rw [ihv pos extra (by omega)]
        cases hkey : parse_value stod s fuel pos with
        | value key pos2 =>
          have hp2 := (pv pos (by omega)).2 _ _ hkey
          have hw := parse_whitespace_ge s pos2
          simp only []
          cases key with
          | String k =>
            simp only []
            have hge3 : pos2 ≤ parse_whitespace s
                (if at_is s (parse_whitespace s pos2) ':' = true then parse_whitespace s pos2 + 1
                  else parse_whitespace s pos2) := by
              split
              · exact Nat.le_trans (Nat.le_trans hw (Nat.le_succ _)) (parse_whitespace_ge s _)
              · exact Nat.le_trans hw (parse_whitespace_ge s _)
            rw [ihv _ extra (show 2 * (s.length - parse_whitespace s
                (if at_is s (parse_whitespace s pos2) ':' = true then parse_whitespace s pos2 + 1
                  else parse_whitespace s pos2)) + 1 ≤ fuel by omega)]
            cases hval : parse_value stod s fuel (parse_whitespace s
                (if at_is s (parse_whitespace s pos2) ':' = true then parse_whitespace s pos2 + 1
                  else parse_whitespace s pos2)) with
            | value val pos3 =>
              have hp3 := (pv _ (show 2 * (s.length - parse_whitespace s
                (if at_is s (parse_whitespace s pos2) ':' = true then parse_whitespace s pos2 + 1
                  else parse_whitespace s pos2)) + 1 ≤ fuel by omega)).2 _ _ hval
              have hsk := skip_separator_ge s pos3 ','
              simp only []
              exact iho _ extra _ (by omega)
            | _ => rfl
          | _ => rfl
        | _ => rfl
      · rfl


/-! ## The top-level entry -/

theorem parse_eq (stod : Text → Option Double) (s : Text) (pos : Nat) :
    parse stod s pos = parse_value stod s (2 * s.length + 1) (parse_whitespace s pos) := by
  simp only [parse]
  cases parse_value stod s (2 * s.length + 1) (parse_whitespace s pos) <;> rfl

theorem parser_dispatch (stod : Text → Option Double) (w : Text) (c : Char) (rest : Text)
    (hw : ∀ d ∈ w, isspace d = true) (hc : isspace c = false) :
    parser stod (w ++ c :: rest) =
      if c = 'n' then parse_null (w ++ c :: rest) w.length
      else if c = 't' then parse_true (w ++ c :: rest) w.length
      else if c = 'f' then parse_false (w ++ c :: rest) w.length
      else if c = dquote then parse_string (w ++ c :: rest) w.length
      else if c = '[' then
        parse_array_loop stod (w ++ c :: rest) (2 * (w ++ c :: rest).length) (w.length + 1) []
      else if c = '{' then
        parse_object_loop stod (w ++ c :: rest) (2 * (w ++ c :: rest).length) (w.length + 1) []
      else parse_number stod (w ++ c :: rest) w.length := by
  have hd0 : (w ++ c :: rest).drop 0 = w ++ c :: rest := by simp
  have hws0 : parse_whitespace (w ++ c :: rest) 0 = w.length := by
    have := parse_whitespace_skip w hd0 hw (head_not_space rest hc)
    simpa using this
  have hd : (w ++ c :: rest).drop w.length = c :: rest := by simp
  have hws : parse_whitespace (w ++ c :: rest) w.length = w.length :=
    parse_whitespace_stay hd (head_not_space rest hc)
  rw [parser, parse_eq, hws0]
  exact parse_value_succ stod _ _ _ c hws (getElem?_of_drop hd)

theorem find_quote_none (x : Text) (i : Nat) (h : dquote ∉ x) : find_quote x i = none := by
  induction x generalizing i with
  | nil => rfl
  | cons c x ih =>
    have hc : c ≠ dquote := fun e => h (by simp [e])
    have hx : dquote ∉ x := fun e => h (by simp [e])
    simp [find_quote, hc, ih (i + 1) hx]

theorem stoi_digits_overflow (ds : Text) (hne : ds ≠ []) (hdig : ∀ c ∈ ds, isdigit c = true)
    (hmax : ¬ (digits_value ds : Int) ≤ INT_MAX) : stoi ds = none := by
  cases ds with
  | nil => exact absurd rfl hne
  | cons c rest =>
    have hc : isdigit c = true := hdig c (by simp)
    have hsp : isspace c = false := isdigit_not_isspace hc
    have hm : c ≠ '-' := isdigit_ne hc (by decide)
    have hp : c ≠ '+' := isdigit_ne hc (by decide)
    have htake : List.takeWhile isdigit (c :: rest) = c :: rest :=
      List.takeWhile_eq_self_iff.mpr hdig
    simp only [stoi, List.dropWhile, hsp, hm, hp, if_false, htake]
    simp [hmax]

theorem parse_number_overflow (stod : Text → Option Double) {s : Text} {pos : Nat}
    (ds : Text) {suf : Text} (h : s.drop pos = ds ++ suf) (hne : ds ≠ [])
    (hdig : ∀ c ∈ ds, isdigit c = true) (hsuf : ∀ c ∈ suf.head?, is_number_char c = false)
    (hmax : ¬ (digits_value ds : Int) ≤ INT_MAX) :
    parse_number stod s pos = .nullopt (pos + ds.length) := by
  have hlt : pos < s.length := by
    cases ds with
    | nil => exact absurd rfl hne
    | cons c rest => exact lt_length_of_drop h
  have hscan : scan_while is_number_char (s.drop pos) pos = pos + ds.length := by
    rw [h]
    exact scan_while_append is_number_char ds suf pos
      (fun c hc => isdigit_number_char (hdig c hc)) hsuf
  have hsub := substr_of_drop ds h (Nat.le_of_lt hlt)
  simp only [parse_number, hscan]
  rw [show pos + ds.length - pos = ds.length by omega, hsub]
  simp [not_is_Float_of_digits ds hdig, stoi_digits_overflow ds hne hdig hmax]


/-! ## The claims -/

/-- C1. The round trip `parse(generate(v)) = v` does not hold for every tree without
Float: for the Array holding one empty Object the generator writes `[{]` (the closing
brace of an Object is never written) and the parser leaves with `bad_optional_access`;
for `Int (-1)` the generator writes `-1` and the parser returns no value. -/
theorem roundtrip_fails (stod : Text → Option Double) (dtoa : Double → Text) :
    generate dtoa (.Array [.Object []]) = ['[', '{', ']'] ∧
    parser stod (generate dtoa (.Array [.Object []])) = .bad_optional_access ∧
    generate dtoa (.Int (-1)) = ['-', '1'] ∧
    parser stod (generate dtoa (.Int (-1))) = .nullopt 0 := by
  have h1 : generate dtoa (.Array [.Object []]) = ['[', '{', ']'] := by rfl
  have h2 : generate dtoa (.Int (-1)) = ['-', '1'] := by rfl
  refine ⟨h1, ?_, h2, ?_⟩
  · rw [h1]; rfl
  · rw [h2]; rfl

/-- C2. Parser correctness on compact well-formed text: for every tree `v` built from
Null, Bool, Int `n` with `0 <= n < 2^31`, String without `"`, Array and Object with keys
without `"` (`plain v`), the keys of every Object strictly ascending as in a `std::map`
(`ordered v`), `parser` on the compact text of `v` returns `v` itself, with the cursor at
the end of the text. -/
theorem parser_compact_text_correct (stod : Text → Option Double) (dtoa : Double → Text)
    (v : Node) (hp : plain v = true) (ho : ordered v = true) :
    parser stod (compact_text dtoa v) = .value v (compact_text dtoa v).length := by
  have h := parser_compact_text stod dtoa v hp
  rw [stored_of_ordered v ho] at h
  exact h

/-- C2, at the texts the claim names: `{"a":1,"b":[true,false,null]}`, `[]` and `{}`. -/
theorem parser_compact_text_correct_witness :
    parser (fun _ => none) "\x7b\"a\":1,\"b\":[true,false,null]\x7d".toList =
      .value (.Object [("a".toList, .Int 1),
        ("b".toList, .Array [.Bool true, .Bool false, .Null])]) 29 ∧
    parser (fun _ => none) "[]".toList = .value (.Array []) 2 ∧
    parser (fun _ => none) "\x7b\x7d".toList = .value (.Object []) 2 :=
  ⟨parser_compact_text_correct (fun _ => none) (fun _ => [])
      (.Object [("a".toList, .Int 1), ("b".toList, .Array [.Bool true, .Bool false, .Null])])
      (by decide) (by decide),
    parser_compact_text_correct (fun _ => none) (fun _ => []) (.Array []) (by decide)
      (by decide),
    parser_compact_text_correct (fun _ => none) (fun _ => []) (.Object []) (by decide)
      (by decide)⟩

/-- C3. The generator never writes the closing brace of an Object: the empty Object gives
`{` and not `{}`, and the tree Object{a: Int 1, b: Array[true,false,Null]} gives
`{"a":1,"b":[true,false,null]` without the final `}`. -/
theorem generate_object_unclosed (dtoa : Double → Text) :
    generate_object dtoa [] = ['{'] ∧
    generate dtoa (.Object [("a".toList, .Int 1),
      ("b".toList, .Array [.Bool true, .Bool false, .Null])]) =
      '{' :: "\"a\":1,\"b\":[true,false,null]".toList :=
  ⟨rfl, rfl⟩

/-- C4. Truncated input is not rejected: on the empty text the parser reads `json_str[0]`
outside the buffer; on `{` it returns the empty Object and on `[1,2,` it returns
Array[1,2], each time with the cursor past the end of the buffer. -/
theorem parser_truncated (stod : Text → Option Double) :
    parser stod [] = .out_of_bounds ∧
    parser stod ['{'] = .value (.Object []) 2 ∧
    parser stod "[1,2,".toList = .value (.Array [.Int 1, .Int 2]) 6 :=
  ⟨rfl, rfl, rfl⟩

/-- C5. An unterminated string is not rejected.  For a text made of white space `w`, a
`"`, and a `body` without `"`: when the body is empty the parser returns the empty String
with the cursor past the end of the buffer, and otherwise the scan for the closing quote
reads `json_str[size]`, outside the buffer. -/
theorem parser_unterminated_string (stod : Text → Option Double) (w body : Text)
    (hw : ∀ c ∈ w, isspace c = true) (hb : dquote ∉ body) :
    parser stod (w ++ dquote :: body) =
      if body = [] then .value (.String []) (w.length + 2) else .out_of_bounds := by
  rw [parser_dispatch stod w dquote body hw (by decide), if_neg (by decide),
    if_neg (by decide), if_neg (by decide), if_pos rfl]
  cases body with
  | nil =>
    simp [parse_string, substr]
  | cons c body =>
    have hd : (w ++ dquote :: c :: body).drop (w.length + 1) = c :: body := by
      rw [← List.drop_drop]; simp
    have hlt := lt_length_of_drop hd
    simp only [parse_string, hlt, if_true, hd, find_quote_none (c :: body) _ hb]
    simp

/-- C5, at the texts `"` and `"abc`. -/
theorem parser_unterminated_string_witness :
    parser (fun _ => none) [dquote] = .value (.String []) 2 ∧
    parser (fun _ => none) (dquote :: "abc".toList) = .out_of_bounds :=
  ⟨parser_unterminated_string (fun _ => none) [] [] (by decide) (by decide),
    parser_unterminated_string (fun _ => none) [] "abc".toList (by decide) (by decide)⟩

/-- C6. A failed sub-production is not turned into a failed parse: on `[nul]`, `[x]`,
`{"a":tru}` and `[{1:2}]` the call `value.value()` on the empty optional throws
`std::bad_optional_access`, which leaves `parse`. -/
theorem parser_failure_throws (stod : Text → Option Double) :
    parser stod "[nul]".toList = .bad_optional_access ∧
    parser stod "[x]".toList = .bad_optional_access ∧
    parser stod "\x7b\"a\":tru\x7d".toList = .bad_optional_access ∧
    parser stod "[\x7b1:2\x7d]".toList = .bad_optional_access :=
  ⟨rfl, rfl, rfl, rfl⟩

/-- C7. An Int is read through `std::stoi`, whose range is that of `int`: a non-empty run
of decimal digits parses to the Int it denotes when that is at most `INT_MAX = 2^31 - 1`,
and to no value when it is larger. -/
theorem parser_digits (stod : Text → Option Double) (ds : Text) (hne : ds ≠ [])
    (hdig : ∀ c ∈ ds, isdigit c = true) :
    parser stod ds =
      if (digits_value ds : Int) ≤ INT_MAX then .value (.Int (digits_value ds)) ds.length
      else .nullopt ds.length := by
  cases ds with
  | nil => exact absurd rfl hne
  | cons c rest =>
    have hc : isdigit c = true := hdig c (by simp)
    have hdisp := parser_dispatch stod [] c rest (by simp) (isdigit_not_isspace hc)
    rw [if_neg (isdigit_ne hc (by decide)), if_neg (isdigit_ne hc (by decide)),
      if_neg (isdigit_ne hc (by decide)), if_neg (isdigit_ne hc (by decide)),
      if_neg (isdigit_ne hc (by decide)), if_neg (isdigit_ne hc (by decide))] at hdisp
    simp only [List.nil_append, List.length_nil] at hdisp
    rw [hdisp]
    have hd : (c :: rest).drop 0 = (c :: rest) ++ [] := by simp
    by_cases hmax : (digits_value (c :: rest) : Int) ≤ INT_MAX
    · rw [if_pos hmax, parse_number_of_drop stod (c :: rest) hd hne hdig number_stop_nil hmax]
      simp
    · rw [if_neg hmax, parse_number_overflow stod (c :: rest) hd hne hdig number_stop_nil hmax]
      simp

/-- C7, at the texts `2147483648` and `3000000000` (no value) and `2147483647`. -/
theorem parser_digits_witness :
    parser (fun _ => none) "2147483648".toList = .nullopt 10 ∧
    parser (fun _ => none) "3000000000".toList = .nullopt 10 ∧
    parser (fun _ => none) "2147483647".toList = .value (.Int 2147483647) 10 := by
  refine ⟨?_, ?_, ?_⟩
  · have h := parser_digits (fun _ => none) "2147483648".toList (by decide) (by decide)
    rw [if_neg (by decide)] at h
    exact h
  · have h := parser_digits (fun _ => none) "3000000000".toList (by decide) (by decide)
    rw [if_neg (by decide)] at h
    exact h
  · have h := parser_digits (fun _ => none) "2147483647".toList (by decide) (by decide)
    rw [if_pos (by decide)] at h
    exact h


theorem plain_members_mem (o : List (Text × Node)) (h : plain_members o = true) :
    ∀ m ∈ o, dquote ∉ m.1 ∧ plain m.2 = true := by
  induction o with
  | nil => intro m hm; cases hm
  | cons m0 rest ih =>
    obtain ⟨k, v⟩ := m0
    have h2 : (dquote ∉ k ∧ plain v = true) ∧ plain_members rest = true := by
      simpa [plain_members] using h
    intro m hm
    rcases List.mem_cons.mp hm with hm | hm
    · rw [hm]; exact h2.1
    · exact ih h2.2 m hm

theorem literal_of_drop (s : Text) (pos n : Nat) (lit x : Text) (h : s.drop pos = x)
    (hpos : pos ≤ s.length) (hn : lit.length = n) :
    (substr s pos n = some lit) ↔ lit <+: x := by
  simp only [substr, Nat.not_lt.mpr hpos, if_false, h, Option.some.injEq]
  rw [List.prefix_iff_eq_take, hn]
  exact eq_comm

theorem literal_match_eq (s : Text) (pos n : Nat) (lit x : Text) (h : s.drop pos = x)
    (hpos : pos ≤ s.length) (hn : lit.length = n) (a b : Outcome Node) :
    (match substr s pos n with
      | none => Outcome.out_of_range
      | some w => if w = lit then a else b) = if lit <+: x then a else b := by
  have hl := literal_of_drop s pos n lit x h hpos hn
  cases hs : substr s pos n with
  | none => simp [substr, Nat.not_lt.mpr hpos] at hs
  | some w =>
    by_cases hw : w = lit
    · rw [hw] at hs
      rw [if_pos (hl.mp hs)]
      simp [hw]
    · have hnp : ¬ (lit <+: x) := fun hp => hw (by
        have := hl.mpr hp
        rw [hs] at this
        exact Option.some.inj this)
      rw [if_neg hnp]
      simp [hw]

theorem parse_null_eq (s : Text) (pos : Nat) (x : Text) (h : s.drop pos = x)
    (hpos : pos ≤ s.length) :
    parse_null s pos =
      if "null".toList <+: x then .value .Null (pos + 4) else .nullopt pos :=
  literal_match_eq s pos 4 "null".toList x h hpos rfl _ _

theorem parse_true_eq (s : Text) (pos : Nat) (x : Text) (h : s.drop pos = x)
    (hpos : pos ≤ s.length) :
    parse_true s pos =
      if "true".toList <+: x then .value (.Bool true) (pos + 4) else .nullopt pos :=
  literal_match_eq s pos 4 "true".toList x h hpos rfl _ _

theorem parse_false_eq (s : Text) (pos : Nat) (x : Text) (h : s.drop pos = x)
    (hpos : pos ≤ s.length) :
    parse_false s pos =
      if "false".toList <+: x then .value (.Bool false) (pos + 5) else .nullopt pos :=
  literal_match_eq s pos 5 "false".toList x h hpos rfl _ _

/-- C8. Exact literal matching: for a text made of white space `w` followed by `n` (resp.
`t`, `f`) and any `rest`, `parser` returns Null (resp. Bool true, Bool false), with the
cursor just past the literal, when the text from that byte on starts with `null` (resp.
`true`, `false`), and returns no value, with the cursor on that byte, when it does not. -/
theorem parser_literal_exact (stod : Text → Option Double) (w rest : Text)
    (hw : ∀ c ∈ w, isspace c = true) :
    (parser stod (w ++ 'n' :: rest) =
      if "null".toList <+: 'n' :: rest then .value .Null (w.length + 4)
      else .nullopt w.length) ∧
    (parser stod (w ++ 't' :: rest) =
      if "true".toList <+: 't' :: rest then .value (.Bool true) (w.length + 4)
      else .nullopt w.length) ∧
    (parser stod (w ++ 'f' :: rest) =
      if "false".toList <+: 'f' :: rest then .value (.Bool false) (w.length + 5)
      else .nullopt w.length) := by
  refine ⟨?_, ?_, ?_⟩
  · rw [parser_dispatch stod w 'n' rest hw (by decide), if_pos rfl]
    exact parse_null_eq _ _ _ (by simp) (by simp)
  · rw [parser_dispatch stod w 't' rest hw (by decide), if_neg (by decide), if_pos rfl]
    exact parse_true_eq _ _ _ (by simp) (by simp)
  · rw [parser_dispatch stod w 'f' rest hw (by decide), if_neg (by decide),
      if_neg (by decide), if_pos rfl]
    exact parse_false_eq _ _ _ (by simp) (by simp)

/-- C8, at the texts ` null` (after one blank), `nul`, `nULL`, `tru` and `fals`. -/
theorem parser_literal_exact_witness :
    parser (fun _ => none) " null".toList = .value .Null 5 ∧
    parser (fun _ => none) "nul".toList = .nullopt 0 ∧
    parser (fun _ => none) "nULL".toList = .nullopt 0 ∧
    parser (fun _ => none) "tru".toList = .nullopt 0 ∧
    parser (fun _ => none) "fals".toList = .nullopt 0 := by
  refine ⟨?_, ?_, ?_, ?_, ?_⟩
  · have h := (parser_literal_exact (fun _ => none) [' '] "ull".toList (by decide)).1
    rw [if_pos (by decide)] at h
    exact h
  · have h := (parser_literal_exact (fun _ => none) [] "ul".toList (by decide)).1
    rw [if_neg (by decide)] at h
    exact h
  · have h := (parser_literal_exact (fun _ => none) [] "ULL".toList (by decide)).1
    rw [if_neg (by decide)] at h
    exact h
  · have h := (parser_literal_exact (fun _ => none) [] "ru".toList (by decide)).2.1
    rw [if_neg (by decide)] at h
    exact h
  · have h := (parser_literal_exact (fun _ => none) [] "als".toList (by decide)).2.2
    rw [if_neg (by decide)] at h
    exact h

/-- C9. Sorted keys.  For every compact well-formed object text, its members given in any
textual order, `parser` returns an Object whose keys are strictly ascending, hence without
duplicates, and `generate` writes the members in exactly that order; and whenever `parser`
returns an Object on any text at all, that Object has these properties. -/
theorem parser_object_keys_sorted (stod : Text → Option Double) (dtoa : Double → Text)
    (members : List (Text × Node)) (hp : plain_members members = true) :
    (∃ o pos, parser stod (compact_text dtoa (.Object members)) = .value (.Object o) pos ∧
      keys_ascending o ∧ (o.map Prod.fst).Nodup ∧
      generate dtoa (.Object o) = '{' :: List.intercalate [',']
        (o.map (fun m => generate_string m.1 ++ ':' :: generate dtoa m.2))) ∧
    (∀ (s : Text) (o : Object) (pos : Nat), parser stod s = .value (.Object o) pos →
      keys_ascending o ∧ (o.map Prod.fst).Nodup ∧
      generate dtoa (.Object o) = '{' :: List.intercalate [',']
        (o.map (fun m => generate_string m.1 ++ ':' :: generate dtoa m.2))) := by
  have hgen : ∀ (s : Text) (o : Object) (pos : Nat), parser stod s = .value (.Object o) pos →
      keys_ascending o ∧ (o.map Prod.fst).Nodup ∧
      generate dtoa (.Object o) = '{' :: List.intercalate [',']
        (o.map (fun m => generate_string m.1 ++ ':' :: generate dtoa m.2)) := by
    intro s o pos h
    have ho := parser_ordered stod s _ _ h
    have hasc : keys_ascending o := by
      have : keys_ascending o ∧ ordered_members o = true := by simpa [ordered] using ho
      exact this.1
    exact ⟨hasc, keys_ascending_nodup o hasc, generate_object_eq dtoa o⟩
  have hparse := parser_compact_text stod dtoa (.Object members) (by simpa [plain] using hp)
  have hst : stored (.Object members) = .Object (stored_members members []) := by
    simp [stored]
  rw [hst] at hparse
  exact ⟨⟨_, _, hparse, hgen _ _ _ hparse⟩, hgen⟩

/-- C9, at the text `{"b":1,"a":2}`, whose keys are not in ascending order. -/
theorem parser_object_keys_sorted_witness :
    plain_members [("b".toList, .Int 1), ("a".toList, .Int 2)] = true ∧
    parser (fun _ => none) "\x7b\"b\":1,\"a\":2\x7d".toList =
      .value (.Object [("a".toList, .Int 2), ("b".toList, .Int 1)]) 13 ∧
    keys_ascending [("a".toList, .Int 2), ("b".toList, .Int 1)] ∧
    generate (fun _ => []) (.Object [("a".toList, .Int 2), ("b".toList, .Int 1)]) =
      '{' :: "\"a\":2,\"b\":1".toList := by
  have h := (parser_object_keys_sorted (fun _ => none) (fun _ => [])
    [("b".toList, .Int 1), ("a".toList, .Int 2)] (by decide)).2
    "\x7b\"b\":1,\"a\":2\x7d".toList [("a".toList, .Int 2), ("b".toList, .Int 1)] 13 (by rfl)
  exact ⟨by decide, by rfl, h.1, by rfl⟩

/-! ## The accessors of `Node` -/

theorem stored_elements_length (a : List Node) : (stored_elements a).length = a.length := by
  induction a with
  | nil => rfl
  | cons v rest ih => simp [stored_elements, ih]

theorem stored_elements_getElem? (a : List Node) (i : Nat) :
    (stored_elements a)[i]? = (a[i]?).map stored := by
  induction a generalizing i with
  | nil => simp [stored_elements]
  | cons v rest ih =>
    cases i with
    | zero => simp [stored_elements]
    | succ i => simp [stored_elements, ih i]

theorem plain_elements_mem (a : List Node) (h : plain_elements a = true) :
    ∀ v ∈ a, plain v = true := by
  induction a with
  | nil => intro v hv; cases hv
  | cons x rest ih =>
    have h2 : plain x = true ∧ plain_elements rest = true := by
      simpa [plain_elements] using h
    intro v hv
    rcases List.mem_cons.mp hv with hv | hv
    · rw [hv]; exact h2.1
    · exact ih h2.2 v hv

theorem find_some_mem_key (o : Object) (key : Text) (v : Node)
    (h : Object.find o key = some v) : key ∈ o.map Prod.fst := by
  induction o with
  | nil => simp [Object.find] at h
  | cons m rest ih =>
    obtain ⟨k0, v0⟩ := m
    rw [find_cons] at h
    by_cases hk : k0 = key
    · simp [hk]
    · rw [if_neg hk] at h
      simp [ih h]

theorem find_none_not_mem_key (o : Object) (key : Text)
    (h : Object.find o key = none) : key ∉ o.map Prod.fst := by
  induction o with
  | nil => simp
  | cons m rest ih =>
    obtain ⟨k0, v0⟩ := m
    rw [find_cons] at h
    by_cases hk : k0 = key
    · rw [if_pos hk] at h; cases h
    · rw [if_neg hk] at h
      have := ih h
      simp only [List.map_cons, List.mem_cons, not_or]
      exact ⟨fun e => hk e.symm, this⟩

theorem index_present (o : Object) (key : Text) (v : Node) (h : Object.find o key = some v) :
    Object.index o key = (o, v) := by
  simp [Object.index, h]

theorem index_absent (o : Object) (key : Text) (h : Object.find o key = none) :
    Object.index o key = (Object.assign o key .Null, .Null) := by
  simp [Object.index, h]

theorem index_find (o : Object) (key : Text) :
    Object.find (Object.index o key).1 key = some (Object.index o key).2 := by
  cases h : Object.find o key with
  | some v => rw [index_present o key v h]; exact h
  | none => rw [index_absent o key h, assign_find, if_pos rfl]

theorem index_find_other (o : Object) (key k : Text) (hk : k ≠ key) :
    Object.find (Object.index o key).1 k = Object.find o k := by
  cases h : Object.find o key with
  | some v => rw [index_present o key v h]
  | none => rw [index_absent o key h, assign_find, if_neg hk]

theorem index_mem_key (o : Object) (key k : Text) :
    k ∈ (Object.index o key).1.map Prod.fst ↔ k = key ∨ k ∈ o.map Prod.fst := by
  cases h : Object.find o key with
  | some v =>
    rw [index_present o key v h]
    have := find_some_mem_key o key v h
    constructor
    · intro hk; exact Or.inr hk
    · intro hk
      rcases hk with hk | hk
      · rw [hk]; exact this
      · exact hk
  | none => rw [index_absent o key h]; exact assign_mem_key o key .Null k

theorem index_ascending (o : Object) (key : Text) (h : keys_ascending o) :
    keys_ascending (Object.index o key).1 := by
  cases hf : Object.find o key with
  | some v => rw [index_present o key v hf]; exact h
  | none => rw [index_absent o key hf]; exact assign_ascending o key .Null h

/-- C12. The accessor `index_object` (create on access).  On a node holding the Object
`o`: a key that is present gives the stored Node and leaves the Object as it is; a key
that is absent is inserted with a Null Node, which is returned, so that afterwards the keys
are the old keys and `key`, every other entry is as before and the key order is kept.  On
a node holding any other variant the call throws "not an object" and the node is as
before.  The assignment `x[key] = rhs` through the returned reference leaves `rhs` at
`key`, every other entry as before, and the keys the old keys and `key`. -/
theorem index_object_spec (o : Object) (key : Text) (rhs : Node) :
    (∀ v, Object.find o key = some v → index_object (.Object o) key = (.Object o, .ok v)) ∧
    (Object.find o key = none →
      index_object (.Object o) key = (.Object (Object.assign o key .Null), .ok .Null) ∧
      Object.find (Object.assign o key .Null) key = some .Null ∧
      (∀ k, k ≠ key → Object.find (Object.assign o key .Null) k = Object.find o k) ∧
      (∀ k, k ∈ (Object.assign o key .Null).map Prod.fst ↔ k = key ∨ k ∈ o.map Prod.fst) ∧
      (keys_ascending o → keys_ascending (Object.assign o key .Null))) ∧
    (∀ node : Node, (∀ o2, node ≠ .Object o2) →
      index_object node key = (node, .error .not_an_object)) ∧
    (∃ o2, index_object_assign (.Object o) key rhs = (.Object o2, .ok ()) ∧
      Object.find o2 key = some rhs ∧
      (∀ k, k ≠ key → Object.find o2 k = Object.find o k) ∧
      (∀ k, k ∈ o2.map Prod.fst ↔ k = key ∨ k ∈ o.map Prod.fst) ∧
      (keys_ascending o → keys_ascending o2)) := by
  refine ⟨?_, ?_, ?_, ?_⟩
  · intro v hv
    simp [index_object, index_present o key v hv]
  · intro hnone
    refine ⟨by simp [index_object, index_absent o key hnone], ?_, ?_, ?_, ?_⟩
    · rw [assign_find, if_pos rfl]
    · intro k hk; rw [assign_find, if_neg hk]
    · intro k; exact assign_mem_key o key .Null k
    · intro h; exact assign_ascending o key .Null h
  · intro node hnode
    cases node with
    | Object o2 => exact absurd rfl (hnode o2)
    | _ => rfl
  · refine ⟨Object.assign (Object.index o key).1 key rhs, rfl, ?_, ?_, ?_, ?_⟩
    · rw [assign_find, if_pos rfl]
    · intro k hk; rw [assign_find, if_neg hk, index_find_other o key k hk]
    · intro k
      rw [assign_mem_key, index_mem_key]
      tauto
    · intro h; exact assign_ascending _ key rhs (index_ascending o key h)

/-- C12, on the Object{configurations: Array[], version: Int 1}: the present key
`version`, the absent key `name`, a node holding an Array, and the statement
`x["version"] = 114514` of the demo. -/
theorem index_object_spec_witness :
    index_object (.Object [("configurations".toList, .Array []), ("version".toList, .Int 1)])
        "version".toList =
      (.Object [("configurations".toList, .Array []), ("version".toList, .Int 1)],
        .ok (.Int 1)) ∧
    index_object (.Object [("configurations".toList, .Array []), ("version".toList, .Int 1)])
        "name".toList =
      (.Object [("configurations".toList, .Array []), ("name".toList, .Null),
        ("version".toList, .Int 1)], .ok .Null) ∧
    index_object (.Array []) "version".toList = (.Array [], .error .not_an_object) ∧
    index_object_assign
        (.Object [("configurations".toList, .Array []), ("version".toList, .Int 1)])
        "version".toList (.Int 114514) =
      (.Object [("configurations".toList, .Array []), ("version".toList, .Int 114514)],
        .ok ()) := by
  have h := index_object_spec
    [("configurations".toList, .Array []), ("version".toList, .Int 1)] "version".toList
    (.Int 114514)
  have h2 := index_object_spec
    [("configurations".toList, .Array []), ("version".toList, .Int 1)] "name".toList .Null
  exact ⟨h.1 (.Int 1) (by rfl), (h2.2.1 (by rfl)).1,
    h.2.2.1 (.Array []) (by intro o2 e; cases e), by rfl⟩

/-- C13. The accessor `index_array`.  On a node holding an Array of length `n` it returns
the element at `i` when `i < n` and throws `out_of_range` when `i >= n`; on a node holding
any other variant it throws "not an array", a different exception.  In every case the
node is as before. -/
theorem index_array_spec (a : List Node) (i : Nat) :
    (∀ h : i < a.length, index_array (.Array a) i = (.Array a, .ok a[i])) ∧
    (a.length ≤ i → index_array (.Array a) i = (.Array a, .error .out_of_range)) ∧
    (∀ node : Node, (∀ a2, node ≠ .Array a2) →
      index_array node i = (node, .error .not_an_array)) ∧
    AccessError.not_an_array ≠ AccessError.out_of_range ∧
    (∀ node : Node, (index_array node i).1 = node) := by
  refine ⟨?_, ?_, ?_, ?_, ?_⟩
  · intro h
    simp [index_array, List.getElem?_eq_getElem h]
  · intro h
    simp [index_array, List.getElem?_eq_none h]
  · intro node hnode
    cases node with
    | Array a2 => exact absurd rfl (hnode a2)
    | _ => rfl
  · intro e; cases e
  · intro node
    cases node with
    | Array a2 =>
      simp only [index_array]
      split <;> rfl
    | _ => rfl

/-- C13, on the Array[Null, Bool true] at the indices 1 and 2, and on a node holding a
String. -/
theorem index_array_spec_witness :
    index_array (.Array [.Null, .Bool true]) 1 = (.Array [.Null, .Bool true], .ok (.Bool true)) ∧
    index_array (.Array [.Null, .Bool true]) 2 =
      (.Array [.Null, .Bool true], .error .out_of_range) ∧
    index_array (.String []) 0 = (.String [], .error .not_an_array) :=
  ⟨(index_array_spec [.Null, .Bool true] 1).1 (by decide),
    (index_array_spec [.Null, .Bool true] 2).2.1 (by decide),
    (index_array_spec [] 0).2.2.1 (.String []) (by intro a2 e; cases e)⟩

/-- C14. The member `push`.  On a node holding the Array `a` it leaves the Array
`a ++ [v]`: one element more, the last one `v`, the earlier ones as before.  On a node
holding any other variant it leaves the node as it is, and throws nothing.  The statement
`x[key].push(v)` on an Object holding the Array `a` at `key` leaves `a ++ [v]` at `key`,
every other entry as before and the keys as before. -/
theorem push_spec (a : List Node) (v : Node) :
    push (.Array a) v = .Array (a ++ [v]) ∧
    (a ++ [v]).length = a.length + 1 ∧
    (a ++ [v])[a.length]? = some v ∧
    (∀ i, i < a.length → (a ++ [v])[i]? = a[i]?) ∧
    (∀ node : Node, (∀ a2, node ≠ .Array a2) → push node v = node) ∧
    (∀ (o : Object) (key : Text), Object.find o key = some (.Array a) →
      ∃ o2, index_object_push (.Object o) key v = (.Object o2, .ok ()) ∧
        Object.find o2 key = some (.Array (a ++ [v])) ∧
        (∀ k, k ≠ key → Object.find o2 k = Object.find o k) ∧
        (∀ k, k ∈ o2.map Prod.fst ↔ k ∈ o.map Prod.fst)) := by
  refine ⟨rfl, by simp, by simp, ?_, ?_, ?_⟩
  · intro i hi
    exact List.getElem?_append_left hi
  · intro node hnode
    cases node with
    | Array a2 => exact absurd rfl (hnode a2)
    | _ => rfl
  · intro o key hfind
    have hidx := index_present o key _ hfind
    refine ⟨Object.assign o key (.Array (a ++ [v])), ?_, ?_, ?_, ?_⟩
    · simp [index_object_push, hidx, push]
    · rw [assign_find, if_pos rfl]
    · intro k hk; rw [assign_find, if_neg hk]
    · intro k
      rw [assign_mem_key]
      have := find_some_mem_key o key _ hfind
      constructor
      · intro hk
        rcases hk with hk | hk
        · rw [hk]; exact this
        · exact hk
      · intro hk; exact Or.inr hk

/-- C14, on the statements `x["configurations"].push(true)` of the demo and `push` on a
node holding Null. -/
theorem push_spec_witness :
    push (.Array [.Null]) (.Bool true) = .Array [.Null, .Bool true] ∧
    push .Null (.Bool true) = .Null ∧
    index_object_push
        (.Object [("configurations".toList, .Array [.Null]), ("version".toList, .Int 1)])
        "configurations".toList (.Bool true) =
      (.Object [("configurations".toList, .Array [.Null, .Bool true]),
        ("version".toList, .Int 1)], .ok ()) := by
  have h := push_spec [.Null] (.Bool true)
  obtain ⟨o2, ho2, _⟩ := h.2.2.2.2.2
    [("configurations".toList, .Array [.Null]), ("version".toList, .Int 1)]
    "configurations".toList (by rfl)
  exact ⟨h.1, h.2.2.2.2.1 .Null (by intro a2 e; cases e), by rfl⟩

/-! ## The generator on leaves and Arrays -/

theorem digitChar_ne_zero (k : Nat) (hk : k < 10) (h0 : k ≠ 0) : Nat.digitChar k ≠ '0' := by
  interval_cases k <;> first | exact absurd rfl h0 | decide

theorem toDigitsCore_head (fuel : Nat) : ∀ (n : Nat) (ds : Text), n < fuel → n ≠ 0 →
    (Nat.toDigitsCore 10 fuel n ds).head? ≠ some '0' := by
  induction fuel with
  | zero => intro n ds h; omega
  | succ fuel ih =>
    intro n ds hn h0
    by_cases hq : n / 10 = 0
    · have hlt : n < 10 := by omega
      have hmod : n % 10 = n := Nat.mod_eq_of_lt hlt
      simp only [Nat.toDigitsCore, hq, if_true, List.head?_cons, hmod]
      intro e
      exact digitChar_ne_zero n hlt h0 (Option.some.inj e)
    · simp only [Nat.toDigitsCore, hq, if_false]
      exact ih (n / 10) _ (by omega) hq

theorem toDigits_no_leading_zero (n : Nat) :
    (Nat.toDigits 10 n).head? = some '0' → Nat.toDigits 10 n = ['0'] := by
  intro h
  by_cases h0 : n = 0
  · rw [h0]; rfl
  · exact absurd h (toDigitsCore_head (n + 1) n [] (Nat.lt_succ_self n) h0)

theorem generate_array_loop_eq (dtoa : Double → Text) (x : Node) (rest : List Node) :
    generate_array_loop dtoa (x :: rest) =
      List.intercalate [','] ((x :: rest).map (generate dtoa)) ++ [','] := by
  induction rest generalizing x with
  | nil => simp [generate_array_loop, List.intercalate]
  | cons y rest ih =>
    rw [generate_array_loop, ih y]
    simp [List.intercalate, List.intersperse]

theorem generate_array_eq (dtoa : Double → Text) (a : List Node) :
    generate dtoa (.Array a) =
      '[' :: (List.intercalate [','] (a.map (generate dtoa)) ++ [']']) := by
  cases a with
  | nil => simp [generate, generate_array_loop, List.intercalate]
  | cons x rest =>
    rw [generate, generate_array_loop_eq]
    simp only [List.isEmpty_cons, Bool.not_false, if_true, pop_back]
    rw [← List.cons_append, List.dropLast_concat]
    rfl

theorem compact_elements_eq (dtoa : Double → Text) (a : List Node) :
    compact_elements dtoa a = List.intercalate [','] (a.map (compact_text dtoa)) := by
  induction a with
  | nil => simp [compact_elements, List.intercalate]
  | cons x rest ih =>
    cases rest with
    | nil => simp [compact_elements, List.intercalate]
    | cons y rest =>
      rw [compact_elements, ih]
      simp [List.intercalate, List.intersperse]

mutual
theorem generate_object_free : ∀ (dtoa : Double → Text) (v : Node), object_free v = true →
    generate dtoa v = compact_text dtoa v
  | _, .Null, _ => rfl
  | _, .Bool _, _ => rfl
  | _, .Int _, _ => rfl
  | _, .Float _, _ => rfl
  | _, .String _, _ => rfl
  | dtoa, .Array a, h => by
    have hmap := generate_object_free_elements dtoa a (by simpa [object_free] using h)
    rw [generate_array_eq, hmap]
    simp [compact_text, compact_elements_eq]
  | _, .Object _, h => by simp [object_free] at h
theorem generate_object_free_elements : ∀ (dtoa : Double → Text) (a : List Node),
    object_free_elements a = true → a.map (generate dtoa) = a.map (compact_text dtoa)
  | _, [], _ => rfl
  | dtoa, x :: rest, h => by
    have h2 : object_free x = true ∧ object_free_elements rest = true := by
      simpa [object_free_elements] using h
    simp [generate_object_free dtoa x h2.1, generate_object_free_elements dtoa rest h2.2]
end

/-- C15. Generator format for leaves and Arrays.  `generate` is a total function.  Null
gives `null`; Bool gives `true` or `false`; Int `n` gives decimal digits that denote the
absolute value of `n`, without a leading zero (except the single digit `0`), after a `-`
exactly when `n` is negative; String `s` gives `s` between two `"` with its bytes
unchanged; an Array gives `[`, the comma-joined texts of its elements and `]`, the empty
Array `[]`; and on every tree without an Object the text is the compact reference text. -/
theorem generate_format (dtoa : Double → Text) (v : Node) (h : object_free v = true) :
    generate dtoa v = compact_text dtoa v ∧
    generate dtoa .Null = "null".toList ∧
    generate dtoa (.Bool true) = "true".toList ∧
    generate dtoa (.Bool false) = "false".toList ∧
    (∀ n : Int, ∃ ds : Text, ds ≠ [] ∧ (∀ c ∈ ds, isdigit c = true) ∧
      digits_value ds = n.natAbs ∧ (ds.head? = some '0' → ds = ['0']) ∧
      generate dtoa (.Int n) = if n < 0 then '-' :: ds else ds) ∧
    (∀ s : Text, generate dtoa (.String s) = [dquote] ++ s ++ [dquote]) ∧
    (∀ a : List Node, generate dtoa (.Array a) =
      ['['] ++ List.intercalate [','] (a.map (generate dtoa)) ++ [']']) ∧
    generate dtoa (.Array []) = "[]".toList := by
  refine ⟨generate_object_free dtoa v h, rfl, rfl, rfl, ?_, ?_, ?_, rfl⟩
  · intro n
    obtain ⟨hne, hdig, hval⟩ := toDigits_spec n.natAbs
    exact ⟨Nat.toDigits 10 n.natAbs, hne, hdig, hval, toDigits_no_leading_zero n.natAbs, rfl⟩
  · intro s; rfl
  · intro a
    rw [generate_array_eq]
    simp

/-- C15, on the Array[Int (-12), String `x`, Array[], Bool false, Null]. -/
theorem generate_format_witness :
    object_free (.Array [.Int (-12), .String "x".toList, .Array [], .Bool false, .Null]) =
      true ∧
    generate (fun _ => [])
        (.Array [.Int (-12), .String "x".toList, .Array [], .Bool false, .Null]) =
      "[-12,\"x\",[],false,null]".toList := by
  have h := (generate_format (fun _ => [])
    (.Array [.Int (-12), .String "x".toList, .Array [], .Bool false, .Null]) (by decide)).1
  exact ⟨by decide, by rw [h]; rfl⟩

/-! ## Further claims on the parser -/

/-- C16. Idempotence does not hold for every tree without Float.  For the Array holding
one empty Object the generated text is `[{]` and the parser leaves it with
`bad_optional_access`.  For Object{a: Object{x: Int 1}, b: Null} the generated text is
`{"a":{"x":1,"b":null`, the parser returns Object{a: Object{b: Null, x: Int 1}}, and the
text generated from that tree is `{"a":{"b":null,"x":1`, another text. -/
theorem idempotence_fails (stod : Text → Option Double) (dtoa : Double → Text) :
    parser stod (generate dtoa (.Array [.Object []])) = .bad_optional_access ∧
    generate dtoa (.Object [("a".toList, .Object [("x".toList, .Int 1)]),
      ("b".toList, .Null)]) = '{' :: "\"a\":\x7b\"x\":1,\"b\":null".toList ∧
    parser stod (generate dtoa (.Object [("a".toList, .Object [("x".toList, .Int 1)]),
      ("b".toList, .Null)])) =
      .value (.Object [("a".toList, .Object [("b".toList, .Null), ("x".toList, .Int 1)])])
        22 ∧
    generate dtoa (.Object [("a".toList, .Object [("b".toList, .Null),
      ("x".toList, .Int 1)])]) = '{' :: "\"a\":\x7b\"b\":null,\"x\":1".toList ∧
    generate dtoa (.Object [("a".toList, .Object [("b".toList, .Null),
      ("x".toList, .Int 1)])]) ≠
      generate dtoa (.Object [("a".toList, .Object [("x".toList, .Int 1)]),
        ("b".toList, .Null)]) := by
  have h1 : generate dtoa (.Array [.Object []]) = ['[', '{', ']'] := by rfl
  have h2 : generate dtoa (.Object [("a".toList, .Object [("x".toList, .Int 1)]),
      ("b".toList, .Null)]) = '{' :: "\"a\":\x7b\"x\":1,\"b\":null".toList := by rfl
  have h3 : generate dtoa (.Object [("a".toList, .Object [("b".toList, .Null),
      ("x".toList, .Int 1)])]) = '{' :: "\"a\":\x7b\"b\":null,\"x\":1".toList := by rfl
  refine ⟨?_, h2, ?_, h3, ?_⟩
  · rw [h1]; rfl
  · rw [h2]; rfl
  · rw [h2, h3]; decide

/-- C17. White space between tokens is not always insignificant: on `[ ]` and on `{ }`
the loop test after the opening bracket sees the blank, `parse_value` fails on the closing
bracket, and the parser leaves with `bad_optional_access`, while `[]` and `{}` parse to
the empty Array and the empty Object.  On `[ 1 , 2 ]` and `{ "a" : 1 }` the parser returns
the same trees as on `[1,2]` and `{"a":1}`. -/
theorem parser_whitespace_in_empty (stod : Text → Option Double) :
    parser stod "[ ]".toList = .bad_optional_access ∧
    parser stod "[]".toList = .value (.Array []) 2 ∧
    parser stod "\x7b \x7d".toList = .bad_optional_access ∧
    parser stod "\x7b\x7d".toList = .value (.Object []) 2 ∧
    parser stod "[ 1 , 2 ]".toList = .value (.Array [.Int 1, .Int 2]) 9 ∧
    parser stod "[1,2]".toList = .value (.Array [.Int 1, .Int 2]) 5 ∧
    parser stod "\x7b \"a\" : 1 \x7d".toList = .value (.Object [("a".toList, .Int 1)]) 11 ∧
    parser stod "\x7b\"a\":1\x7d".toList = .value (.Object [("a".toList, .Int 1)]) 7 :=
  ⟨rfl, rfl, rfl, rfl, rfl, rfl, rfl, rfl⟩

theorem parse_number_no_lexeme (stod : Text → Option Double) {s : Text} {pos : Nat}
    {c : Char} {rest : Text} (h : s.drop pos = c :: rest) (hc : is_number_char c = false) :
    parse_number stod s pos = .nullopt pos := by
  have hlt := lt_length_of_drop h
  have hscan : scan_while is_number_char (s.drop pos) pos = pos := by
    rw [h]; simp [scan_while, hc]
  simp only [parse_number, hscan]
  simp [substr, Nat.not_lt.mpr (Nat.le_of_lt hlt), is_Float, stoi]

theorem parse_value_at_is_not (stod : Text → Option Double) (s : Text) (fuel pos : Nat)
    (v : Node) (p : Nat) (h : parse_value stod s fuel pos = .value v p) :
    at_is_not s pos '}' = true := by
  cases fuel with
  | zero => simp [parse_value] at h
  | succ fuel =>
    cases hd : s.drop pos with
    | nil =>
      have hws : parse_whitespace s pos = pos := parse_whitespace_stay hd (by simp)
      have hget : s[pos]? = none := by rw [← List.head?_drop, hd]; rfl
      simp [parse_value, hws, hget] at h
    | cons c rest =>
      rw [at_is_not_of_drop '}' hd]
      by_contra hne
      have hc : c = '}' := by simpa using hne
      subst hc
      have hws : parse_whitespace s pos = pos :=
        parse_whitespace_stay hd (head_not_space _ (by decide))
      rw [parse_value_succ stod s fuel pos _ hws (getElem?_of_drop hd), if_neg (by decide),
        if_neg (by decide), if_neg (by decide), if_neg (by decide), if_neg (by decide),
        if_neg (by decide), parse_number_no_lexeme stod hd (by decide)] at h
      cases h

/-- C18. Non-string object key.  For a text made of white space `w`, `{` and any `rest`:
when `parse_value`, started just after the `{`, returns a value that is not a String,
`parser` returns no value, with the cursor after the white space that follows the key, so
no Object and no entry is returned. -/
theorem parser_non_string_key (stod : Text → Option Double) (w rest : Text) (fuel : Nat)
    (key : Node) (p : Nat) (hw : ∀ c ∈ w, isspace c = true)
    (hfuel : 2 * rest.length + 1 ≤ fuel)
    (hkey : parse_value stod (w ++ '{' :: rest) fuel (w.length + 1) = .value key p)
    (hns : ∀ k, key ≠ .String k) :
    parser stod (w ++ '{' :: rest) = .nullopt (parse_whitespace (w ++ '{' :: rest) p) := by
  have hlen : (w ++ '{' :: rest).length = w.length + 1 + rest.length := by
    simp; omega
  have hmono := (parse_fuel_mono stod (w ++ '{' :: rest) (2 * rest.length + 1)).1
    (w.length + 1)
  have hk1 : parse_value stod (w ++ '{' :: rest) (2 * rest.length + 1) (w.length + 1) =
      .value key p := by
    rw [← hmono (fuel - (2 * rest.length + 1)) (by omega),
      show 2 * rest.length + 1 + (fuel - (2 * rest.length + 1)) = fuel by omega]
    exact hkey
  have hk2 : parse_value stod (w ++ '{' :: rest) (2 * (w ++ '{' :: rest).length - 1)
      (w.length + 1) = .value key p := by
    rw [show 2 * (w ++ '{' :: rest).length - 1 = 2 * rest.length + 1 + 2 * w.length by omega,
      hmono (2 * w.length) (by omega)]
    exact hk1
  have hcond := parse_value_at_is_not stod _ _ _ _ _ hk2
  rw [parser_dispatch stod w '{' rest hw (by decide), if_neg (by decide), if_neg (by decide),
    if_neg (by decide), if_neg (by decide), if_neg (by decide), if_pos rfl,
    show 2 * (w ++ '{' :: rest).length = (2 * (w ++ '{' :: rest).length - 1) + 1 by omega]
  rw [parse_object_loop, if_pos hcond, hk2]
  cases key with
  | String k => exact absurd rfl (hns k)
  | _ => rfl

/-- C18, at the texts `{1:2}`, `{null:1}` and `{[]:1}`. -/
theorem parser_non_string_key_witness :
    parser (fun _ => none) "\x7b1:2\x7d".toList = .nullopt 2 ∧
    parser (fun _ => none) "\x7bnull:1\x7d".toList = .nullopt 5 ∧
    parser (fun _ => none) "\x7b[]:1\x7d".toList = .nullopt 3 :=
  ⟨parser_non_string_key (fun _ => none) [] "1:2\x7d".toList 9 (.Int 1) 2 (by decide)
      (by decide) (by rfl) (by intro k e; cases e),
    parser_non_string_key (fun _ => none) [] "null:1\x7d".toList 15 .Null 5 (by decide)
      (by decide) (by rfl) (by intro k e; cases e),
    parser_non_string_key (fun _ => none) [] "[]:1\x7d".toList 11 (.Array []) 3 (by decide)
      (by decide) (by rfl) (by intro k e; cases e)⟩

/-- C19. No negative numbers.  For a text made of white space `w`, a sign `-` or `+` and
any `rest`, the number scan stops on the sign (the lexeme is empty), and `parser` returns
no value with the cursor on the sign; hence `parser` returns no value on the text that
`generate` writes for a negative Int. -/
theorem parser_sign (stod : Text → Option Double) (w rest : Text) (c : Char)
    (hw : ∀ d ∈ w, isspace d = true) (hc : c = '-' ∨ c = '+') :
    scan_while is_number_char ((w ++ c :: rest).drop w.length) w.length = w.length ∧
    parser stod (w ++ c :: rest) = .nullopt w.length ∧
    (∀ (dtoa : Double → Text) (n : Int), n < 0 →
      parser stod (generate dtoa (.Int n)) = .nullopt 0) := by
  have hsign : ∀ (w rest : Text) (c : Char), (∀ d ∈ w, isspace d = true) →
      (c = '-' ∨ c = '+') → parser stod (w ++ c :: rest) = .nullopt w.length := by
    intro w rest c hw hc
    have hd : (w ++ c :: rest).drop w.length = c :: rest := by simp
    have hnum : is_number_char c = false := by
      rcases hc with hc | hc <;> rw [hc] <;> decide
    have hsp : isspace c = false := by
      rcases hc with hc | hc <;> rw [hc] <;> decide
    rw [parser_dispatch stod w c rest hw hsp]
    rcases hc with hc | hc
    · subst hc
      rw [if_neg (by decide), if_neg (by decide), if_neg (by decide), if_neg (by decide),
        if_neg (by decide), if_neg (by decide)]
      exact parse_number_no_lexeme stod hd hnum
    · subst hc
      rw [if_neg (by decide), if_neg (by decide), if_neg (by decide), if_neg (by decide),
        if_neg (by decide), if_neg (by decide)]
      exact parse_number_no_lexeme stod hd hnum
  refine ⟨?_, hsign w rest c hw hc, ?_⟩
  · have hnum : is_number_char c = false := by
      rcases hc with hc | hc <;> rw [hc] <;> decide
    simp [scan_while, hnum]
  · intro dtoa n hn
    have hgen : generate dtoa (.Int n) = '-' :: Nat.toDigits 10 n.natAbs := by
      simp [generate, to_string, hn]
    rw [hgen]
    exact hsign [] (Nat.toDigits 10 n.natAbs) '-' (by simp) (Or.inl rfl)

/-- C19, at the texts `-1`, ` +5` (after one blank) and the text generated for Int (-12). -/
theorem parser_sign_witness :
    parser (fun _ => none) "-1".toList = .nullopt 0 ∧
    parser (fun _ => none) " +5".toList = .nullopt 1 ∧
    parser (fun _ => none) (generate (fun _ => []) (.Int (-12))) = .nullopt 0 :=
  ⟨(parser_sign (fun _ => none) [] "1".toList '-' (by decide) (Or.inl rfl)).2.1,
    (parser_sign (fun _ => none) [' '] "5".toList '+' (by decide) (Or.inr rfl)).2.1,
    (parser_sign (fun _ => none) [] [] '-' (by decide) (Or.inl rfl)).2.2 (fun _ => []) (-12)
      (by decide)⟩

/-- C20. String scan without escapes, trailing text unchecked.  For every `s` without `"`
(a backslash is a byte like any other) and every `t`, `parser` on `"` s `"` t returns the
String `s`, its bytes unchanged, with the cursor just past the closing quote. -/
theorem parser_string (stod : Text → Option Double) (s t : Text) (hs : dquote ∉ s) :
    parser stod (dquote :: (s ++ dquote :: t)) = .value (.String s) (s.length + 2) := by
  have h := parser_dispatch stod [] dquote (s ++ dquote :: t) (by simp) (by decide)
  rw [if_neg (by decide), if_neg (by decide), if_neg (by decide), if_pos rfl] at h
  simp only [List.nil_append, List.length_nil] at h
  have hd : (dquote :: (s ++ dquote :: t)).drop 0 = dquote :: (s ++ dquote :: t) := rfl
  rw [h, parse_string_of_drop s hd hs]
  simp

/-- C20, at the text `"a\"b"`, which parses to the String `a\` with the cursor at 4, and
at `"x"` followed by the garbage `]]`. -/
theorem parser_string_witness :
    parser (fun _ => none) "\"a\\\"b\"".toList = .value (.String "a\\".toList) 4 ∧
    parser (fun _ => none) "\"x\"]]".toList = .value (.String "x".toList) 3 :=
  ⟨parser_string (fun _ => none) "a\\".toList "b\"".toList (by decide),
    parser_string (fun _ => none) "x".toList "]]".toList (by decide)⟩

/-! ## The cursor never moves back -/

theorem parse_null_cursor (s : Text) (pos p : Nat) (h : (parse_null s pos).cursor = some p) :
    pos ≤ p := by
  simp only [parse_null] at h
  split at h
  · simp [Outcome.cursor] at h
  · split at h <;> simp [Outcome.cursor] at h <;> omega

theorem parse_true_cursor (s : Text) (pos p : Nat) (h : (parse_true s pos).cursor = some p) :
    pos ≤ p := by
  simp only [parse_true] at h
  split at h
  · simp [Outcome.cursor] at h
  · split at h <;> simp [Outcome.cursor] at h <;> omega

theorem parse_false_cursor (s : Text) (pos p : Nat)
    (h : (parse_false s pos).cursor = some p) : pos ≤ p := by
  simp only [parse_false] at h
  split at h
  · simp [Outcome.cursor] at h
  · split at h <;> simp [Outcome.cursor] at h <;> omega

theorem parse_number_cursor (stod : Text → Option Double) (s : Text) (pos p : Nat)
    (h : (parse_number stod s pos).cursor = some p) : pos ≤ p := by
  have hge := scan_while_ge is_number_char (s.drop pos) pos
  simp only [parse_number] at h
  split at h
  · simp [Outcome.cursor] at h
  · split at h
    · split at h <;> simp [Outcome.cursor] at h <;> omega
    · split at h <;> simp [Outcome.cursor] at h <;> omega

theorem parse_string_cursor (s : Text) (pos p : Nat)
    (h : (parse_string s pos).cursor = some p) : pos ≤ p := by
  cases hs : parse_string s pos with
  | value v q =>
    rw [hs] at h
    simp [Outcome.cursor] at h
    have := (parse_string_value hs).2
    omega
  | nullopt q =>
    simp only [parse_string] at hs
    split at hs
    · cases hs
    · split at hs <;> cases hs
  | _ => rw [hs] at h; simp [Outcome.cursor] at h

theorem parse_cursor_aux (stod : Text → Option Double) (s : Text) : ∀ fuel : Nat,
    (∀ pos p : Nat, (parse_value stod s fuel pos).cursor = some p → pos ≤ p) ∧
    (∀ (pos : Nat) (acc : List Node) (p : Nat),
      (parse_array_loop stod s fuel pos acc).cursor = some p → pos ≤ p) ∧
    (∀ (pos : Nat) (obj : Object) (p : Nat),
      (parse_object_loop stod s fuel pos obj).cursor = some p → pos ≤ p) := by
  intro fuel
  induction fuel with
  | zero =>
    refine ⟨?_, ?_, ?_⟩
    · intro pos p h; simp [parse_value, Outcome.cursor] at h
    · intro pos acc p h; simp [parse_array_loop, Outcome.cursor] at h
    · intro pos obj p h; simp [parse_object_loop, Outcome.cursor] at h
  | succ fuel ih =>
    obtain ⟨ihv, iha, iho⟩ := ih
    refine ⟨?_, ?_, ?_⟩
    · intro pos p h
      have hge := parse_whitespace_ge s pos
      simp only [parse_value] at h
      split at h
      · simp [Outcome.cursor] at h
      · split_ifs at h
        · exact Nat.le_trans hge (parse_null_cursor _ _ _ h)
        · exact Nat.le_trans hge (parse_true_cursor _ _ _ h)
        · exact Nat.le_trans hge (parse_false_cursor _ _ _ h)
        · exact Nat.le_trans hge (parse_string_cursor _ _ _ h)
        · have := iha _ _ _ h; omega
        · have := iho _ _ _ h; omega
        · exact Nat.le_trans hge (parse_number_cursor stod _ _ _ h)
    · intro pos acc p h
      simp only [parse_array_loop] at h
      split at h
      · split at h
        · rename_i value pos2 hval
          have h1 := ihv pos pos2 (by rw [hval]; rfl)
          have h2 := skip_separator_ge s pos2 ','
          have h3 := iha _ _ _ h
          omega
        all_goals simp [Outcome.cursor] at h
      · simp [Outcome.cursor] at h
        omega
    · intro pos obj p h
      simp only [parse_object_loop] at h
      split at h
      · split at h
        · rename_i key pos2 hkey
          have h1 := ihv pos pos2 (by rw [hkey]; rfl)
          have hw := parse_whitespace_ge s pos2
          split at h
          · rename_i k
            have hge3 : pos2 ≤ parse_whitespace s
                (if at_is s (parse_whitespace s pos2) ':' = true then parse_whitespace s pos2 + 1
                  else parse_whitespace s pos2) := by
              split
              · exact Nat.le_trans (Nat.le_trans hw (Nat.le_succ _)) (parse_whitespace_ge s _)
              · exact Nat.le_trans hw (parse_whitespace_ge s _)
            split at h
            · rename_i val pos3 hval
              have h2 := ihv _ pos3 (by rw [hval]; rfl)
              have h3 := skip_separator_ge s pos3 ','
              have h4 := iho _ _ _ h
              omega
            all_goals simp [Outcome.cursor] at h
          · simp [Outcome.cursor] at h
            omega
        all_goals simp [Outcome.cursor] at h
      · simp [Outcome.cursor] at h
        omega

/-- C21. Monotone cursor.  On every buffer, from every cursor position and at every
recursion bound, each production that returns (with a value or with no value) leaves the
cursor at or after the position where it started: `parse_whitespace`, `parse_null`,
`parse_true`, `parse_false`, `parse_number`, `parse_string`, `parse_array`, `parse_object`
and `parse_value`.  A literal production returns no value with the cursor where it was, or
its value with the cursor 4, 4 or 5 bytes further. -/
theorem cursor_monotone (stod : Text → Option Double) (s : Text) (fuel pos : Nat) :
    pos ≤ parse_whitespace s pos ∧
    (∀ p, (parse_null s pos).cursor = some p → pos ≤ p) ∧
    (∀ p, (parse_true s pos).cursor = some p → pos ≤ p) ∧
    (∀ p, (parse_false s pos).cursor = some p → pos ≤ p) ∧
    (∀ p, (parse_number stod s pos).cursor = some p → pos ≤ p) ∧
    (∀ p, (parse_string s pos).cursor = some p → pos ≤ p) ∧
    (∀ p, (parse_array stod s fuel pos).cursor = some p → pos ≤ p) ∧
    (∀ p, (parse_object stod s fuel pos).cursor = some p → pos ≤ p) ∧
    (∀ p, (parse_value stod s fuel pos).cursor = some p → pos ≤ p) ∧
    (∀ p, parse_null s pos = .nullopt p → p = pos) ∧
    (∀ p, parse_true s pos = .nullopt p → p = pos) ∧
    (∀ p, parse_false s pos = .nullopt p → p = pos) ∧
    (∀ v p, parse_null s pos = .value v p → p = pos + 4) ∧
    (∀ v p, parse_true s pos = .value v p → p = pos + 4) ∧
    (∀ v p, parse_false s pos = .value v p → p = pos + 5) := by
  obtain ⟨hv, ha, ho⟩ := parse_cursor_aux stod s fuel
  refine ⟨parse_whitespace_ge s pos, parse_null_cursor s pos, parse_true_cursor s pos,
    parse_false_cursor s pos, parse_number_cursor stod s pos, parse_string_cursor s pos,
    ?_, ?_, hv pos, ?_, ?_, ?_, ?_, ?_, ?_⟩
  · intro p h
    have := ha (pos + 1) [] p h
    omega
  · intro p h
    have := ho (pos + 1) [] p h
    omega
  · intro p h
    simp only [parse_null] at h
    split at h
    · cases h
    · split at h <;> cases h
      rfl
  · intro p h
    simp only [parse_true] at h
    split at h
    · cases h
    · split at h <;> cases h
      rfl
  · intro p h
    simp only [parse_false] at h
    split at h
    · cases h
    · split at h <;> cases h
      rfl
  · intro v p h; exact (parse_null_value h).2
  · intro v p h; exact (parse_true_value h).2
  · intro v p h; exact (parse_false_value h).2

/-- C21, on the buffer `[1, nul]`: `parse_value` from the cursor 1 returns with the cursor
at 2, and `parse_null` from the cursor 4 returns no value with the cursor at 4. -/
theorem cursor_monotone_witness :
    (parse_value (fun _ => none) "[1, nul]".toList 20 1).cursor = some 2 ∧ (1 : Nat) ≤ 2 ∧
    parse_null "[1, nul]".toList 4 = .nullopt 4 ∧ (4 : Nat) = 4 :=
  ⟨by rfl,
    (cursor_monotone (fun _ => none) "[1, nul]".toList 20 1).2.2.2.2.2.2.2.2.1 2 (by rfl),
    by rfl,
    (cursor_monotone (fun _ => none) "[1, nul]".toList 20 4).2.2.2.2.2.2.2.2.2.1 4 (by rfl)⟩

/-! ## The result depends on the text from the cursor on -/

theorem scan_while_shift (p : Char → Bool) (x : Text) (k i : Nat) :
    scan_while p x (k + i) = k + scan_while p x i := by
  induction x generalizing i with
  | nil => rfl
  | cons c x ih =>
    simp only [scan_while]
    split
    · exact ih (i + 1)
    · rfl

theorem drop_shift (pre s : Text) (pos : Nat) :
    (pre ++ s).drop (pre.length + pos) = s.drop pos := by
  rw [← List.drop_drop, List.drop_left]

theorem getElem?_shift (pre s : Text) (pos : Nat) :
    (pre ++ s)[pre.length + pos]? = s[pos]? := by
  rw [← List.head?_drop, drop_shift, List.head?_drop]

theorem parse_whitespace_shift (pre s : Text) (pos : Nat) :
    parse_whitespace (pre ++ s) (pre.length + pos) = pre.length + parse_whitespace s pos := by
  simp only [parse_whitespace, drop_shift]
  exact scan_while_shift isspace _ _ _

theorem substr_shift (pre s : Text) (pos n : Nat) :
    substr (pre ++ s) (pre.length + pos) n = substr s pos n := by
  simp only [substr, drop_shift, List.length_append]
  by_cases h : pos > s.length
  · rw [if_pos h, if_pos (by omega)]
  · rw [if_neg h, if_neg (by omega)]

theorem at_is_shift (pre s : Text) (pos : Nat) (c : Char) :
    at_is (pre ++ s) (pre.length + pos) c = at_is s pos c := by
  simp only [at_is, getElem?_shift]

theorem at_is_not_shift (pre s : Text) (pos : Nat) (c : Char) :
    at_is_not (pre ++ s) (pre.length + pos) c = at_is_not s pos c := by
  simp only [at_is_not, getElem?_shift]

theorem skip_separator_shift (pre s : Text) (pos : Nat) (sep : Char) :
    skip_separator (pre ++ s) (pre.length + pos) sep =
      pre.length + skip_separator s pos sep := by
  simp only [skip_separator, parse_whitespace_shift, at_is_shift]
  split
  · exact parse_whitespace_shift pre s (parse_whitespace s pos + 1)
  · exact parse_whitespace_shift pre s (parse_whitespace s pos)

theorem parse_null_shift (pre s : Text) (pos : Nat) :
    parse_null (pre ++ s) (pre.length + pos) = (parse_null s pos).shift pre.length := by
  simp only [parse_null, substr_shift]
  split
  · rfl
  · split <;> rfl

theorem parse_true_shift (pre s : Text) (pos : Nat) :
    parse_true (pre ++ s) (pre.length + pos) = (parse_true s pos).shift pre.length := by
  simp only [parse_true, substr_shift]
  split
  · rfl
  · split <;> rfl

theorem parse_false_shift (pre s : Text) (pos : Nat) :
    parse_false (pre ++ s) (pre.length + pos) = (parse_false s pos).shift pre.length := by
  simp only [parse_false, substr_shift]
  split
  · rfl
  · split <;> rfl

theorem parse_number_shift (stod : Text → Option Double) (pre s : Text) (pos : Nat) :
    parse_number stod (pre ++ s) (pre.length + pos) =
      (parse_number stod s pos).shift pre.length := by
  have hge := scan_while_ge is_number_char (s.drop pos) pos
  simp only [parse_number, drop_shift, scan_while_shift, substr_shift]
  rw [show pre.length + scan_while is_number_char (s.drop pos) pos - (pre.length + pos) =
    scan_while is_number_char (s.drop pos) pos - pos by omega]
  split
  · rfl
  · split
    · split <;> rfl
    · split <;> rfl

theorem find_quote_shift (x : Text) (k i : Nat) :
    find_quote x (k + i) = (find_quote x i).map (fun e => k + e) := by
  induction x generalizing i with
  | nil => rfl
  | cons c x ih =>
    simp only [find_quote]
    split
    · exact ih (i + 1)
    · rfl

theorem parse_string_shift (pre s : Text) (pos : Nat) :
    parse_string (pre ++ s) (pre.length + pos) = (parse_string s pos).shift pre.length := by
  have hd : (pre ++ s).drop (pre.length + pos + 1) = s.drop (pos + 1) :=
    drop_shift pre s (pos + 1)
  have hsub : ∀ n, substr (pre ++ s) (pre.length + pos + 1) n = substr s (pos + 1) n :=
    substr_shift pre s (pos + 1)
  simp only [parse_string, hd, hsub, List.length_append]
  by_cases hlt : pos + 1 < s.length
  · rw [if_pos hlt, if_pos (by omega),
      show pre.length + pos + 1 = pre.length + (pos + 1) from rfl, find_quote_shift]
    cases hf : find_quote (s.drop (pos + 1)) (pos + 1) with
    | none => rfl
    | some e =>
      have hge := find_quote_ge _ _ _ hf
      simp only [Option.map_some']
      rw [show pre.length + e - (pre.length + (pos + 1)) = e - (pos + 1) by omega]
      split <;> rfl
  · rw [if_neg hlt, if_neg (by omega)]
    simp only [Nat.sub_self]
    split <;> rfl

theorem parse_shift_aux (stod : Text → Option Double) (pre s : Text) : ∀ fuel : Nat,
    (∀ pos : Nat, parse_value stod (pre ++ s) fuel (pre.length + pos) =
      (parse_value stod s fuel pos).shift pre.length) ∧
    (∀ (pos : Nat) (acc : List Node),
      parse_array_loop stod (pre ++ s) fuel (pre.length + pos) acc =
        (parse_array_loop stod s fuel pos acc).shift pre.length) ∧
    (∀ (pos : Nat) (obj : Object),
      parse_object_loop stod (pre ++ s) fuel (pre.length + pos) obj =
        (parse_object_loop stod s fuel pos obj).shift pre.length) := by
  intro fuel
  induction fuel with
  | zero => exact ⟨fun _ => rfl, fun _ _ => rfl, fun _ _ => rfl⟩
  | succ fuel ih =>
    obtain ⟨ihv, iha, iho⟩ := ih
    refine ⟨?_, ?_, ?_⟩
    · intro pos
      simp only [parse_value, parse_whitespace_shift, getElem?_shift]
      cases hg : s[parse_whitespace s pos]? with
      | none => rfl
      | some c =>
        simp only []
        split_ifs
        · exact parse_null_shift pre s _
        · exact parse_true_shift pre s _
        · exact parse_false_shift pre s _
        · exact parse_string_shift pre s _
        · exact iha (parse_whitespace s pos + 1) []
        · exact iho (parse_whitespace s pos + 1) []
        · exact parse_number_shift stod pre s _
    · intro pos acc
      simp only [parse_array_loop, at_is_not_shift, ihv]
      split
      · cases hval : parse_value stod s fuel pos with
        | value value pos2 =>
          simp only [Outcome.shift, skip_separator_shift]
          exact iha _ _
        | _ => rfl
      · rfl
    · intro pos obj
      simp only [parse_object_loop, at_is_not_shift, ihv]
      split
      · cases hkey : parse_value stod s fuel pos with
        | value key pos2 =>
          simp only [Outcome.shift, parse_whitespace_shift, at_is_shift]
          cases key with
          | String k =>
            simp only []
            have hpos : parse_whitespace (pre ++ s)
                (if at_is s (parse_whitespace s pos2) ':' = true
                  then pre.length + parse_whitespace s pos2 + 1
                  else pre.length + parse_whitespace s pos2) =
                pre.length + parse_whitespace s
                  (if at_is s (parse_whitespace s pos2) ':' = true
                    then parse_whitespace s pos2 + 1 else parse_whitespace s pos2) := by
              split
              · exact parse_whitespace_shift pre s (parse_whitespace s pos2 + 1)
              · exact parse_whitespace_shift pre s (parse_whitespace s pos2)
            rw [hpos, ihv]
            cases hval : parse_value stod s fuel (parse_whitespace s
                (if at_is s (parse_whitespace s pos2) ':' = true
                  then parse_whitespace s pos2 + 1 else parse_whitespace s pos2)) with
            | value val pos3 =>
              simp only [Outcome.shift, skip_separator_shift]
              exact iho _ _
            | _ => rfl
          | _ => rfl
        | _ => rfl
      · rfl

theorem scan_while_leading (p : Char → Bool) (w x : Text) (i : Nat)
    (hw : ∀ c ∈ w, p c = true) : scan_while p (w ++ x) i = scan_while p x (i + w.length) := by
  induction w generalizing i with
  | nil => rfl
  | cons c w ih =>
    have hc : p c = true := hw c (by simp)
    have hw2 : ∀ d ∈ w, p d = true := fun d hd => hw d (by simp [hd])
    have h1 : scan_while p ((c :: w) ++ x) i = scan_while p (w ++ x) (i + 1) := by
      simp [scan_while, hc]
    rw [h1, ih (i + 1) hw2, List.length_cons,
      show i + 1 + w.length = i + (w.length + 1) by omega]

theorem parse_shift (stod : Text → Option Double) (pre s : Text) (pos : Nat) :
    parse stod (pre ++ s) (pre.length + pos) = (parse stod s pos).shift pre.length := by
  have hge := parse_whitespace_ge s pos
  rw [parse_eq, parse_eq, parse_whitespace_shift, (parse_shift_aux stod pre s _).1,
    show 2 * (pre ++ s).length + 1 = (2 * s.length + 1) + 2 * pre.length by
      simp only [List.length_append]; omega,
    (parse_fuel_mono stod s (2 * s.length + 1)).1 _ (2 * pre.length) (by omega)]

/-- C22. Leading white space.  For every text `s` and every `w` made of white space only,
`parser` on `w ++ s` does what it does on `s`: the same value, or no value, or the same
exception or read outside the buffer, with the cursor `w.length` bytes further.  More
generally `parse` on `pre ++ s` from the cursor `pre.length + pos` does what it does on `s`
from `pos`, for any bytes `pre` in front: the result depends on the text from the cursor
on, not on the offset. -/
theorem parser_leading_whitespace (stod : Text → Option Double) (w s : Text)
    (hw : ∀ c ∈ w, isspace c = true) :
    parser stod (w ++ s) = (parser stod s).shift w.length ∧
    (∀ v p, parser stod s = .value v p → parser stod (w ++ s) = .value v (w.length + p)) ∧
    (∀ p, parser stod s = .nullopt p → parser stod (w ++ s) = .nullopt (w.length + p)) ∧
    (∀ (pre : Text) (pos : Nat),
      parse stod (pre ++ s) (pre.length + pos) = (parse stod s pos).shift pre.length) := by
  have hmain : parser stod (w ++ s) = (parser stod s).shift w.length := by
    have hws : parse_whitespace (w ++ s) 0 = parse_whitespace (w ++ s) (w.length + 0) := by
      simp only [parse_whitespace, drop_shift, List.drop_zero]
      rw [scan_while_leading isspace w s 0 hw, Nat.zero_add, Nat.add_zero]
    have h1 : parse stod (w ++ s) 0 = parse stod (w ++ s) (w.length + 0) := by
      rw [parse_eq, parse_eq, hws]
    rw [parser, parser, h1, parse_shift]
  refine ⟨hmain, ?_, ?_, fun pre pos => parse_shift stod pre s pos⟩
  · intro v p h
    rw [hmain, h]; rfl
  · intro p h
    rw [hmain, h]; rfl

/-- C22, at the texts ` \n[1]` against `[1]`, ` nul` against `nul`, and two blanks against
the empty text. -/
theorem parser_leading_whitespace_witness :
    parser (fun _ => none) " \n[1]".toList = .value (.Array [.Int 1]) 5 ∧
    parser (fun _ => none) " nul".toList = .nullopt 1 ∧
    parser (fun _ => none) "  ".toList = .out_of_bounds := by
  have h1 := (parser_leading_whitespace (fun _ => none) " \n".toList "[1]".toList
    (by decide)).2.1 (.Array [.Int 1]) 3 (by rfl)
  have h2 := (parser_leading_whitespace (fun _ => none) " ".toList "nul".toList
    (by decide)).2.2.1 0 (by rfl)
  have h3 := (parser_leading_whitespace (fun _ => none) "  ".toList [] (by decide)).1
  exact ⟨h1, h2, h3⟩

/-! ## Round trips -/

mutual
theorem ordered_of_object_free : ∀ v : Node, object_free v = true → ordered v = true
  | .Null, _ => rfl
  | .Bool _, _ => rfl
  | .Int _, _ => rfl
  | .Float _, _ => rfl
  | .String _, _ => rfl
  | .Array a, h => by
    have := ordered_elements_of_object_free a (by simpa [object_free] using h)
    simpa [ordered] using this
  | .Object _, h => by simp [object_free] at h
theorem ordered_elements_of_object_free : ∀ a : List Node, object_free_elements a = true →
    ordered_elements a = true
  | [], _ => rfl
  | v :: rest, h => by
    have h2 : object_free v = true ∧ object_free_elements rest = true := by
      simpa [object_free_elements] using h
    simp [ordered_elements, ordered_of_object_free v h2.1,
      ordered_elements_of_object_free rest h2.2]
end

/-- C23. Object-free round trip: for every tree `v` built only from Null, Bool, Int `n`
with `0 <= n <= 2^31 - 1`, String without `"`, and Array nested to any depth (no Object,
no Float), `parser` on the text `generate` writes for `v` returns `v` itself, with the
cursor at the end of the text. -/
theorem roundtrip_object_free (stod : Text → Option Double) (dtoa : Double → Text) (v : Node)
    (hp : plain v = true) (hf : object_free v = true) :
    parser stod (generate dtoa v) = .value v (generate dtoa v).length := by
  rw [generate_object_free dtoa v hf]
  have h := parser_compact_text stod dtoa v hp
  rw [stored_of_ordered v (ordered_of_object_free v hf)] at h
  exact h

/-- C23, on the tree Array[Int 2147483647, Array[Array[], String `a]`], Bool true, Null]. -/
theorem roundtrip_object_free_witness :
    generate (fun _ => [])
        (.Array [.Int 2147483647, .Array [.Array [], .String "a]".toList], .Bool true, .Null]) =
      "[2147483647,[[],\"a]\"],true,null]".toList ∧
    parser (fun _ => none) "[2147483647,[[],\"a]\"],true,null]".toList =
      .value (.Array [.Int 2147483647, .Array [.Array [], .String "a]".toList], .Bool true,
        .Null]) 32 := by
  have hg : generate (fun _ => [])
      (.Array [.Int 2147483647, .Array [.Array [], .String "a]".toList], .Bool true, .Null]) =
      "[2147483647,[[],\"a]\"],true,null]".toList := by rfl
  have h := roundtrip_object_free (fun _ => none) (fun _ => [])
    (.Array [.Int 2147483647, .Array [.Array [], .String "a]".toList], .Bool true, .Null])
    (by decide) (by decide)
  rw [hg] at h
  exact ⟨hg, h⟩

theorem compact_members_eq (dtoa : Double → Text) (o : List (Text × Node)) :
    compact_members dtoa o = List.intercalate [',']
      (o.map (fun m => generate_string m.1 ++ ':' :: compact_text dtoa m.2)) := by
  induction o with
  | nil => simp [compact_members, List.intercalate]
  | cons m rest ih =>
    obtain ⟨k, v⟩ := m
    cases rest with
    | nil => simp [compact_members, List.intercalate, generate_string]
    | cons m2 rest =>
      rw [compact_members, ih]
      simp [List.intercalate, List.intersperse, generate_string]

theorem generate_object_flat (dtoa : Double → Text) (o : Object)
    (hf : ∀ m ∈ o, object_free m.2 = true) :
    generate dtoa (.Object o) = '{' :: compact_members dtoa o := by
  rw [generate_object_eq, compact_members_eq]
  congr 2
  apply List.map_congr_left
  intro m hm
  rw [generate_object_free dtoa m.2 (hf m hm)]

theorem ordered_members_of_object_free (o : Object) (hf : ∀ m ∈ o, object_free m.2 = true) :
    ordered_members o = true := by
  induction o with
  | nil => rfl
  | cons m rest ih =>
    obtain ⟨k, v⟩ := m
    have hv := ordered_of_object_free v (hf (k, v) (by simp))
    have hr := ih (fun m hm => hf m (by simp [hm]))
    simp [ordered_members, hv, hr]

theorem skip_separator_end {s : Text} {pos : Nat} (sep : Char) (h : s.drop pos = []) :
    skip_separator s pos sep = pos := by
  have h1 : parse_whitespace s pos = pos := parse_whitespace_stay h (by simp)
  simp [skip_separator, h1, at_is_of_drop_nil sep h]

theorem parse_object_loop_unclosed (stod : Text → Option Double) (dtoa : Double → Text)
    (s : Text) (o : List (Text × Node)) : ∀ (fuel : Nat) (obj : Object) (pos : Nat),
    plain_members o = true → s.drop pos = compact_members dtoa o →
    2 * (s.length - pos) + 2 ≤ fuel →
    parse_object_loop stod s fuel pos obj =
      .value (.Object (stored_members o obj)) (pos + (compact_members dtoa o).length + 1) := by
  induction o with
  | nil =>
    intro fuel obj pos _ hdrop hfuel
    cases fuel with
    | zero => omega
    | succ fuel =>
      have hd : s.drop pos = [] := by simpa [compact_members] using hdrop
      simp [parse_object_loop, at_is_not_of_drop_nil '}' hd, stored_members, compact_members]
  | cons m rest ih =>
    intro fuel obj pos hp hdrop hfuel
    cases fuel with
    | zero => omega
    | succ fuel =>
      obtain ⟨k, x⟩ := m
      obtain ⟨ihv, _, _⟩ := parse_compact_aux stod dtoa s fuel
      have hpm : (dquote ∉ k ∧ plain x = true) ∧ plain_members rest = true := by
        simpa [plain_members] using hp
      obtain ⟨r, hhead⟩ := compact_members_head dtoa (k, x) rest
      have hd0 : s.drop pos = dquote :: r := by rw [hdrop, hhead]
      have hlt := lt_length_of_drop hd0
      have hcond : at_is_not s pos '}' = true := by
        rw [at_is_not_of_drop '}' hd0]; decide
      obtain ⟨c1, r1, hx1, hsp1, _, _⟩ := compact_text_head dtoa x hpm.1.2
      have hxl : 1 ≤ (compact_text dtoa x).length := by rw [hx1]; simp
      have hpk : plain (.String k) = true := by simp [plain, hpm.1.1]
      have hkt : compact_text dtoa (.String k) = [dquote] ++ k ++ [dquote] := by
        simp [compact_text]
      have hkl : (compact_text dtoa (.String k)).length = k.length + 2 := by
        rw [hkt]; simp
      cases rest with
      | nil =>
        have hd : s.drop pos = compact_text dtoa (.String k) ++
            ':' :: (compact_text dtoa x ++ []) := by
          rw [hdrop]; simp [compact_members, compact_text]
        have hlen := length_of_drop hd
        have hkey := ihv (.String k) pos _ hpk hd (number_stop_cons _ (by decide)) (by omega)
        have hd2 := drop_add_of_drop _ hd
        have hws2 : parse_whitespace s (pos + (compact_text dtoa (.String k)).length) = _ :=
          parse_whitespace_stay hd2 (head_not_space _ (by decide))
        have hcolon := at_is_of_drop ':' hd2
        have hd3 := drop_succ_of_drop hd2
        have hws3 : parse_whitespace s (pos + (compact_text dtoa (.String k)).length + 1) = _ :=
          parse_whitespace_stay hd3 (by rw [hx1]; exact head_not_space _ hsp1)
        have hval := ihv x _ _ hpm.1.2 hd3 number_stop_nil (by omega)
        have hd4 := drop_add_of_drop _ hd3
        have hsk : skip_separator s
            (pos + (compact_text dtoa (.String k)).length + 1 + (compact_text dtoa x).length)
            ',' = _ := skip_separator_end ',' hd4
        have hl := ih fuel (Object.assign obj k (stored x)) _ rfl
          (by simpa [compact_members] using hd4) (by omega)
        simp only [parse_object_loop, hcond, if_true, hkey, stored, hws2, hcolon, hws3, hval,
          hsk, hl, decide_True]
        simp [stored_members, compact_members, hkl]
        omega
      | cons m2 rest =>
        have hd : s.drop pos = compact_text dtoa (.String k) ++
            ':' :: (compact_text dtoa x ++ ',' :: compact_members dtoa (m2 :: rest)) := by
          rw [hdrop]; simp [compact_members, compact_text]
        have hlen := length_of_drop hd
        have hkey := ihv (.String k) pos _ hpk hd (number_stop_cons _ (by decide)) (by omega)
        have hd2 := drop_add_of_drop _ hd
        have hws2 : parse_whitespace s (pos + (compact_text dtoa (.String k)).length) = _ :=
          parse_whitespace_stay hd2 (head_not_space _ (by decide))
        have hcolon := at_is_of_drop ':' hd2
        have hd3 := drop_succ_of_drop hd2
        have hws3 : parse_whitespace s (pos + (compact_text dtoa (.String k)).length + 1) = _ :=
          parse_whitespace_stay hd3 (by rw [hx1]; exact head_not_space _ hsp1)
        have hval := ihv x _ _ hpm.1.2 hd3 (number_stop_cons _ (by decide)) (by omega)
        have hd4 := drop_add_of_drop _ hd3
        obtain ⟨r2, hhead2⟩ := compact_members_head dtoa m2 rest
        have hsk : skip_separator s
            (pos + (compact_text dtoa (.String k)).length + 1 + (compact_text dtoa x).length)
            ',' = _ :=
          skip_separator_at hd4 (by decide) (by rw [hhead2]; exact head_not_space _ (by decide))
        have hl := ih fuel (Object.assign obj k (stored x)) _ hpm.2
          (drop_succ_of_drop hd4) (by omega)
        simp only [parse_object_loop, hcond, if_true, hkey, stored, hws2, hcolon, hws3, hval,
          hsk, hl, decide_True]
        simp [stored_members, compact_members, hkl]
        omega

theorem compact_text_last (dtoa : Double → Text) (v : Node) (hp : plain v = true)
    (hf : object_free v = true) :
    ∃ init c, compact_text dtoa v = init ++ [c] ∧ c ≠ '}' := by
  cases v with
  | Null => exact ⟨"nul".toList, 'l', rfl, by decide⟩
  | Bool b =>
    cases b
    · exact ⟨"fals".toList, 'e', rfl, by decide⟩
    · exact ⟨"tru".toList, 'e', rfl, by decide⟩
  | Int n =>
    have h0 : 0 ≤ n := by
      simp only [plain, Bool.and_eq_true, decide_eq_true_eq] at hp
      exact hp.1
    obtain ⟨hne, hdig, _⟩ := toDigits_spec n.natAbs
    have ht : compact_text dtoa (.Int n) = Nat.toDigits 10 n.natAbs := by
      simp [compact_text, to_string_of_nonneg n h0]
    refine ⟨(Nat.toDigits 10 n.natAbs).dropLast, (Nat.toDigits 10 n.natAbs).getLast hne, ?_, ?_⟩
    · rw [ht, List.dropLast_append_getLast]
    · exact isdigit_ne (hdig _ (List.getLast_mem hne)) (by decide)
  | Float x => simp [plain] at hp
  | String s => exact ⟨dquote :: s, dquote, by simp [compact_text], by decide⟩
  | Array a =>
    exact ⟨'[' :: compact_elements dtoa a, ']', by simp [compact_text], by decide⟩
  | Object o => simp [object_free] at hf

theorem compact_members_last (dtoa : Double → Text) (rest : List (Text × Node)) :
    ∀ m : Text × Node, (∀ x ∈ m :: rest, plain x.2 = true ∧ object_free x.2 = true) →
    ∃ init c, compact_members dtoa (m :: rest) = init ++ [c] ∧ c ≠ '}' := by
  induction rest with
  | nil =>
    intro m h
    obtain ⟨k, v⟩ := m
    obtain ⟨init, c, hc, hne⟩ := compact_text_last dtoa v (h (k, v) (by simp)).1
      (h (k, v) (by simp)).2
    exact ⟨[dquote] ++ k ++ [dquote] ++ [':'] ++ init, c, by simp [compact_members, hc], hne⟩
  | cons m2 rest ih =>
    intro m h
    obtain ⟨k, v⟩ := m
    obtain ⟨init, c, hc, hne⟩ := ih m2 (fun x hx => h x (by simp [hx]))
    exact ⟨[dquote] ++ k ++ [dquote] ++ [':'] ++ compact_text dtoa v ++ [','] ++ init, c,
      by rw [compact_members, hc]; simp, hne⟩

/-- C24. Flat top-level Object round trip.  For every Object `o` (the empty one included)
with keys in map order and without `"`, whose values are trees without Object over Null,
Bool, Int `n` with `0 <= n <= 2^31 - 1`, String without `"` and Array: the text `generate`
writes does not end with `}` and is the compact text less its closing `}`, and `parser` on
it returns the Object `o` itself, leaving the object loop at the end of the buffer with the
cursor one past it. -/
theorem roundtrip_flat_object (stod : Text → Option Double) (dtoa : Double → Text)
    (o : Object) (hp : plain_members o = true) (hf : ∀ m ∈ o, object_free m.2 = true)
    (hk : keys_ascending o) :
    (generate dtoa (.Object o)).getLast? ≠ some '}' ∧
    compact_text dtoa (.Object o) = generate dtoa (.Object o) ++ ['}'] ∧
    parser stod (generate dtoa (.Object o)) =
      .value (.Object o) ((generate dtoa (.Object o)).length + 1) := by
  have hgen := generate_object_flat dtoa o hf
  refine ⟨?_, ?_, ?_⟩
  · rw [hgen]
    cases o with
    | nil => simp [compact_members]
    | cons m rest =>
      have hall : ∀ x ∈ m :: rest, plain x.2 = true ∧ object_free x.2 = true :=
        fun x hx => ⟨(plain_members_mem _ hp x hx).2, hf x hx⟩
      obtain ⟨init, c, hc, hne⟩ := compact_members_last dtoa rest m hall
      rw [hc, ← List.cons_append, List.getLast?_append]
      simp only [List.getLast?_singleton]
      intro e
      exact hne (by simpa using e)
  · rw [hgen]; simp [compact_text]
  · rw [hgen]
    have hdisp := parser_dispatch stod [] '{' (compact_members dtoa o) (by simp) (by decide)
    rw [if_neg (by decide), if_neg (by decide), if_neg (by decide), if_neg (by decide),
      if_neg (by decide), if_pos rfl] at hdisp
    simp only [List.nil_append, List.length_nil] at hdisp
    rw [hdisp, parse_object_loop_unclosed stod dtoa ('{' :: compact_members dtoa o) o _ [] (0 + 1) hp rfl
      (by simp only [List.length_cons]; omega)]
    have hord : ordered (.Object o) = true := by
      simp [ordered, hk, ordered_members_of_object_free o hf]
    have hst := stored_of_ordered (.Object o) hord
    simp only [stored] at hst
    rw [Value.Object.injEq] at hst
    rw [hst]
    simp
    omega

/-- C24, on the Object{configurations: Array[Bool true], version: Int 1} and on the empty
Object. -/
theorem roundtrip_flat_object_witness :
    generate (fun _ => [])
        (.Object [("configurations".toList, .Array [.Bool true]), ("version".toList, .Int 1)]) =
      '{' :: "\"configurations\":[true],\"version\":1".toList ∧
    parser (fun _ => none) ('{' :: "\"configurations\":[true],\"version\":1".toList) =
      .value (.Object [("configurations".toList, .Array [.Bool true]),
        ("version".toList, .Int 1)]) 37 ∧
    generate (fun _ => []) (.Object []) = ['{'] ∧
    parser (fun _ => none) ['{'] = .value (.Object []) 2 := by
  have hg : generate (fun _ => [])
      (.Object [("configurations".toList, .Array [.Bool true]), ("version".toList, .Int 1)]) =
      '{' :: "\"configurations\":[true],\"version\":1".toList := by rfl
  have hg0 : generate (fun _ => []) (.Object []) = ['{'] := by rfl
  have h := (roundtrip_flat_object (fun _ => none) (fun _ => [])
    [("configurations".toList, .Array [.Bool true]), ("version".toList, .Int 1)]
    (by decide) (by decide) (by decide)).2.2
  have h0 := (roundtrip_flat_object (fun _ => none) (fun _ => []) []
    (by decide) (by decide) (by decide)).2.2
  rw [hg] at h
  rw [hg0] at h0
  exact ⟨hg, h, hg0, h0⟩


/-! ## Texts the parser reads -/

theorem parse_whitespace_leading {s : Text} {q : Nat} (w : Text) {rest : Text}
    (h : s.drop q = w ++ rest) (hw : ∀ c ∈ w, isspace c = true) :
    parse_whitespace s q = parse_whitespace s (q + w.length) := by
  simp only [parse_whitespace, h, drop_add_of_drop w h]
  exact scan_while_leading isspace w rest q hw

theorem parse_whitespace_idem (s : Text) (q : Nat) :
    parse_whitespace s (parse_whitespace s q) = parse_whitespace s q := by
  have hsplit : s.drop q = (s.drop q).takeWhile isspace ++ (s.drop q).dropWhile isspace :=
    (List.takeWhile_append_dropWhile _ _).symm
  have hw : ∀ c ∈ (s.drop q).takeWhile isspace, isspace c = true :=
    fun c hc => (List.mem_takeWhile_imp hc)
  have hstop : ∀ c ∈ ((s.drop q).dropWhile isspace).head?, isspace c = false := by
    intro c hc
    cases hd : (s.drop q).dropWhile isspace with
    | nil => rw [hd] at hc; simp at hc
    | cons d rest =>
      rw [hd] at hc
      simp at hc
      have := List.head_dropWhile_not isspace (s.drop q) (by rw [hd]; simp)
      simp only [hd, List.head_cons] at this
      rw [← hc]
      simpa using this
  rw [parse_whitespace_skip _ hsplit hw hstop]
  exact parse_whitespace_stay (drop_add_of_drop _ hsplit) hstop

theorem parse_value_ws_eq (stod : Text → Option Double) (s : Text) (fuel p q : Nat)
    (h : parse_whitespace s p = parse_whitespace s q) :
    parse_value stod s fuel p = parse_value stod s fuel q := by
  cases fuel with
  | zero => rfl
  | succ fuel => simp only [parse_value, h]

theorem parse_value_at_is_not_bracket (stod : Text → Option Double) (s : Text)
    (fuel pos : Nat) (v : Node) (p : Nat) (h : parse_value stod s fuel pos = .value v p) :
    at_is_not s pos ']' = true := by
  cases fuel with
  | zero => simp [parse_value] at h
  | succ fuel =>
    cases hd : s.drop pos with
    | nil =>
      have hws : parse_whitespace s pos = pos := parse_whitespace_stay hd (by simp)
      have hget : s[pos]? = none := by rw [← List.head?_drop, hd]; rfl
      simp [parse_value, hws, hget] at h
    | cons c rest =>
      rw [at_is_not_of_drop ']' hd]
      by_contra hne
      have hc : c = ']' := by simpa using hne
      subst hc
      have hws : parse_whitespace s pos = pos :=
        parse_whitespace_stay hd (head_not_space _ (by decide))
      rw [parse_value_succ stod s fuel pos _ hws (getElem?_of_drop hd), if_neg (by decide),
        if_neg (by decide), if_neg (by decide), if_neg (by decide), if_neg (by decide),
        if_neg (by decide), parse_number_no_lexeme stod hd (by decide)] at h
      cases h

theorem reads_length (stod : Text → Option Double) (t : Text) (n : Node)
    (h : reads stod t n) : 1 ≤ t.length := by
  cases t with
  | nil =>
    have := h [] 0 1 [] rfl number_stop_nil (by simp)
    simp [parse_value, parse_whitespace, scan_while] at this
  | cons c t => simp

theorem parser_of_reads (stod : Text → Option Double) (t : Text) (n : Node)
    (h : reads stod t n) : parser stod t = .value n t.length := by
  have hv := h t 0 (2 * t.length + 1) [] (by simp) number_stop_nil (by omega)
  rw [parser, parse_eq, parse_value_ws_eq stod t _ _ 0 (parse_whitespace_idem t 0), hv]
  simp

/-! ## The result depends on the text up to the cursor reached -/

theorem getElem?_append_lt (t suf : Text) (pos : Nat) (h : pos < t.length) :
    (t ++ suf)[pos]? = t[pos]? :=
  List.getElem?_append_left h

theorem drop_append_le (t suf : Text) (pos : Nat) (h : pos ≤ t.length) :
    (t ++ suf).drop pos = t.drop pos ++ suf :=
  List.drop_append_of_le_length h

theorem scan_while_le (p : Char → Bool) (x : Text) (i : Nat) :
    scan_while p x i ≤ i + x.length := by
  induction x generalizing i with
  | nil => simp [scan_while]
  | cons c x ih =>
    simp only [scan_while, List.length_cons]
    split
    · have := ih (i + 1); omega
    · omega

theorem scan_while_append_lt (p : Char → Bool) (x suf : Text) (i : Nat)
    (h : scan_while p x i < i + x.length) :
    scan_while p (x ++ suf) i = scan_while p x i := by
  induction x generalizing i with
  | nil => simp [scan_while] at h
  | cons c x ih =>
    simp only [scan_while, List.cons_append] at h ⊢
    split
    · rename_i hc
      rw [if_pos hc] at h
      exact ih (i + 1) (by simp only [List.length_cons] at h; omega)
    · rfl

theorem scan_while_append_stop (p : Char → Bool) (x suf : Text) (i : Nat)
    (hs : ∀ c ∈ suf.head?, p c = false) :
    scan_while p (x ++ suf) i = scan_while p x i := by
  induction x generalizing i with
  | nil =>
    cases suf with
    | nil => rfl
    | cons d suf =>
      have hd : p d = false := hs d (by simp)
      simp [scan_while, hd]
  | cons c x ih =>
    simp only [scan_while, List.cons_append]
    split
    · exact ih (i + 1)
    · rfl

theorem parse_whitespace_le (t : Text) (pos : Nat) (h : pos ≤ t.length) :
    parse_whitespace t pos ≤ t.length := by
  have := scan_while_le isspace (t.drop pos) pos
  simp only [List.length_drop] at this
  simp only [parse_whitespace]
  omega

theorem parse_whitespace_append (t suf : Text) (pos : Nat)
    (h : parse_whitespace t pos < t.length) :
    parse_whitespace (t ++ suf) pos = parse_whitespace t pos := by
  have hge := parse_whitespace_ge t pos
  have hle : pos ≤ t.length := by omega
  simp only [parse_whitespace] at h ⊢
  rw [drop_append_le t suf pos hle]
  exact scan_while_append_lt isspace _ suf pos (by simp only [List.length_drop]; omega)

theorem at_is_append (t suf : Text) (pos : Nat) (c : Char) (h : pos < t.length) :
    at_is (t ++ suf) pos c = at_is t pos c := by
  simp only [at_is, getElem?_append_lt t suf pos h]

theorem at_is_not_append (t suf : Text) (pos : Nat) (c : Char) (h : pos < t.length) :
    at_is_not (t ++ suf) pos c = at_is_not t pos c := by
  simp only [at_is_not, getElem?_append_lt t suf pos h]

theorem skip_separator_append (t suf : Text) (pos : Nat) (sep : Char)
    (h : skip_separator t pos sep < t.length) :
    skip_separator (t ++ suf) pos sep = skip_separator t pos sep := by
  simp only [skip_separator] at h ⊢
  have h1 : parse_whitespace t pos < t.length := by
    split at h
    · have := parse_whitespace_ge t (parse_whitespace t pos + 1); omega
    · have := parse_whitespace_ge t (parse_whitespace t pos); omega
  rw [parse_whitespace_append t suf pos h1, at_is_append t suf _ sep h1]
  split
  · rename_i hc
    rw [if_pos hc] at h
    exact parse_whitespace_append t suf _ h
  · rename_i hc
    rw [if_neg hc] at h
    exact parse_whitespace_append t suf _ h

theorem substr_append (t suf : Text) (pos n : Nat) (h : pos + n ≤ t.length) :
    substr (t ++ suf) pos n = substr t pos n := by
  simp only [substr, List.length_append]
  rw [if_neg (by omega), if_neg (by omega), drop_append_le t suf pos (by omega),
    List.take_append_of_le_length (by simp only [List.length_drop]; omega)]

theorem parse_null_append (t suf : Text) (pos : Nat) (v : Node) (p : Nat)
    (h : parse_null t pos = .value v p) (hp : p ≤ t.length) :
    parse_null (t ++ suf) pos = .value v p := by
  have hv := (parse_null_value h).2
  rw [← h]
  simp only [parse_null, substr_append t suf pos 4 (by omega)]

theorem parse_true_append (t suf : Text) (pos : Nat) (v : Node) (p : Nat)
    (h : parse_true t pos = .value v p) (hp : p ≤ t.length) :
    parse_true (t ++ suf) pos = .value v p := by
  have hv := (parse_true_value h).2
  rw [← h]
  simp only [parse_true, substr_append t suf pos 4 (by omega)]

theorem parse_false_append (t suf : Text) (pos : Nat) (v : Node) (p : Nat)
    (h : parse_false t pos = .value v p) (hp : p ≤ t.length) :
    parse_false (t ++ suf) pos = .value v p := by
  have hv := (parse_false_value h).2
  rw [← h]
  simp only [parse_false, substr_append t suf pos 5 (by omega)]

theorem find_quote_append_some (x suf : Text) (i e : Nat) (h : find_quote x i = some e) :
    find_quote (x ++ suf) i = some e ∧ e < i + x.length := by
  induction x generalizing i with
  | nil => simp [find_quote] at h
  | cons c x ih =>
    simp only [find_quote, List.cons_append, List.length_cons] at h ⊢
    split
    · rename_i hc
      rw [if_pos hc] at h
      have := ih (i + 1) h
      exact ⟨this.1, by omega⟩
    · rename_i hc
      rw [if_neg hc] at h
      exact ⟨h, by cases h; omega⟩

theorem parse_string_append (t suf : Text) (pos : Nat) (v : Node) (p : Nat)
    (h : parse_string t pos = .value v p) (hp : p ≤ t.length) :
    parse_string (t ++ suf) pos = .value v p := by
  simp only [parse_string] at h ⊢
  by_cases hlt : pos + 1 < t.length
  · rw [if_pos hlt] at h
    rw [if_pos (by simp only [List.length_append]; omega),
      drop_append_le t suf (pos + 1) (by omega)]
    cases hf : find_quote (t.drop (pos + 1)) (pos + 1) with
    | none => rw [hf] at h; cases h
    | some e =>
      obtain ⟨hf2, he⟩ := find_quote_append_some _ suf _ _ hf
      have hge := find_quote_ge _ _ _ hf
      simp only [List.length_drop] at he
      rw [hf] at h
      rw [hf2]
      simp only [] at h ⊢
      rw [substr_append t suf (pos + 1) (e - (pos + 1)) (by omega)]
      exact h
  · rw [if_neg hlt] at h
    simp only [Nat.sub_self] at h
    split at h
    · cases h
    · cases h; omega

theorem parse_number_append (stod : Text → Option Double) (t suf : Text) (pos : Nat)
    (v : Node) (p : Nat) (hsuf : number_stop suf)
    (h : parse_number stod t pos = .value v p) (hp : p ≤ t.length) :
    parse_number stod (t ++ suf) pos = .value v p := by
  have hlt := (parse_number_value stod h).2
  have hle : pos ≤ t.length := by omega
  have hend : scan_while is_number_char (t.drop pos) pos ≤ t.length := by
    have := scan_while_le is_number_char (t.drop pos) pos
    simp only [List.length_drop] at this
    omega
  have hge := scan_while_ge is_number_char (t.drop pos) pos
  rw [← h]
  simp only [parse_number, drop_append_le t suf pos hle,
    scan_while_append_stop is_number_char (t.drop pos) suf pos hsuf]
  rw [substr_append t suf pos _ (by omega)]

theorem parse_loop_lt (stod : Text → Option Double) (s : Text) : ∀ fuel : Nat,
    (∀ (pos : Nat) (acc : List Node) (v : Node) (p : Nat),
      parse_array_loop stod s fuel pos acc = .value v p → pos < p) ∧
    (∀ (pos : Nat) (obj : Object) (v : Node) (p : Nat),
      parse_object_loop stod s fuel pos obj = .value v p → pos < p) := by
  intro fuel
  induction fuel with
  | zero =>
    refine ⟨?_, ?_⟩
    · intro pos acc v p h; simp [parse_array_loop] at h
    · intro pos obj v p h; simp [parse_object_loop] at h
  | succ fuel ih =>
    obtain ⟨iha, iho⟩ := ih
    have hcur := (parse_cursor_aux stod s fuel).1
    refine ⟨?_, ?_⟩
    · intro pos acc v p h
      rw [parse_array_loop] at h
      split at h
      · cases hv : parse_value stod s fuel pos with
        | value x p1 =>
          rw [hv] at h
          simp only [] at h
          have h1 := hcur pos p1 (by rw [hv]; rfl)
          have h2 := skip_separator_ge s p1 ','
          have h3 := iha _ _ _ _ h
          omega
        | _ => rw [hv] at h; cases h
      · cases h; omega
    · intro pos obj v p h
      rw [parse_object_loop] at h
      split at h
      · cases hv : parse_value stod s fuel pos with
        | value key p1 =>
          rw [hv] at h
          simp only [] at h
          have h1 := hcur pos p1 (by rw [hv]; rfl)
          cases key with
          | String k =>
            simp only [] at h
            generalize hq : parse_whitespace s
              (if at_is s (parse_whitespace s p1) ':' = true then parse_whitespace s p1 + 1
                else parse_whitespace s p1) = q at h
            have hq1 : p1 ≤ q := by
              have a1 := parse_whitespace_ge s p1
              rw [← hq]
              split
              · have := parse_whitespace_ge s (parse_whitespace s p1 + 1); omega
              · have := parse_whitespace_ge s (parse_whitespace s p1); omega
            cases hv2 : parse_value stod s fuel q with
            | value val p5 =>
              rw [hv2] at h
              simp only [] at h
              have h5 := hcur q p5 (by rw [hv2]; rfl)
              have h6 := skip_separator_ge s p5 ','
              have h7 := iho _ _ _ _ h
              omega
            | _ => rw [hv2] at h; cases h
          | _ => cases h
        | _ => rw [hv] at h; cases h
      · cases h; omega

theorem parse_append_aux (stod : Text → Option Double) (t suf : Text)
    (hsuf : number_stop suf) : ∀ fuel : Nat,
    (∀ (pos : Nat) (v : Node) (p : Nat), parse_value stod t fuel pos = .value v p →
      p ≤ t.length → parse_value stod (t ++ suf) fuel pos = .value v p) ∧
    (∀ (pos : Nat) (acc : List Node) (v : Node) (p : Nat),
      parse_array_loop stod t fuel pos acc = .value v p → p ≤ t.length →
      parse_array_loop stod (t ++ suf) fuel pos acc = .value v p) ∧
    (∀ (pos : Nat) (obj : Object) (v : Node) (p : Nat),
      parse_object_loop stod t fuel pos obj = .value v p → p ≤ t.length →
      parse_object_loop stod (t ++ suf) fuel pos obj = .value v p) := by
  intro fuel
  induction fuel with
  | zero =>
    refine ⟨?_, ?_, ?_⟩
    · intro pos v p h; simp [parse_value] at h
    · intro pos acc v p h; simp [parse_array_loop] at h
    · intro pos obj v p h; simp [parse_object_loop] at h
  | succ fuel ih =>
    obtain ⟨ihv, iha, iho⟩ := ih
    have hcur := (parse_cursor_aux stod t fuel).1
    obtain ⟨lta, lto⟩ := parse_loop_lt stod t fuel
    refine ⟨?_, ?_, ?_⟩
    · intro pos v p h hp
      simp only [parse_value] at h ⊢
      cases hget : t[parse_whitespace t pos]? with
      | none => rw [hget] at h; cases h
      | some c =>
        have hlt := lt_length_of_getElem? hget
        rw [hget] at h
        simp only [] at h
        rw [parse_whitespace_append t suf pos hlt, getElem?_append_lt t suf _ hlt, hget]
        simp only []
        by_cases h1 : c = 'n'
        · rw [if_pos h1] at h ⊢
          exact parse_null_append t suf _ v p h hp
        rw [if_neg h1] at h ⊢
        by_cases h2 : c = 't'
        · rw [if_pos h2] at h ⊢
          exact parse_true_append t suf _ v p h hp
        rw [if_neg h2] at h ⊢
        by_cases h3 : c = 'f'
        · rw [if_pos h3] at h ⊢
          exact parse_false_append t suf _ v p h hp
        rw [if_neg h3] at h ⊢
        by_cases h4 : c = dquote
        · rw [if_pos h4] at h ⊢
          exact parse_string_append t suf _ v p h hp
        rw [if_neg h4] at h ⊢
        by_cases h5 : c = '['
        · rw [if_pos h5] at h ⊢
          exact iha _ _ v p h hp
        rw [if_neg h5] at h ⊢
        by_cases h6 : c = '{'
        · rw [if_pos h6] at h ⊢
          exact iho _ _ v p h hp
        rw [if_neg h6] at h ⊢
        exact parse_number_append stod t suf _ v p hsuf h hp
    · intro pos acc v p h hp
      rw [parse_array_loop] at h ⊢
      by_cases hc : at_is_not t pos ']' = true
      · have hlt := at_is_not_lt hc
        rw [if_pos hc] at h
        rw [at_is_not_append t suf pos _ hlt, if_pos hc]
        cases hv : parse_value stod t fuel pos with
        | value x p1 =>
          rw [hv] at h
          simp only [] at h
          have h2 := skip_separator_ge t p1 ','
          have h3 := lta _ _ _ _ h
          rw [ihv pos x p1 hv (by omega)]
          simp only []
          rw [skip_separator_append t suf p1 ',' (by omega)]
          exact iha _ _ v p h hp
        | _ => rw [hv] at h; cases h
      · rw [if_neg hc] at h
        cases h
        rw [at_is_not_append t suf pos _ (by omega), if_neg hc]
    · intro pos obj v p h hp
      rw [parse_object_loop] at h ⊢
      by_cases hc : at_is_not t pos ('}') = true
      · have hlt := at_is_not_lt hc
        rw [if_pos hc] at h
        rw [at_is_not_append t suf pos _ hlt, if_pos hc]
        cases hv : parse_value stod t fuel pos with
        | value key p1 =>
          rw [hv] at h
          simp only [] at h
          cases key with
          | String k =>
            simp only [] at h
            have a1 := parse_whitespace_ge t p1
            have a2 : parse_whitespace t p1 ≤
                (if at_is t (parse_whitespace t p1) ':' = true then parse_whitespace t p1 + 1
                  else parse_whitespace t p1) := by
              split <;> omega
            have a3 := parse_whitespace_ge t
              (if at_is t (parse_whitespace t p1) ':' = true then parse_whitespace t p1 + 1
                else parse_whitespace t p1)
            cases hv2 : parse_value stod t fuel (parse_whitespace t
              (if at_is t (parse_whitespace t p1) ':' = true then parse_whitespace t p1 + 1
                else parse_whitespace t p1)) with
            | value val p5 =>
              rw [hv2] at h
              simp only [] at h
              have h5 := hcur _ p5 (by rw [hv2]; rfl)
              have h6 := skip_separator_ge t p5 ','
              have h7 := lto _ _ _ _ h
              rw [ihv pos _ p1 hv (by omega)]
              simp only []
              rw [parse_whitespace_append t suf p1 (by omega),
                at_is_append t suf _ ':' (by omega),
                parse_whitespace_append t suf _ (by omega),
                ihv _ val p5 hv2 (by omega)]
              simp only []
              rw [skip_separator_append t suf p5 ',' (by omega)]
              exact iho _ _ v p h hp
            | _ => rw [hv2] at h; cases h
          | _ => cases h
        | _ => rw [hv] at h; cases h
      · rw [if_neg hc] at h
        cases h
        rw [at_is_not_append t suf pos _ (by omega), if_neg hc]

theorem reads_of_alone (stod : Text → Option Double) (t : Text) (n : Node)
    (h : parser stod t = .value n t.length) : reads stod t n := by
  rw [parser, parse_eq, parse_value_ws_eq stod t _ _ 0 (parse_whitespace_idem t 0)] at h
  intro s pos fuel suf hdrop hsuf hfuel
  have hlen : s.length - pos = t.length + suf.length := by
    rw [length_of_drop hdrop, List.length_append]
  have hne : 1 ≤ t.length := by
    cases t with
    | nil => simp [parse_value, parse_whitespace, scan_while] at h
    | cons c t => simp
  have hs : s = s.take pos ++ (t ++ suf) := by rw [← hdrop, List.take_append_drop]
  have hpre : (s.take pos).length = pos := by
    rw [List.length_take]; omega
  have hfu : parse_value stod t fuel 0 = .value n t.length := by
    have := (parse_fuel_mono stod t (2 * t.length + 1)).1 0 (fuel - (2 * t.length + 1))
      (by omega)
    rw [show 2 * t.length + 1 + (fuel - (2 * t.length + 1)) = fuel by omega] at this
    rw [this, h]
  have happ := (parse_append_aux stod t suf hsuf fuel).1 0 n t.length hfu (Nat.le_refl _)
  have hsh := (parse_shift_aux stod (s.take pos) (t ++ suf) fuel).1 0
  rw [← hs, hpre, Nat.add_zero, happ] at hsh
  rw [hsh]
  rfl

/-! ## Array texts -/

theorem comma_join_cons_cons (t u : Text) (rest : List Text) :
    comma_join (t :: u :: rest) = t ++ ',' :: comma_join (u :: rest) := by
  simp [comma_join]

theorem parsed_eq (stod : Text → Option Double) (t : Text) (n : Node) (p : Nat)
    (h : parser stod t = .value n p) : parsed stod t = n := by
  simp only [parsed, h]

theorem reads_parsed (stod : Text → Option Double) (t : Text)
    (h : ∃ n, parser stod t = .value n t.length) : reads stod t (parsed stod t) := by
  obtain ⟨n, hn⟩ := h
  rw [parsed_eq stod t n _ hn]
  exact reads_of_alone stod t n hn

theorem parse_array_loop_reads (stod : Text → Option Double) (s : Text) :
    ∀ (es : List Text) (fuel p q : Nat) (acc : List Node) (suf : Text),
      (∀ e ∈ es, reads stod e (parsed stod e)) →
      parse_whitespace s p = parse_whitespace s q → (es = [] → p = q) →
      s.drop q = comma_join es ++ ']' :: suf → 2 * (s.length - q) + 2 ≤ fuel →
      parse_array_loop stod s fuel p acc =
        .value (.Array (acc ++ es.map (parsed stod))) (q + (comma_join es).length + 1) := by
  intro es
  induction es with
  | nil =>
    intro fuel p q acc suf _ _ hnil hdrop hfuel
    have hpq : p = q := hnil rfl
    subst hpq
    simp only [comma_join, List.nil_append] at hdrop
    obtain ⟨fuel, rfl⟩ : ∃ f, fuel = f + 1 := ⟨fuel - 1, by omega⟩
    rw [parse_array_loop, at_is_not_of_drop ']' hdrop]
    simp [comma_join]
  | cons e rest ih =>
    intro fuel p q acc suf hr hws _ hdrop hfuel
    obtain ⟨fuel, rfl⟩ : ∃ f, fuel = f + 1 := ⟨fuel - 1, by omega⟩
    have hre : reads stod e (parsed stod e) := hr e (by simp)
    have hrr : ∀ x ∈ rest, reads stod x (parsed stod x) := fun x hx => hr x (by simp [hx])
    have hlen := reads_length stod e _ hre
    cases rest with
    | nil =>
      simp only [comma_join] at hdrop
      have hv := hre s q fuel (']' :: suf) hdrop (number_stop_cons _ (by decide)) (by omega)
      have hvp : parse_value stod s fuel p = .value (parsed stod e) (q + e.length) := by
        rw [parse_value_ws_eq stod s fuel p q hws, hv]
      have hd2 : s.drop (q + e.length) = ']' :: suf := drop_add_of_drop e hdrop
      have hsl := length_of_drop hdrop
      simp only [List.length_append, List.length_cons] at hsl
      rw [parse_array_loop, parse_value_at_is_not_bracket stod s fuel p _ _ hvp, if_pos rfl, hvp]
      simp only []
      rw [skip_separator_other hd2 (by decide) (by decide),
        ih fuel (q + e.length) (q + e.length) (acc ++ [parsed stod e]) suf hrr rfl
          (fun _ => rfl) (by simpa [comma_join] using hd2) (by omega)]
      simp [comma_join]
    | cons u rest =>
      rw [comma_join_cons_cons] at hdrop
      have hv := hre s q fuel (',' :: comma_join (u :: rest) ++ ']' :: suf)
        (by rw [hdrop]; simp) (number_stop_cons _ (by decide)) (by omega)
      have hvp : parse_value stod s fuel p = .value (parsed stod e) (q + e.length) := by
        rw [parse_value_ws_eq stod s fuel p q hws, hv]
      have hd1 : s.drop q = e ++ (',' :: comma_join (u :: rest) ++ ']' :: suf) := by
        rw [hdrop]; simp
      have hd2 : s.drop (q + e.length) = ',' :: (comma_join (u :: rest) ++ ']' :: suf) := by
        simpa using drop_add_of_drop e hd1
      have hd3 := drop_succ_of_drop hd2
      have hsl := length_of_drop hdrop
      simp only [List.length_append, List.length_cons] at hsl
      have hsk : skip_separator s (q + e.length) ',' = parse_whitespace s (q + e.length + 1) := by
        have h1 : parse_whitespace s (q + e.length) = q + e.length :=
          parse_whitespace_stay hd2 (head_not_space _ (by decide))
        simp [skip_separator, h1, at_is_of_drop ',' hd2]
      rw [parse_array_loop, parse_value_at_is_not_bracket stod s fuel p _ _ hvp, if_pos rfl, hvp]
      simp only []
      rw [hsk, ih fuel _ (q + e.length + 1) (acc ++ [parsed stod e]) suf hrr
          (parse_whitespace_idem s _) (fun h => by cases h) hd3 (by omega)]
      simp only [comma_join_cons_cons, List.length_append, List.length_cons, List.map_cons,
        List.append_assoc, List.singleton_append]
      congr 1
      omega

theorem reads_array_text (stod : Text → Option Double) (es : List Text)
    (h : ∀ e ∈ es, reads stod e (parsed stod e)) :
    reads stod (array_text es) (.Array (es.map (parsed stod))) := by
  intro s pos fuel suf hdrop hsuf hfuel
  have hd : s.drop pos = '[' :: (comma_join es ++ ']' :: suf) := by
    rw [hdrop]; simp [array_text]
  have hlt := lt_length_of_drop hd
  obtain ⟨fuel, rfl⟩ : ∃ f, fuel = f + 1 := ⟨fuel - 1, by omega⟩
  rw [parse_value_succ stod s fuel pos '[' (parse_whitespace_stay hd (head_not_space _ (by decide)))
    (getElem?_of_drop hd), if_neg (by decide), if_neg (by decide), if_neg (by decide),
    if_neg (by decide), if_pos rfl,
    parse_array_loop_reads stod s es fuel (pos + 1) (pos + 1) [] suf h rfl (fun _ => rfl)
      (drop_succ_of_drop hd) (by omega)]
  simp only [array_text, List.nil_append, List.length_append, List.length_cons,
    List.length_nil]
  congr 1
  omega

theorem index_array_map (f : Text → Node) (es : List Text) (i : Nat) (hi : i < es.length) :
    index_array (.Array (es.map f)) i = (.Array (es.map f), .ok (f es[i])) := by
  have hget : (es.map f)[i]? = some (f es[i]) := by
    rw [List.getElem?_map, List.getElem?_eq_getElem hi]; rfl
  simp [index_array, hget]

/-! ## Object texts -/

theorem reads_leading_space (stod : Text → Option Double) (w t : Text) (n : Node)
    (hw : ∀ c ∈ w, isspace c = true) (h : reads stod t n) : reads stod (w ++ t) n := by
  intro s pos fuel suf hdrop hsuf hfuel
  have hd : s.drop pos = w ++ (t ++ suf) := by rw [hdrop, List.append_assoc]
  have hd2 := drop_add_of_drop w hd
  rw [parse_value_ws_eq stod s fuel pos (pos + w.length) (parse_whitespace_leading w hd hw),
    h s (pos + w.length) fuel suf hd2 hsuf (by omega)]
  simp [Nat.add_assoc]

theorem reads_string (stod : Text → Option Double) (body : Text) (hb : dquote ∉ body) :
    reads stod (dquote :: (body ++ [dquote])) (.String body) := by
  intro s pos fuel suf hdrop hsuf hfuel
  have hd : s.drop pos = dquote :: (body ++ dquote :: suf) := by rw [hdrop]; simp
  obtain ⟨fuel, rfl⟩ : ∃ f, fuel = f + 1 := ⟨fuel - 1, by omega⟩
  rw [parse_value_succ stod s fuel pos dquote
    (parse_whitespace_stay hd (head_not_space _ (by decide))) (getElem?_of_drop hd),
    if_neg (by decide), if_neg (by decide), if_neg (by decide), if_pos rfl,
    parse_string_of_drop body hd hb]
  simp only [List.length_cons, List.length_append, List.length_nil]
  congr 1

theorem isspace_not_number_char {c : Char} (h : isspace c = true) :
    is_number_char c = false := by
  have h1 : isdigit c = false := by
    cases hd : isdigit c with
    | false => rfl
    | true => rw [isdigit_not_isspace hd] at h; cases h
  have h2 : c ≠ 'e' := by intro e; subst e; revert h; decide
  have h3 : c ≠ '.' := by intro e; subst e; revert h; decide
  simp [is_number_char, h1, h2, h3]

theorem number_stop_space (w : Text) (c : Char) (rest : Text)
    (hw : ∀ x ∈ w, isspace x = true) (hc : is_number_char c = false) :
    number_stop (w ++ c :: rest) := by
  cases w with
  | nil => exact number_stop_cons rest hc
  | cons x w =>
    exact number_stop_cons (w ++ c :: rest) (isspace_not_number_char (hw x (by simp)))

theorem skip_separator_space_sep {s : Text} {pos : Nat} (w : Text) {sep : Char} {rest : Text}
    (h : s.drop pos = w ++ sep :: rest) (hw : ∀ c ∈ w, isspace c = true)
    (hsep : isspace sep = false) :
    skip_separator s pos sep = parse_whitespace s (pos + w.length + 1) := by
  have h1 : parse_whitespace s pos = pos + w.length :=
    parse_whitespace_skip w h hw (head_not_space _ hsep)
  have h2 := drop_add_of_drop w h
  simp [skip_separator, h1, at_is_of_drop sep h2]

theorem skip_separator_space_other {s : Text} {pos : Nat} (w : Text) {sep c : Char}
    {rest : Text} (h : s.drop pos = w ++ c :: rest) (hw : ∀ x ∈ w, isspace x = true)
    (hc : isspace c = false) (hne : c ≠ sep) :
    skip_separator s pos sep = pos + w.length := by
  have h1 : parse_whitespace s pos = pos + w.length :=
    parse_whitespace_skip w h hw (head_not_space _ hc)
  have h2 := drop_add_of_drop w h
  have h3 : parse_whitespace s (pos + w.length) = pos + w.length :=
    parse_whitespace_stay h2 (head_not_space _ hc)
  simp [skip_separator, h1, at_is_of_drop sep h2, hne, h3]

theorem member_text_eq (m : Member) (tail : Text) :
    Member.text m ++ tail =
      (m.before_key ++ dquote :: (m.key ++ [dquote])) ++
        (m.after_key ++ ':' :: ((m.before_value ++ m.value) ++ (m.after_value ++ tail))) := by
  simp [Member.text]

theorem member_text_length (m : Member) :
    (Member.text m).length = m.before_key.length + m.key.length + 2 + m.after_key.length + 1 +
      m.before_value.length + m.value.length + m.after_value.length := by
  simp only [Member.text, List.length_append, List.length_cons, List.length_nil]
  omega

theorem parse_object_loop_member (stod : Text → Option Double) (s : Text) (m : Member)
    (fuel p q : Nat) (obj : Object) (tail : Text) (hm : Member.well_formed stod m)
    (hws : parse_whitespace s p = parse_whitespace s q)
    (hdrop : s.drop q = Member.text m ++ tail)
    (htail : ∀ c ∈ tail.head?, isspace c = false ∧ is_number_char c = false)
    (hne : tail ≠ []) (hfuel : 2 * (s.length - q) + 1 ≤ fuel) :
    parse_object_loop stod s (fuel + 1) p obj =
      parse_object_loop stod s fuel
        (skip_separator s (q + (Member.text m).length - m.after_value.length) ',')
        (Object.assign obj m.key (parsed stod m.value)) ∧
    s.drop (q + (Member.text m).length - m.after_value.length) = m.after_value ++ tail := by
  obtain ⟨hbk, hak, hbv, hav, hkey, hval⟩ := hm
  obtain ⟨c, tail, rfl⟩ : ∃ c r, tail = c :: r := by
    cases tail with
    | nil => exact absurd rfl hne
    | cons c r => exact ⟨c, r, rfl⟩
  obtain ⟨hcs, hcn⟩ := htail c (by simp)
  rw [member_text_eq] at hdrop
  have hlen := member_text_length m
  -- the key
  have hrk : reads stod (m.before_key ++ dquote :: (m.key ++ [dquote])) (.String m.key) :=
    reads_leading_space stod _ _ _ hbk (reads_string stod m.key hkey)
  have hk := hrk s q fuel _ hdrop (number_stop_space _ ':' _ hak (by decide)) hfuel
  have hkp : parse_value stod s fuel p = .value (.String m.key)
      (q + (m.before_key ++ dquote :: (m.key ++ [dquote])).length) := by
    rw [parse_value_ws_eq stod s fuel p q hws, hk]
  have hd1 := drop_add_of_drop _ hdrop
  generalize hp1 : q + (m.before_key ++ dquote :: (m.key ++ [dquote])).length = p1 at hkp hd1
  have hp1v : p1 = q + m.before_key.length + m.key.length + 2 := by
    rw [← hp1]
    simp only [List.length_append, List.length_cons, List.length_nil]
    omega
  -- the colon
  have hw1 : parse_whitespace s p1 = p1 + m.after_key.length :=
    parse_whitespace_skip _ hd1 hak (head_not_space _ (by decide))
  have hd2 := drop_add_of_drop _ hd1
  have hcolon : at_is s (p1 + m.after_key.length) ':' = true := by
    rw [at_is_of_drop ':' hd2]; rfl
  have hd3 := drop_succ_of_drop hd2
  -- the value
  have hrv : reads stod (m.before_value ++ m.value) (parsed stod m.value) :=
    reads_leading_space stod _ _ _ hbv (reads_parsed stod m.value hval)
  have hsl := length_of_drop hdrop
  simp only [List.length_append, List.length_cons, List.length_nil] at hsl
  have hv := hrv s (p1 + m.after_key.length + 1) fuel _ hd3
    (number_stop_space _ c _ hav hcn) (by omega)
  have hvp : parse_value stod s fuel (parse_whitespace s (p1 + m.after_key.length + 1)) =
      .value (parsed stod m.value)
        (p1 + m.after_key.length + 1 + (m.before_value ++ m.value).length) := by
    rw [parse_value_ws_eq stod s fuel _ (p1 + m.after_key.length + 1)
      (parse_whitespace_idem s _), hv]
  have hd4 := drop_add_of_drop _ hd3
  have hpos : p1 + m.after_key.length + 1 + (m.before_value ++ m.value).length =
      q + (Member.text m).length - m.after_value.length := by
    simp only [List.length_append]
    omega
  rw [hpos] at hvp hd4
  refine ⟨?_, hd4⟩
  rw [parse_object_loop, parse_value_at_is_not stod s fuel p _ _ hkp, if_pos rfl, hkp]
  simp only []
  rw [hw1, hcolon, if_pos rfl, hvp]

theorem parse_object_loop_members (stod : Text → Option Double) (s : Text) :
    ∀ (ms : List Member) (fuel p q : Nat) (obj : Object) (suf : Text),
      (∀ m ∈ ms, Member.well_formed stod m) →
      parse_whitespace s p = parse_whitespace s q → (ms = [] → p = q) →
      s.drop q = comma_join (ms.map Member.text) ++ '}' :: suf →
      2 * (s.length - q) + 2 ≤ fuel →
      parse_object_loop stod s fuel p obj =
        .value (.Object (Object.assign_all
          (ms.map (fun m => (m.key, parsed stod m.value))) obj))
          (q + (comma_join (ms.map Member.text)).length + 1) := by
  intro ms
  induction ms with
  | nil =>
    intro fuel p q obj suf _ _ hnil hdrop hfuel
    have hpq : p = q := hnil rfl
    subst hpq
    simp only [List.map_nil, comma_join, List.nil_append] at hdrop
    obtain ⟨fuel, rfl⟩ : ∃ f, fuel = f + 1 := ⟨fuel - 1, by omega⟩
    rw [parse_object_loop, at_is_not_of_drop ('}') hdrop]
    simp [comma_join, Object.assign_all]
  | cons m rest ih =>
    intro fuel p q obj suf hr hws _ hdrop hfuel
    obtain ⟨fuel, rfl⟩ : ∃ f, fuel = f + 1 := ⟨fuel - 1, by omega⟩
    have hm : Member.well_formed stod m := hr m (by simp)
    have hrr : ∀ x ∈ rest, Member.well_formed stod x := fun x hx => hr x (by simp [hx])
    have hav := hm.2.2.2.1
    have hlen := member_text_length m
    have hsl := length_of_drop hdrop
    cases rest with
    | nil =>
      simp only [List.map_cons, List.map_nil, comma_join] at hdrop hsl
      simp only [List.length_append, List.length_cons] at hsl
      obtain ⟨hstep, hd⟩ := parse_object_loop_member stod s m fuel p q obj ('}' :: suf) hm hws
        hdrop (by intro c hc; simp at hc; subst hc; exact ⟨by decide, by decide⟩) (by simp)
        (by omega)
      rw [hstep, skip_separator_space_other m.after_value hd hav (by decide) (by decide),
        ih fuel _ _ _ suf hrr rfl (fun _ => rfl)
          (by simpa [comma_join] using drop_add_of_drop _ hd) (by omega)]
      simp only [List.map_cons, List.map_nil, comma_join, Object.assign_all, List.length_nil]
      congr 1
      omega
    | cons u rest =>
      simp only [List.map_cons, comma_join_cons_cons] at hdrop hsl
      simp only [List.length_append, List.length_cons] at hsl
      obtain ⟨hstep, hd⟩ := parse_object_loop_member stod s m fuel p q obj
        (',' :: (comma_join (Member.text u :: rest.map Member.text) ++ '}' :: suf)) hm hws
        (by rw [hdrop]; simp)
        (by intro c hc; simp at hc; subst hc; exact ⟨by decide, by decide⟩) (by simp)
        (by omega)
      have hd2 := drop_succ_of_drop (drop_add_of_drop _ hd)
      rw [hstep, skip_separator_space_sep m.after_value hd hav (by decide),
        ih fuel _ _ _ suf hrr (parse_whitespace_idem s _) (fun h => by cases h)
          (by simpa using hd2) (by omega)]
      simp only [List.map_cons, comma_join_cons_cons, Object.assign_all, List.length_append,
        List.length_cons]
      congr 1
      omega

theorem reads_object_text (stod : Text → Option Double) (ms : List Member)
    (h : ∀ m ∈ ms, Member.well_formed stod m) :
    reads stod (object_text ms)
      (.Object (Object.assign_all (ms.map (fun m => (m.key, parsed stod m.value))) [])) := by
  intro s pos fuel suf hdrop hsuf hfuel
  have hd : s.drop pos = '{' :: (comma_join (ms.map Member.text) ++ '}' :: suf) := by
    rw [hdrop]; simp [object_text]
  have hlt := lt_length_of_drop hd
  obtain ⟨fuel, rfl⟩ : ∃ f, fuel = f + 1 := ⟨fuel - 1, by omega⟩
  rw [parse_value_succ stod s fuel pos '{' (parse_whitespace_stay hd (head_not_space _ (by decide)))
    (getElem?_of_drop hd), if_neg (by decide), if_neg (by decide), if_neg (by decide),
    if_neg (by decide), if_neg (by decide), if_pos rfl,
    parse_object_loop_members stod s ms fuel (pos + 1) (pos + 1) [] suf h rfl (fun _ => rfl)
      (drop_succ_of_drop hd) (by omega)]
  simp only [object_text, List.length_append, List.length_cons, List.length_nil]
  congr 1
  omega

theorem assign_all_ascending (ps : List (Text × Node)) (obj : Object)
    (h : keys_ascending obj) : keys_ascending (Object.assign_all ps obj) := by
  induction ps generalizing obj with
  | nil => simpa [Object.assign_all] using h
  | cons m rest ih =>
    obtain ⟨k, v⟩ := m
    simp only [Object.assign_all]
    exact ih _ (assign_ascending obj k v h)

theorem assign_all_mem_key (ps : List (Text × Node)) (obj : Object) (key : Text) :
    key ∈ (Object.assign_all ps obj).map Prod.fst ↔
      key ∈ ps.map Prod.fst ∨ key ∈ obj.map Prod.fst := by
  induction ps generalizing obj with
  | nil => simp [Object.assign_all]
  | cons m rest ih =>
    obtain ⟨k, v⟩ := m
    simp only [Object.assign_all, ih, assign_mem_key, List.map_cons, List.mem_cons]
    tauto

theorem assign_all_find (ps : List (Text × Node)) (obj : Object) (key : Text) :
    Object.find (Object.assign_all ps obj) key =
      match ps.reverse.find? (fun m => m.1 = key) with
      | some m => some m.2
      | none => Object.find obj key := by
  induction ps generalizing obj with
  | nil => simp [Object.assign_all]
  | cons m rest ih =>
    obtain ⟨k, v⟩ := m
    simp only [Object.assign_all, ih, List.reverse_cons, List.find?_append]
    cases hr : List.find? (fun m => decide (m.1 = key)) rest.reverse with
    | some m1 => simp
    | none =>
      by_cases hk : key = k
      · subst hk
        simp [assign_find]
      · have hk2 : ¬ k = key := fun e => hk e.symm
        simp [assign_find, hk, hk2]

theorem members_find_last (stod : Text → Option Double) (ms : List Member) (m : Member)
    (h : ms.reverse.find? (fun x => x.key = m.key) = some m) :
    Object.find (Object.assign_all (ms.map (fun x => (x.key, parsed stod x.value))) []) m.key =
      some (parsed stod m.value) := by
  rw [assign_all_find, ← List.map_reverse, List.find?_map]
  have : (List.find? ((fun p : Text × Node => decide (p.1 = m.key)) ∘
      fun x : Member => (x.key, parsed stod x.value)) ms.reverse) = some m := by
    rw [← h]; rfl
  rw [this]
  rfl


/-! ## Array order and last write wins -/

/-- C11 (amended). Array order.  For every list `es` of texts `e0, ..., e(n-1)` each of
which `parser` reads alone to its end (on `ei` alone it returns a Node and leaves the
cursor at the end of `ei`), `parser` on `[` e0 `,` ... `,` e(n-1) `]` returns an Array of
length `n`, with the cursor at the end of the text, and `index_array` at every `i < n`
leaves the node as it is and returns the Node that `parser` returns for `ei` alone.  The
texts are arbitrary otherwise: Floats, nested Arrays and Objects, white space inside or in
front of a value. -/
theorem parser_array_order (stod : Text → Option Double) (es : List Text)
    (h : ∀ e ∈ es, ∃ n, parser stod e = .value n e.length) :
    ∃ a, parser stod (array_text es) = .value (.Array a) (array_text es).length ∧
      a.length = es.length ∧
      ∀ (i : Nat) (hi : i < es.length), ∃ n,
        parser stod es[i] = .value n es[i].length ∧
        index_array (.Array a) i = (.Array a, .ok n) := by
  refine ⟨es.map (parsed stod), ?_, by simp, ?_⟩
  · exact parser_of_reads stod _ _
      (reads_array_text stod es (fun e he => reads_parsed stod e (h e he)))
  · intro i hi
    obtain ⟨n, hn⟩ := h es[i] (List.getElem_mem _)
    refine ⟨n, hn, ?_⟩
    rw [index_array_map (parsed stod) es i hi, parsed_eq stod es[i] n _ hn]

/-- C11 (amended), at the text `[1.5,2,"x",[true]]`, with a `std::stod` that converts
`1.5`. -/
theorem parser_array_order_witness :
    (∀ e ∈ ["1.5".toList, "2".toList, "\"x\"".toList, "[true]".toList],
      ∃ n, parser stod_sample e = .value n e.length) ∧
    array_text ["1.5".toList, "2".toList, "\"x\"".toList, "[true]".toList] =
      "[1.5,2,\"x\",[true]]".toList ∧
    parser stod_sample "[1.5,2,\"x\",[true]]".toList =
      .value (.Array [.Float ⟨4609434218613702656⟩, .Int 2, .String "x".toList,
        .Array [.Bool true]]) 18 ∧
    ∃ a, parser stod_sample
        (array_text ["1.5".toList, "2".toList, "\"x\"".toList, "[true]".toList]) =
        .value (.Array a)
          (array_text ["1.5".toList, "2".toList, "\"x\"".toList, "[true]".toList]).length ∧
      a.length = ["1.5".toList, "2".toList, "\"x\"".toList, "[true]".toList].length ∧
      ∀ (i : Nat)
        (hi : i < ["1.5".toList, "2".toList, "\"x\"".toList, "[true]".toList].length),
        ∃ n, parser stod_sample
            (["1.5".toList, "2".toList, "\"x\"".toList, "[true]".toList][i]) =
            .value n
              (["1.5".toList, "2".toList, "\"x\"".toList, "[true]".toList][i]).length ∧
          index_array (.Array a) i = (.Array a, .ok n) :=
  have hes : ∀ e ∈ ["1.5".toList, "2".toList, "\"x\"".toList, "[true]".toList],
      ∃ n, parser stod_sample e = .value n e.length := by
    intro e he
    simp only [List.mem_cons, List.mem_singleton, List.not_mem_nil, or_false] at he
    rcases he with rfl | rfl | rfl | rfl
    · exact ⟨.Float ⟨4609434218613702656⟩, rfl⟩
    · exact ⟨.Int 2, rfl⟩
    · exact ⟨.String "x".toList, rfl⟩
    · exact ⟨.Array [.Bool true], rfl⟩
  ⟨hes, by rfl, by rfl, parser_array_order stod_sample
    ["1.5".toList, "2".toList, "\"x\"".toList, "[true]".toList] hes⟩

theorem parser_array_throws (stod : Text → Option Double) :
    parser stod "[\"a\\\"b\"]".toList = .bad_optional_access ∧
    parser stod "\"a\\\"b\"".toList = .value (.String "a\\".toList) 4 ∧
    parser stod "[-1]".toList = .bad_optional_access ∧
    parser stod "-1".toList = .nullopt 0 ∧
    parser stod "[2147483648]".toList = .bad_optional_access ∧
    parser stod "2147483648".toList = .nullopt 10 :=
  ⟨by rfl, by rfl, by rfl, by rfl, by rfl, by rfl⟩

/-- C11, counterexample to the claim as the specification states it: the value texts
`"a\"b"`, `-1` and `2147483648` are well formed and compact, and `parser` on `["a\"b"]`,
`[-1]` and `[2147483648]` throws `std::bad_optional_access` instead of returning an Array;
on `"a\"b"` alone it returns the String `a\` with the cursor at 4, on `-1` and
`2147483648` alone it returns no value.  None of these texts reaches `std::stod`
(`parser_array_throws` holds for every `stod`). -/
theorem parser_array_order_counterexample :
    parser stod_sample "[\"a\\\"b\"]".toList = .bad_optional_access ∧
    parser stod_sample "\"a\\\"b\"".toList = .value (.String "a\\".toList) 4 ∧
    parser stod_sample "[-1]".toList = .bad_optional_access ∧
    parser stod_sample "-1".toList = .nullopt 0 ∧
    parser stod_sample "[2147483648]".toList = .bad_optional_access ∧
    parser stod_sample "2147483648".toList = .nullopt 10 :=
  parser_array_throws stod_sample

/-- C10 (amended). Last write wins.  For every object text `{` m1 `,` ... `,` mn `}` whose
members are, in textual order, `ws "key" ws : ws value ws` with any white space `ws`
(none included), a key without the byte `"`, and a value text that `parser` reads alone to
its end (on the value text alone it returns a Node and leaves the cursor at the end of
it), `parser` returns an Object, with the cursor at the end of the text, whose keys are
exactly the keys of the members, each once, and which holds at every key the Node that
`parser` returns for the value text of the last member with that key.  The value texts
are arbitrary otherwise: Floats, nested Arrays and Objects. -/
theorem parser_object_last_write_wins (stod : Text → Option Double) (members : List Member)
    (h : ∀ m ∈ members, Member.well_formed stod m) :
    ∃ o, parser stod (object_text members) = .value (.Object o) (object_text members).length ∧
      (∀ key, key ∈ o.map Prod.fst ↔ key ∈ members.map Member.key) ∧
      (o.map Prod.fst).Nodup ∧
      ∀ (key : Text) (m : Member),
        members.reverse.find? (fun x => x.key = key) = some m →
        ∃ n, parser stod m.value = .value n m.value.length ∧ Object.find o key = some n := by
  refine ⟨Object.assign_all (members.map (fun m => (m.key, parsed stod m.value))) [],
    parser_of_reads stod _ _ (reads_object_text stod members h), ?_, ?_, ?_⟩
  · intro key
    rw [assign_all_mem_key]
    simp [Function.comp_def]
  · exact keys_ascending_nodup _ (assign_all_ascending _ [] (by simp [keys_ascending]))
  · intro key m hlast
    have hmem : m ∈ members := by
      have := List.mem_of_find?_eq_some hlast
      simpa using this
    have hkey : m.key = key := by
      have := List.find?_some hlast
      simpa using this
    obtain ⟨n, hn⟩ := (h m hmem).2.2.2.2.2
    refine ⟨n, hn, ?_⟩
    subst hkey
    rw [members_find_last stod members m hlast, parsed_eq stod m.value n _ hn]

/-- C10 (amended), at the text `{"k":1 , "k":1.5}`, with a `std::stod` that converts `1.5`:
white space around the comma and a Float member; the Object holds the Float of the last
member at `k`.  The text `{"k":1,"k":2}` parses to Object{k: Int 2}. -/
theorem parser_object_last_write_wins_witness :
    (∀ m ∈ [Member.mk [] "k".toList [] [] "1".toList " ".toList,
        Member.mk " ".toList "k".toList [] [] "1.5".toList []],
      Member.well_formed stod_sample m) ∧
    object_text [Member.mk [] "k".toList [] [] "1".toList " ".toList,
        Member.mk " ".toList "k".toList [] [] "1.5".toList []] =
      "\x7b\"k\":1 , \"k\":1.5\x7d".toList ∧
    parser stod_sample "\x7b\"k\":1 , \"k\":1.5\x7d".toList =
      .value (.Object [("k".toList, .Float ⟨4609434218613702656⟩)]) 17 ∧
    parser stod_sample "\x7b\"k\":1,\"k\":2\x7d".toList =
      .value (.Object [("k".toList, .Int 2)]) 13 ∧
    ∃ o, parser stod_sample (object_text [Member.mk [] "k".toList [] [] "1".toList " ".toList,
        Member.mk " ".toList "k".toList [] [] "1.5".toList []]) =
        .value (.Object o) (object_text [Member.mk [] "k".toList [] [] "1".toList " ".toList,
          Member.mk " ".toList "k".toList [] [] "1.5".toList []]).length ∧
      (∀ key, key ∈ o.map Prod.fst ↔
        key ∈ [Member.mk [] "k".toList [] [] "1".toList " ".toList,
          Member.mk " ".toList "k".toList [] [] "1.5".toList []].map Member.key) ∧
      (o.map Prod.fst).Nodup ∧
      ∀ (key : Text) (m : Member),
        [Member.mk [] "k".toList [] [] "1".toList " ".toList,
          Member.mk " ".toList "k".toList [] [] "1.5".toList []].reverse.find?
            (fun x => x.key = key) = some m →
        ∃ n, parser stod_sample m.value = .value n m.value.length ∧
          Object.find o key = some n :=
  have hms : ∀ m ∈ [Member.mk [] "k".toList [] [] "1".toList " ".toList,
      Member.mk " ".toList "k".toList [] [] "1.5".toList []],
      Member.well_formed stod_sample m := by
    intro m hm
    simp only [List.mem_cons, List.mem_singleton, List.not_mem_nil, or_false] at hm
    rcases hm with rfl | rfl
    · exact ⟨by decide, by decide, by decide, by decide, by decide, .Int 1, rfl⟩
    · exact ⟨by decide, by decide, by decide, by decide, by decide,
        .Float ⟨4609434218613702656⟩, rfl⟩
  ⟨hms, by rfl, by rfl, by rfl, parser_object_last_write_wins stod_sample
    [Member.mk [] "k".toList [] [] "1".toList " ".toList,
      Member.mk " ".toList "k".toList [] [] "1.5".toList []] hms⟩

theorem parser_object_throws (stod : Text → Option Double) :
    parser stod "\x7b\"k\":-1,\"k\":2\x7d".toList = .bad_optional_access ∧
    parser stod "\x7b\"a\\\"b\":1\x7d".toList = .bad_optional_access :=
  ⟨by rfl, by rfl⟩

/-- C10, counterexample to the claim as the specification states it: the object texts
`{"k":-1,"k":2}` and `{"a\"b":1}` are well formed, and `parser` on them throws
`std::bad_optional_access` instead of returning an Object.  Neither text reaches
`std::stod` (`parser_object_throws` holds for every `stod`). -/
theorem parser_object_last_write_wins_counterexample :
    parser stod_sample "\x7b\"k\":-1,\"k\":2\x7d".toList = .bad_optional_access ∧
    parser stod_sample "\x7b\"a\\\"b\":1\x7d".toList = .bad_optional_access :=
  parser_object_throws stod_sample

end json
